import Mathlib

/-! # writeAM text editor: a shallow embedding of `writeAM.c`

Bytes (`char`) are natural numbers below 256, read as unsigned; where the C code
turns a `char` into an `int` (the key `editorReadKey` returns) the value is that of
a signed `char`, `charValue`.  Byte buffers are lists: `row->chars` is the list of
its first `size` bytes, `row->render` the list of its first `rsize` bytes, so `size`
and `rsize` are list lengths and the NUL terminator the C code keeps behind each
buffer is the value read when a list is indexed at its length.  C `int`s are
integers; the counter `E.dirty`, which every edit increments, wraps around at
`INT_MAX` as a 32-bit `int` (`wrapInt`), the other `int`s count rows, bytes and
columns held in memory and are not wrapped.  Allocation never fails.  A row pointer
`&E.row[k]` is the index `k`; the global `E` and the static locals of functions are
passed explicitly.  Loops that the C code bounds by a condition carry a bound on
their iterations as first argument; the theorems `tabPad_eq`, `scanLoop_fuel` and
`editorUpdateSyntaxFuel_enough` show that the bounds used are never exhausted.

The first part holds the definitions (the embedding section by section of the
source, then what the statements need), the second part the theorems.
-/

namespace WriteAM

/-! ## Section 2: defines -/

/-- Tab stop of the render model (`WRITEAM_TAB_STOP`). -/
def WRITEAM_TAB_STOP : Nat := 8

/-- Key codes of `enum editorKey`. -/
def BACKSPACE : Int := 127
def ARROW_LEFT : Int := 1000
def ARROW_RIGHT : Int := 1001
def ARROW_UP : Int := 1002
def ARROW_DOWN : Int := 1003
def DEL_KEY : Int := 1004
def HOME_KEY : Int := 1005
def END_KEY : Int := 1006
def PAGE_UP : Int := 1007
def PAGE_DOWN : Int := 1008

/-- Number of extra Ctrl-Q presses asked for when the file has unsaved changes
(`WRITEAM_QUIT_TIMES`). -/
def WRITEAM_QUIT_TIMES : Int := 3

/-- The largest and the smallest value of an `int` (32 bits). -/
def INT_MAX : Int := 2147483647
def INT_MIN : Int := -2147483648

/-- The value a 32-bit `int` holds after an operation with the mathematical result
`x`: two-complement wrap-around, as `E.dirty++` shows at `INT_MAX`. -/
def wrapInt (x : Int) : Int := (x + 2147483648) % 4294967296 - 2147483648

/-- The value of a `char` that holds the byte `b`, as an `int`: `char` is signed,
bytes from 128 on are the negative numbers `b - 256`. -/
def charValue (b : Nat) : Int := if b < 128 then (b : Int) else (b : Int) - 256

/-- The macro `CTRL_KEY(k)`, `(k) & 0x1f`, on the code of a letter. -/
def CTRL_KEY (k : Nat) : Int := ((k &&& 31 : Nat) : Int)

/-- The escape byte `'\x1b'`. -/
def ESC : Nat := 27

/-- Highlight classes of `enum editorHighlight`. -/
inductive editorHighlight where
  | HL_NORMAL
  | HL_COMMENT
  | HL_MLCOMMENT
  | HL_KEYWORD1
  | HL_KEYWORD2
  | HL_STRING
  | HL_NUMBER
  | HL_MATCH
  deriving DecidableEq, Repr, Inhabited

open editorHighlight

def HL_HIGHLIGHT_NUMBERS : Nat := 1
def HL_HIGHLIGHT_STRINGS : Nat := 2

/-- The bytes of a string literal. -/
def bytes (s : String) : List Nat := s.toList.map Char.toNat

/-! ## C library functions used by the editor -/

/-- The C-locale `isspace`. -/
def isspace (c : Nat) : Bool := c == 32 || (9 ≤ c && c ≤ 13)

/-- The C-locale `isdigit`. -/
def isdigit (c : Nat) : Bool := 48 ≤ c && c ≤ 57

/-- The test `strchr(s, c) != NULL`: the terminator of `s` counts as part of it. -/
def strchr (s : List Nat) (c : Nat) : Bool := c == 0 || s.contains c

/-- The test `strncmp(a, b, n) == 0` on NUL-terminated buffers: the end of a list is
its terminator, and the comparison stops at the first NUL. -/
def strncmp0 : List Nat → List Nat → Nat → Bool
  | _, _, 0 => true
  | a, b, n + 1 =>
    if a.headD 0 != b.headD 0 then false
    else if a.headD 0 == 0 then true
    else strncmp0 a.tail b.tail n

/-- The bytes of a NUL-terminated buffer that C string functions see: those before
the first NUL. -/
def cstr (b : List Nat) : List Nat := b.takeWhile (fun c => c != 0)

/-- The search of `strstr` through the string `hay` for the string `needle`;
`off` is the offset of `hay` in the buffer searched. -/
def strstrFrom (needle : List Nat) : List Nat → Nat → Option Nat
  | [], off => if needle.isEmpty then some off else none
  | h :: t, off =>
    if needle.isPrefixOf (h :: t) then some off else strstrFrom needle t (off + 1)

/-- The call `strstr(hay, needle)` on NUL-terminated buffers: the offset of the
first occurrence, `none` for `NULL`. -/
def strstr (hay needle : List Nat) : Option Nat :=
  strstrFrom (cstr needle) (cstr hay) 0

/-- The call `strrchr(s, c)`: the string from the last `c` on, `none` for `NULL`. -/
def strrchr : List Nat → Nat → Option (List Nat)
  | [], _ => none
  | h :: t, c =>
    match strrchr t c with
    | some r => some r
    | none => if h = c then some (h :: t) else none

/-- The library call `getline` on the unread bytes of a stream: the next line with
its newline, if any, and the bytes left; `none` at end of file. -/
def getline (input : List Nat) : Option (List Nat × List Nat) :=
  match input with
  | [] => none
  | _ :: _ =>
    match input.span (fun c => c != 10) with
    | (l, []) => some (l, [])
    | (l, _ :: rest) => some (l ++ [10], rest)

/-- One call `read(STDIN_FILENO, &c, 1)` against a script of future reads, each a
byte (`read` returns 1) or a time-out (`none`); an exhausted script times out. -/
def readByte : List (Option Nat) → Option Nat × List (Option Nat)
  | [] => (none, [])
  | r :: rest => (r, rest)

/-- The C-locale `iscntrl`. -/
def iscntrl (c : Nat) : Bool := c < 32 || c == 127

/-- The C-locale `iscntrl` called with an `int` that need not be a byte, as
`editorPrompt` does with a key: no number outside 0..127 is a control character. -/
def iscntrlKey (c : Int) : Bool := decide (0 ≤ c) && iscntrl c.toNat

/-- The decimal digits `snprintf` writes for `%d`. -/
def decimal (n : Int) : List Nat :=
  (if n < 0 then [45] else []) ++ (Nat.toDigits 10 n.natAbs).map Char.toNat

/-! ## Section 3: data -/

/-- The record `struct editorSyntax`; the `char *` members are byte lists. -/
structure editorSyntax where
  fileType : List Nat
  fileMatch : List (List Nat)
  keywords : List (List Nat)
  singlelineCommentStart : List Nat
  multilineCommentStart : List Nat
  multilineCommentEnd : List Nat
  flags : Nat
  deriving DecidableEq, Repr

/-- The record `struct erow`; `size` and `rsize` are the lengths of `chars` and `render`. -/
structure erow where
  idx : Int
  chars : List Nat
  render : List Nat
  hl : List editorHighlight
  hlOpenComment : Bool
  deriving DecidableEq, Repr, Inhabited

/-- The member `row->size`. -/
def erow.size (r : erow) : Nat := r.chars.length

/-- The member `row->rsize`. -/
def erow.rsize (r : erow) : Nat := r.render.length

/-- The record `struct editorConfig` (the global `E`), without the status message
and the terminal settings.  `syn` is the member `E.syntax` (`none` is `NULL`). -/
structure editorConfig where
  cursorX : Int
  cursorY : Int
  rx : Int
  rowoff : Int
  coloff : Int
  screenRows : Int
  screenCols : Int
  numRows : Int
  row : List erow
  dirty : Int
  fileName : Option (List Nat)
  syn : Option editorSyntax
  deriving DecidableEq, Repr

/-- The row `E.row[k]`. -/
def rowAt (E : editorConfig) (k : Nat) : erow := E.row.getD k default

/-- The store `E.row[k] = r`. -/
def setRow (E : editorConfig) (k : Nat) (r : erow) : editorConfig :=
  { E with row := E.row.set k r }

/-! ## Section 4: file types -/

def C_HL_extensions : List (List Nat) := [bytes ".c", bytes ".h", bytes ".cpp"]

def C_HL_keywords : List (List Nat) :=
  [bytes "switch", bytes "if", bytes "while", bytes "for", bytes "break",
   bytes "continue", bytes "return", bytes "else", bytes "struct", bytes "union",
   bytes "typedef", bytes "static", bytes "enum", bytes "class", bytes "case",
   bytes "int|", bytes "long|", bytes "double|", bytes "float|", bytes "char|",
   bytes "unsigned|", bytes "signed|", bytes "void|"]

/-- The only entry of `HLDB`: the C profile. -/
def HLDB_C : editorSyntax :=
  { fileType := bytes "c"
    fileMatch := C_HL_extensions
    keywords := C_HL_keywords
    singlelineCommentStart := bytes "//"
    multilineCommentStart := bytes "/*"
    multilineCommentEnd := bytes "*/"
    flags := HL_HIGHLIGHT_NUMBERS ||| HL_HIGHLIGHT_STRINGS }

def HLDB : List editorSyntax := [HLDB_C]

/-! ## Section 6: terminal, key decoding -/

/-- The `if (c == '\x1b') { ... }` branch of `editorReadKey`: the key and the reads
left. -/
def readEscape (input : List (Option Nat)) : Int × List (Option Nat) :=
  match readByte input with
  | (none, r1) => (27, r1)
  | (some seq0, r1) =>
    match readByte r1 with
    | (none, r2) => (27, r2)
    | (some seq1, r2) =>
      if seq0 = 91 then
        if 48 ≤ seq1 ∧ seq1 ≤ 57 then
          match readByte r2 with
          | (none, r3) => (27, r3)
          | (some seq2, r3) =>
            if seq2 = 126 then
              if seq1 = 49 then (HOME_KEY, r3)
              else if seq1 = 51 then (DEL_KEY, r3)
              else if seq1 = 52 then (END_KEY, r3)
              else if seq1 = 53 then (PAGE_UP, r3)
              else if seq1 = 54 then (PAGE_DOWN, r3)
              else if seq1 = 55 then (HOME_KEY, r3)
              else if seq1 = 56 then (END_KEY, r3)
              else (27, r3)
            else (27, r3)
        else if seq1 = 65 then (ARROW_UP, r2)
        else if seq1 = 66 then (ARROW_DOWN, r2)
        else if seq1 = 67 then (ARROW_RIGHT, r2)
        else if seq1 = 68 then (ARROW_LEFT, r2)
        else if seq1 = 72 then (HOME_KEY, r2)
        else if seq1 = 70 then (END_KEY, r2)
        else (27, r2)
      else if seq0 = 79 then
        if seq1 = 72 then (HOME_KEY, r2)
        else if seq1 = 70 then (END_KEY, r2)
        else (27, r2)
      else (27, r2)

/-- The function `editorReadKey` against a script of reads: the key and the reads
left, or `none` while the first loop is still waiting at the end of the script.
The byte read into `char c` is returned by `return c;` as the `int` value of that
`char`. -/
def editorReadKey : List (Option Nat) → Option (Int × List (Option Nat))
  | [] => none
  | none :: rest => editorReadKey rest
  | some c :: rest => if c = ESC then some (readEscape rest) else some (charValue c, rest)

/-! ## Section 7: syntax highlighting -/

/-- The function `isSeparator`. -/
def isSeparator (c : Nat) : Bool :=
  isspace c || c == 0 || strchr (bytes ",.()+-/*=%<>[];") c

/-- The call `memset(&hl[i], v, n)`; a write behind the end of the array would
lengthen the list. -/
def memsetHl (hl : List editorHighlight) (i : Nat) (v : editorHighlight) (n : Nat) :
    List editorHighlight :=
  hl.take i ++ List.replicate n v ++ hl.drop (i + n)

/-- The local variables of the scan in `editorUpdateSyntax`, with the array `row->hl`. -/
structure ScanState where
  i : Nat
  hl : List editorHighlight
  previousSep : Bool
  inString : Nat
  inComment : Bool
  deriving DecidableEq, Repr

/-- The keyword loop `for (j = 0; keywords[j]; j++)` at position `i`: the first
keyword that matches and is followed by a separator, as `(kLength, kw2)`. -/
def keywordScan (render : List Nat) (i : Nat) : List (List Nat) → Option (Nat × Bool)
  | [] => none
  | kw :: rest =>
    let kw2 := kw.getLast? == some 124
    let kLength := if kw2 then kw.length - 1 else kw.length
    if strncmp0 (render.drop i) kw kLength && isSeparator (render.getD (i + kLength) 0) then
      some (kLength, kw2)
    else keywordScan render i rest

/-- The end of the loop body: `previousSep = isSeparator(c); i++`. -/
def stepDefault (render : List Nat) (st : ScanState) : ScanState :=
  { st with previousSep := isSeparator (render.getD st.i 0), i := st.i + 1 }

/-- The block `if (previousSep) { ... }`: keywords. -/
def stepKeyword (s : editorSyntax) (render : List Nat) (st : ScanState) : ScanState :=
  if st.previousSep then
    match keywordScan render st.i s.keywords with
    | some (kLength, kw2) =>
      { st with hl := memsetHl st.hl st.i (if kw2 then HL_KEYWORD2 else HL_KEYWORD1) kLength
                i := st.i + kLength
                previousSep := false }
    | none => stepDefault render st
  else stepDefault render st

/-- The block `if (E.syntax->flags & HL_HIGHLIGHT_NUMBERS) { ... }`. -/
def stepNumber (s : editorSyntax) (render : List Nat) (st : ScanState) : ScanState :=
  let c := render.getD st.i 0
  let previousHl := if st.i > 0 then st.hl.getD (st.i - 1) HL_NORMAL else HL_NORMAL
  if s.flags &&& HL_HIGHLIGHT_NUMBERS != 0
      && ((isdigit c && (st.previousSep || previousHl == HL_NORMAL))
          || (c == 46 && previousHl == HL_NUMBER)) then
    { st with hl := memsetHl st.hl st.i HL_NUMBER 1, i := st.i + 1, previousSep := false }
  else stepKeyword s render st

/-- The block `if (E.syntax->flags & HL_HIGHLIGHT_STRINGS) { ... }`. -/
def stepString (s : editorSyntax) (render : List Nat) (st : ScanState) : ScanState :=
  let c := render.getD st.i 0
  if s.flags &&& HL_HIGHLIGHT_STRINGS != 0 then
    if st.inString != 0 then
      let hl1 := memsetHl st.hl st.i HL_STRING 1
      if c == 92 && st.i + 1 < render.length then
        { st with hl := memsetHl hl1 (st.i + 1) HL_STRING 1, i := st.i + 2 }
      else
        { st with hl := hl1
                  inString := if c == st.inString then 0 else st.inString
                  i := st.i + 1
                  previousSep := true }
    else if c == 34 || c == 39 then
      { st with inString := c, hl := memsetHl st.hl st.i HL_STRING 1, i := st.i + 1 }
    else stepNumber s render st
  else stepNumber s render st

/-- The block `if (mcsLength && mceLength && !inString) { ... }`. -/
def stepMlComment (s : editorSyntax) (render : List Nat) (st : ScanState) : ScanState :=
  let mcs := s.multilineCommentStart
  let mce := s.multilineCommentEnd
  if mcs.length != 0 && mce.length != 0 && st.inString == 0 then
    if st.inComment then
      let hl1 := memsetHl st.hl st.i HL_MLCOMMENT 1
      if strncmp0 (render.drop st.i) mce mce.length then
        { st with hl := memsetHl hl1 st.i HL_MLCOMMENT mce.length
                  i := st.i + mce.length
                  inComment := false
                  previousSep := true }
      else { st with hl := hl1, i := st.i + 1 }
    else if strncmp0 (render.drop st.i) mcs mcs.length then
      { st with hl := memsetHl st.hl st.i HL_MLCOMMENT mcs.length
                i := st.i + mcs.length
                inComment := true }
    else stepString s render st
  else stepString s render st

/-- The loop `while (i < row->rsize) { ... }` of `editorUpdateSyntax`; the first
argument bounds the iterations left.  The single-line comment block ends the loop
(`break`). -/
def scanLoop (s : editorSyntax) (render : List Nat) : Nat → ScanState → ScanState
  | 0, st => st
  | fuel + 1, st =>
    if st.i < render.length then
      let scs := s.singlelineCommentStart
      if scs.length != 0 && st.inString == 0 && !st.inComment
          && strncmp0 (render.drop st.i) scs scs.length then
        { st with hl := memsetHl st.hl st.i HL_COMMENT (render.length - st.i) }
      else scanLoop s render fuel (stepMlComment s render st)
    else st

/-- The scan of one row by `editorUpdateSyntax` for a selected profile: the array
`hl` after `memset(row->hl, HL_NORMAL, row->rsize)` and the loop, and the final
`inComment`.  An iteration that does not advance `i` (a keyword of length zero)
clears `previousSep`, so the next one advances: `2 * rsize + 1` iterations are
enough for any profile. -/
def scanRow (s : editorSyntax) (render : List Nat) (inComment : Bool) :
    List editorHighlight × Bool :=
  let st := scanLoop s render (2 * render.length + 1)
    { i := 0, hl := List.replicate render.length HL_NORMAL, previousSep := true,
      inString := 0, inComment := inComment }
  (st.hl, st.inComment)

/-- The function `editorUpdateSyntax` on the row `&E.row[k]`; the first argument
bounds the depth of the recursion into the following rows. -/
def editorUpdateSyntaxFuel : Nat → editorConfig → Nat → editorConfig
  | 0, E, _ => E
  | fuel + 1, E, k =>
    let row := rowAt E k
    match E.syn with
    | none => setRow E k { row with hl := List.replicate row.rsize HL_NORMAL }
    | some s =>
      let inComment := decide (row.idx > 0) && (rowAt E (row.idx - 1).toNat).hlOpenComment
      let res := scanRow s row.render inComment
      let changed := row.hlOpenComment != res.2
      let E1 := setRow E k { row with hl := res.1, hlOpenComment := res.2 }
      if changed && decide (row.idx + 1 < E.numRows) then
        editorUpdateSyntaxFuel fuel E1 (row.idx + 1).toNat
      else E1

/-- The function `editorUpdateSyntax`: the recursion visits each row of the array
at most once when the rows carry their own indices. -/
def editorUpdateSyntax (E : editorConfig) (k : Nat) : editorConfig :=
  editorUpdateSyntaxFuel E.row.length E k

/-- The function `editorSyntaxToColor`. -/
def editorSyntaxToColor (hl : editorHighlight) : Int :=
  match hl with
  | HL_COMMENT => 36
  | HL_MLCOMMENT => 36
  | HL_KEYWORD1 => 33
  | HL_KEYWORD2 => 32
  | HL_STRING => 35
  | HL_NUMBER => 31
  | HL_MATCH => 34
  | HL_NORMAL => 37

/-- The test of `editorSelectSyntaxHighlight` on one `fileMatch` pattern. -/
def fileMatches (name : List Nat) (ext : Option (List Nat)) (pat : List Nat) : Bool :=
  let isExt := pat.head? == some 46
  (isExt && ext == some (cstr pat)) || (!isExt && (strstr name pat).isSome)

/-- The function `editorSelectSyntaxHighlight`. -/
def editorSelectSyntaxHighlight (E : editorConfig) : editorConfig :=
  let E0 := { E with syn := none }
  match E.fileName with
  | none => E0
  | some name =>
    match HLDB.find? (fun s => s.fileMatch.any (fileMatches name (strrchr name 46))) with
    | none => E0
    | some s =>
      (List.range E.numRows.toNat).foldl (fun acc fileRow => editorUpdateSyntax acc fileRow)
        { E0 with syn := some s }

/-! ## Section 8: row operations, column conversions -/

/-- One loop body shared by both column conversions:
`if (chars[i] == '\t') rx += (TAB_STOP - 1) - (rx % TAB_STOP); rx++`. -/
def advanceRx (c : Nat) (rx : Nat) : Nat :=
  (if c = 9 then rx + ((WRITEAM_TAB_STOP - 1) - rx % WRITEAM_TAB_STOP) else rx) + 1

/-- The function `editorRowCxToRx`: the loop `for (i = 0; i < cx; i++)`. -/
def editorRowCxToRx (row : erow) (cx : Nat) : Nat :=
  (List.range cx).foldl (fun rx i => advanceRx (row.chars.getD i 0) rx) 0

/-- The loop of `editorRowRxToCx` from character `cx` with render column `cur_rx`;
the first argument bounds the iterations left. -/
def rxToCxLoop (chars : List Nat) (rx : Nat) : Nat → Nat → Nat → Nat
  | 0, cx, _ => cx
  | fuel + 1, cx, cur_rx =>
    if cx < chars.length then
      let cur := advanceRx (chars.getD cx 0) cur_rx
      if cur > rx then cx else rxToCxLoop chars rx fuel (cx + 1) cur
    else cx

/-- The function `editorRowRxToCx`; the loop runs at most `row->size` times. -/
def editorRowRxToCx (row : erow) (rx : Nat) : Nat :=
  rxToCxLoop row.chars rx row.size 0 0

/-! ## Section 8: row operations, rows -/

/-- The loop `while (idx % WRITEAM_TAB_STOP != 0) render[idx++] = ' '`, where `idx`
is the number of bytes written so far; the first argument bounds the iterations. -/
def tabPad : Nat → List Nat → List Nat
  | 0, render => render
  | fuel + 1, render =>
    if render.length % WRITEAM_TAB_STOP != 0 then tabPad fuel (render ++ [32]) else render

/-- The second loop of `editorUpdateRow` over the bytes of `chars` still to copy;
`render` holds the `idx` bytes written so far. -/
def renderLoop : List Nat → List Nat → List Nat
  | [], render => render
  | c :: cs, render =>
    if c = 9 then renderLoop cs (tabPad WRITEAM_TAB_STOP (render ++ [32]))
    else renderLoop cs (render ++ [c])

/-- The function `editorUpdateRow`: rebuild `render` from `chars`, then
`editorUpdateSyntax(row)`. -/
def editorUpdateRow (E : editorConfig) (k : Nat) : editorConfig :=
  let row := rowAt E k
  editorUpdateSyntax (setRow E k { row with render := renderLoop row.chars [] }) k

/-- The function `editorInsertRow(at, s, len)`: `pos` is the parameter `at`, `s` the
`len` bytes to copy.  The new row is highlighted before `numRows` is incremented. -/
def editorInsertRow (E : editorConfig) (pos : Int) (s : List Nat) : editorConfig :=
  if pos < 0 ∨ pos > E.numRows then E
  else
    let shifted := (E.row.drop pos.toNat).map (fun r => { r with idx := r.idx + 1 })
    let fresh : erow := { idx := pos, chars := s, render := [], hl := [], hlOpenComment := false }
    let E1 := editorUpdateRow { E with row := E.row.take pos.toNat ++ fresh :: shifted } pos.toNat
    { E1 with numRows := E1.numRows + 1, dirty := wrapInt (E1.dirty + 1) }

/-- The function `editorDelRow(at)`; `pos` is the parameter `at`. -/
def editorDelRow (E : editorConfig) (pos : Int) : editorConfig :=
  if pos < 0 ∨ pos ≥ E.numRows then E
  else
    let shifted := (E.row.drop (pos.toNat + 1)).map (fun r : erow => { r with idx := r.idx - 1 })
    { E with row := E.row.take pos.toNat ++ shifted
             numRows := E.numRows - 1
             dirty := wrapInt (E.dirty + 1) }

/-- The function `editorRowInsertChar(row, at, c)` on the row `&E.row[k]`; `pos` is
the parameter `at`, and the store `row->chars[at] = c` keeps the low byte of `c`. -/
def editorRowInsertChar (E : editorConfig) (k : Nat) (pos : Int) (c : Int) : editorConfig :=
  let row := rowAt E k
  let p := if pos < 0 ∨ pos > row.size then row.size else pos.toNat
  let E1 := editorUpdateRow
    (setRow E k { row with chars := row.chars.take p ++ (c % 256).toNat :: row.chars.drop p }) k
  { E1 with dirty := wrapInt (E1.dirty + 1) }

/-- The function `editorRowAppendString(row, s, len)` on the row `&E.row[k]`. -/
def editorRowAppendString (E : editorConfig) (k : Nat) (s : List Nat) : editorConfig :=
  let row := rowAt E k
  let E1 := editorUpdateRow (setRow E k { row with chars := row.chars ++ s }) k
  { E1 with dirty := wrapInt (E1.dirty + 1) }

/-- The function `editorRowDelChar(row, at)` on the row `&E.row[k]`; `pos` is the
parameter `at`. -/
def editorRowDelChar (E : editorConfig) (k : Nat) (pos : Int) : editorConfig :=
  let row := rowAt E k
  if pos < 0 ∨ pos ≥ row.size then E
  else
    let E1 := editorUpdateRow
      (setRow E k { row with chars := row.chars.take pos.toNat ++ row.chars.drop (pos.toNat + 1) }) k
    { E1 with dirty := wrapInt (E1.dirty + 1) }

/-! ## Section 9: editor operations -/

/-- The function `editorInsertChar`. -/
def editorInsertChar (E : editorConfig) (c : Int) : editorConfig :=
  let E1 := if E.cursorY = E.numRows then editorInsertRow E E.numRows [] else E
  let E2 := editorRowInsertChar E1 E1.cursorY.toNat E1.cursorX c
  { E2 with cursorX := E2.cursorX + 1 }

/-- The statement `if (E.cursorX == 0) { ... } else { ... }` of `editorInsertNewLine`. -/
def insertNewLineBody (E : editorConfig) : editorConfig :=
  if E.cursorX = 0 then editorInsertRow E E.cursorY []
  else
    let row := rowAt E E.cursorY.toNat
    let E1 := editorInsertRow E (E.cursorY + 1) (row.chars.drop E.cursorX.toNat)
    let row1 := rowAt E1 E1.cursorY.toNat
    editorUpdateRow
      (setRow E1 E1.cursorY.toNat { row1 with chars := row1.chars.take E1.cursorX.toNat })
      E1.cursorY.toNat

/-- The function `editorInsertNewLine`. -/
def editorInsertNewLine (E : editorConfig) : editorConfig :=
  let E2 := insertNewLineBody E
  { E2 with cursorY := E2.cursorY + 1, cursorX := 0 }

/-- The function `editorDelChar`. -/
def editorDelChar (E : editorConfig) : editorConfig :=
  if E.cursorY = E.numRows then E
  else if E.cursorX = 0 ∧ E.cursorY = 0 then E
  else if E.cursorX > 0 then
    let E1 := editorRowDelChar E E.cursorY.toNat (E.cursorX - 1)
    { E1 with cursorX := E1.cursorX - 1 }
  else
    let row := rowAt E E.cursorY.toNat
    let E1 := { E with cursorX := (rowAt E (E.cursorY - 1).toNat).size }
    let E2 := editorRowAppendString E1 (E.cursorY - 1).toNat row.chars
    let E3 := editorDelRow E2 E2.cursorY
    { E3 with cursorY := E3.cursorY - 1 }

/-! ## Section 10: file i/o -/

/-- The buffer built by `editorRowsToString`: every row followed by a newline. -/
def rowsToString : List erow → List Nat
  | [] => []
  | r :: rs => r.chars ++ 10 :: rowsToString rs

/-- The function `editorRowsToString` (`*buflen` is the length of the result). -/
def editorRowsToString (E : editorConfig) : List Nat :=
  rowsToString (E.row.take E.numRows.toNat)

/-- The loop `while (lineLength > 0 && (line[lineLength - 1] == '\n' || ... == '\r'))
lineLength--`, as the bytes of the line kept. -/
def stripEol (line : List Nat) : List Nat :=
  line.rdropWhile (fun c => c == 10 || c == 13)

/-- The reading loop of `editorOpen`; the first argument bounds the lines left. -/
def openLoop : Nat → editorConfig → List Nat → editorConfig
  | 0, E, _ => E
  | fuel + 1, E, input =>
    match getline input with
    | none => E
    | some (line, rest) => openLoop fuel (editorInsertRow E E.numRows (stripEol line)) rest

/-- The function `editorOpen(fileName)` when `fopen` succeeds on a file holding
`contents`; every line takes at least one byte of it. -/
def editorOpen (E : editorConfig) (fileName : List Nat) (contents : List Nat) : editorConfig :=
  let E1 := editorSelectSyntaxHighlight { E with fileName := some (cstr fileName) }
  let E2 := openLoop contents.length E1 contents
  { E2 with dirty := 0 }

/-! ## Section 11: find -/

/-- The static locals of `editorFindCallback`. -/
structure FindState where
  last_match : Int
  direction : Int
  saved_hl_line : Int
  saved_hl : Option (List editorHighlight)
  deriving DecidableEq, Repr

/-- The initial values of the static locals. -/
def FindState.start : FindState :=
  { last_match := -1, direction := 1, saved_hl_line := 0, saved_hl := none }

/-- The loop `for (i = 0; i < E.numRows; i++)` of `editorFindCallback` with its
iterations left and the value of `current`: the matching row and the offset of the
match in its render bytes, if the loop ends by `break`. -/
def findLoop (E : editorConfig) (query : List Nat) (direction : Int) :
    Nat → Int → Option (Int × Nat)
  | 0, _ => none
  | n + 1, current =>
    let c1 := current + direction
    let c2 := if c1 = -1 then E.numRows - 1 else if c1 = E.numRows then 0 else c1
    match strstr (rowAt E c2.toNat).render query with
    | some off => some (c2, off)
    | none => findLoop E query direction n c2

/-- The first statements of `editorFindCallback`: put back the saved highlight. -/
def findRestore (E : editorConfig) (fs : FindState) : editorConfig :=
  match fs.saved_hl with
  | some saved =>
    let row := rowAt E fs.saved_hl_line.toNat
    setRow E fs.saved_hl_line.toNat
      { row with hl := saved.take row.rsize ++ row.hl.drop row.rsize }
  | none => E

/-- The statics `last_match` and `direction` after the key was looked at. -/
def findKey (fs : FindState) (key : Int) : FindState :=
  let fs1 : FindState :=
    if key = ARROW_RIGHT ∨ key = ARROW_DOWN then { fs with direction := 1 }
    else if key = ARROW_LEFT ∨ key = ARROW_UP then { fs with direction := -1 }
    else { fs with last_match := -1, direction := 1 }
  if fs1.last_match = -1 then { fs1 with direction := 1 } else fs1

/-- The function `editorFindCallback(query, key)` on the editor state and its own
static locals. -/
def editorFindCallback (E : editorConfig) (fs : FindState) (query : List Nat) (key : Int) :
    editorConfig × FindState :=
  let E1 := findRestore E fs
  let fs1 := { fs with saved_hl := none }
  if key = 13 ∨ key = 27 then (E1, { fs1 with last_match := -1, direction := 1 })
  else
    let fs2 := findKey fs1 key
    match findLoop E1 query fs2.direction E1.numRows.toNat fs2.last_match with
    | none => (E1, fs2)
    | some (current, off) =>
      let row := rowAt E1 current.toNat
      let E2 := { E1 with cursorY := current
                          cursorX := editorRowRxToCx row off
                          rowoff := E1.numRows }
      (setRow E2 current.toNat { row with hl := memsetHl row.hl off HL_MATCH (cstr query).length },
       { fs2 with last_match := current
                  saved_hl_line := current
                  saved_hl := some (row.hl.take row.rsize) })

/-! ## Section 12: append buffer -/

/-- The function `abAppend(ab, s, len)` on the bytes of the buffer (`realloc`
succeeds). -/
def abAppend (ab : List Nat) (s : List Nat) (len : Nat) : List Nat := ab ++ s.take len

/-! ## Section 13: output -/

/-- The function `editorScroll`. -/
def editorScroll (E : editorConfig) : editorConfig :=
  let E1 := { E with rx := 0 }
  let E2 :=
    if E1.cursorY < E1.numRows then
      { E1 with rx := editorRowCxToRx (rowAt E1 E1.cursorY.toNat) E1.cursorX.toNat }
    else E1
  let E3 := if E2.cursorY < E2.rowoff then { E2 with rowoff := E2.cursorY } else E2
  let E4 :=
    if E3.cursorY ≥ E3.rowoff + E3.screenRows then
      { E3 with rowoff := E3.cursorY - E3.screenRows + 1 }
    else E3
  let E5 := if E4.rx < E4.coloff then { E4 with coloff := E4.rx } else E4
  if E5.rx ≥ E5.coloff + E5.screenCols then { E5 with coloff := E5.rx - E5.screenCols + 1 }
  else E5

/-- The bytes `snprintf(buf, sizeof(buf), "\x1b[%dm", color)` writes. -/
def sgrColor (color : Int) : List Nat := [27, 91] ++ decimal color ++ [109]

/-- The loop `for (int i = 0; i < len; i++)` of `editorDrawRows` over the visible
bytes `c[i] = render[coloff + i]`, `hl[i]`, with the iterations left, `i`,
`currentColor` and the buffer. -/
def drawLoop (render : List Nat) (hl : List editorHighlight) (coloff : Nat) :
    Nat → Nat → Int → List Nat → List Nat
  | 0, _, _, ab => ab
  | n + 1, i, currentColor, ab =>
    let c := render.getD (coloff + i) 0
    if iscntrl c then
      let sym := if c ≤ 26 then 64 + c else 63
      let ab1 := abAppend (abAppend (abAppend ab [27, 91, 55, 109] 4) [sym] 1) [27, 91, 109] 3
      let ab2 :=
        if currentColor ≠ -1 then abAppend ab1 (sgrColor currentColor) (sgrColor currentColor).length
        else ab1
      drawLoop render hl coloff n (i + 1) currentColor ab2
    else if hl.getD (coloff + i) HL_NORMAL = HL_NORMAL then
      let ab1 := if currentColor ≠ -1 then abAppend ab [27, 91, 51, 57, 109] 5 else ab
      drawLoop render hl coloff n (i + 1) (-1) (abAppend ab1 [c] 1)
    else
      let color := editorSyntaxToColor (hl.getD (coloff + i) HL_NORMAL)
      if color ≠ currentColor then
        drawLoop render hl coloff n (i + 1) color
          (abAppend (abAppend ab (sgrColor color) (sgrColor color).length) [c] 1)
      else drawLoop render hl coloff n (i + 1) currentColor (abAppend ab [c] 1)

/-- The text of the welcome line, `"writeAM Editor -- Version 0.0.1"`. -/
def welcomeText : List Nat := bytes "writeAM Editor -- Version 0.0.1"

/-- One iteration of the outer loop of `editorDrawRows`, for screen row `i`. -/
def drawScreenRow (E : editorConfig) (i : Nat) (ab : List Nat) : List Nat :=
  let fileRow := (i : Int) + E.rowoff
  let ab1 :=
    if fileRow ≥ E.numRows then
      if E.numRows = 0 ∧ (i : Int) = Int.tdiv E.screenRows 3 then
        let welcomeLength :=
          if (welcomeText.length : Int) > E.screenCols then E.screenCols else welcomeText.length
        let padding := Int.tdiv (E.screenCols - welcomeLength) 2
        let ab2 := if padding ≠ 0 then abAppend ab [126] 1 else ab
        let padding1 := if padding ≠ 0 then padding - 1 else padding
        abAppend (ab2 ++ List.replicate padding1.toNat 32) welcomeText welcomeLength.toNat
      else abAppend ab [126] 1
    else
      let row := rowAt E fileRow.toNat
      let len0 := (row.rsize : Int) - E.coloff
      let len1 := if len0 < 0 then 0 else len0
      let len := if len1 > E.screenCols then E.screenCols else len1
      let ab2 := drawLoop row.render row.hl E.coloff.toNat len.toNat 0 (-1) ab
      abAppend ab2 [27, 91, 51, 57, 109] 5
  abAppend (abAppend ab1 [27, 91, 75] 3) [13, 10] 2

/-- The function `editorDrawRows`. -/
def editorDrawRows (E : editorConfig) (ab : List Nat) : List Nat :=
  (List.range E.screenRows.toNat).foldl (fun acc i => drawScreenRow E i acc) ab

/-- The function `editorRefreshScreen` as far as it changes the editor state: the
call of `editorScroll`.  The bytes it writes to the terminal are built from
`editorDrawRows`, the status bar and the message bar, which leave `E` alone. -/
def editorRefreshScreen (E : editorConfig) : editorConfig := editorScroll E

/-! ## Section 14: input -/

/-- How one iteration of the loop of `editorPrompt` ends: the loop goes on with the
buffer `buf`, or the function returns (the buffer, or `NULL` as `none`). -/
inductive PromptStep where
  | more (buf : List Nat)
  | done (result : Option (List Nat))
  deriving DecidableEq, Repr

/-- One iteration of the loop `while (1)` of `editorPrompt(prompt, editorFindCallback)`
behind the call of `editorReadKey`, which returned `c` (the value of a `char` or a
key code): the buffer is edited and the callback is called with the buffer and the
key.  The store `buf[buflen++] = c` keeps the low byte of `c`.  `fs` holds the
static locals of the callback. -/
def promptKey (E : editorConfig) (fs : FindState) (buf : List Nat) (c : Int) :
    editorConfig × FindState × PromptStep :=
  if c = DEL_KEY ∨ c = CTRL_KEY 104 ∨ c = BACKSPACE then
    let buf1 := if buf.length ≠ 0 then buf.dropLast else buf
    ((editorFindCallback E fs buf1 c).1, (editorFindCallback E fs buf1 c).2, PromptStep.more buf1)
  else if c = 27 then
    ((editorFindCallback E fs buf c).1, (editorFindCallback E fs buf c).2, PromptStep.done none)
  else if c = 13 then
    if buf.length ≠ 0 then
      ((editorFindCallback E fs buf c).1, (editorFindCallback E fs buf c).2,
        PromptStep.done (some buf))
    else
      ((editorFindCallback E fs buf c).1, (editorFindCallback E fs buf c).2, PromptStep.more buf)
  else if iscntrlKey c = false ∧ c < 128 then
    ((editorFindCallback E fs (buf ++ [(c % 256).toNat]) c).1,
      (editorFindCallback E fs (buf ++ [(c % 256).toNat]) c).2,
      PromptStep.more (buf ++ [(c % 256).toNat]))
  else
    ((editorFindCallback E fs buf c).1, (editorFindCallback E fs buf c).2, PromptStep.more buf)

/-- The end of `editorFind`, behind the call of `editorPrompt` that returned `query`:
the saved cursor and offsets are put back when the prompt was cancelled. -/
def editorFindEnd (E : editorConfig) (query : Option (List Nat))
    (saved_cx saved_cy saved_coloff saved_rowoff : Int) : editorConfig :=
  match query with
  | some _ => E
  | none =>
    { E with cursorX := saved_cx, cursorY := saved_cy, coloff := saved_coloff,
             rowoff := saved_rowoff }

/-- The function `editorMoveCursor(key)`.  The pointer `row` is `NULL` exactly when
`cursorY >= numRows`. -/
def editorMoveCursor (E : editorConfig) (key : Int) : editorConfig :=
  let row := rowAt E E.cursorY.toNat
  let E1 :=
    if key = ARROW_LEFT then
      if E.cursorX ≠ 0 then { E with cursorX := E.cursorX - 1 }
      else if E.cursorY > 0 then
        { E with cursorY := E.cursorY - 1
                 cursorX := ((rowAt E (E.cursorY - 1).toNat).size : Int) }
      else E
    else if key = ARROW_RIGHT then
      if E.cursorY < E.numRows ∧ E.cursorX < (row.size : Int) then
        { E with cursorX := E.cursorX + 1 }
      else if E.cursorY < E.numRows ∧ E.cursorX = (row.size : Int) then
        { E with cursorY := E.cursorY + 1, cursorX := 0 }
      else E
    else if key = ARROW_UP then
      if E.cursorY ≠ 0 then { E with cursorY := E.cursorY - 1 } else E
    else if key = ARROW_DOWN then
      if E.cursorY < E.numRows then { E with cursorY := E.cursorY + 1 } else E
    else E
  let rowLength : Int :=
    if E1.cursorY < E1.numRows then ((rowAt E1 E1.cursorY.toNat).size : Int) else 0
  if E1.cursorX > rowLength then { E1 with cursorX := rowLength } else E1

/-- The loop `while (times--) editorMoveCursor(key)` for `times >= 0`. -/
def moveTimes (key : Int) : Nat → editorConfig → editorConfig
  | 0, E => E
  | times + 1, E => moveTimes key times (editorMoveCursor E key)

/-- The `switch` of `editorProcessKeypress` for a key `c` other than Ctrl-Q, Ctrl-S
and Ctrl-F. -/
def processKey (E : editorConfig) (c : Int) : editorConfig :=
  if c = 13 then editorInsertNewLine E
  else if c = HOME_KEY then { E with cursorX := 0 }
  else if c = END_KEY then
    if E.cursorY < E.numRows then { E with cursorX := ((rowAt E E.cursorY.toNat).size : Int) }
    else E
  else if c = BACKSPACE ∨ c = CTRL_KEY 104 ∨ c = DEL_KEY then
    editorDelChar (if c = DEL_KEY then editorMoveCursor E ARROW_RIGHT else E)
  else if c = PAGE_UP ∨ c = PAGE_DOWN then
    let E1 :=
      if c = PAGE_UP then { E with cursorY := E.rowoff }
      else if E.rowoff + E.screenRows - 1 > E.numRows then { E with cursorY := E.numRows }
      else { E with cursorY := E.rowoff + E.screenRows - 1 }
    moveTimes (if c = PAGE_UP then ARROW_UP else ARROW_DOWN) E1.screenRows.toNat E1
  else if c = ARROW_UP ∨ c = ARROW_DOWN ∨ c = ARROW_LEFT ∨ c = ARROW_RIGHT then
    editorMoveCursor E c
  else if c = CTRL_KEY 108 ∨ c = 27 then E
  else editorInsertChar E c

/-- Where the program waits for its next key: in `editorProcessKeypress` called from
the loop of `main`, or in the loop of `editorPrompt` called from `editorFind`, with
the prompt buffer and the local variables of `editorFind`. -/
inductive Waiting where
  | main
  | find (buf : List Nat) (saved_cx saved_cy saved_coloff saved_rowoff : Int)
  deriving DecidableEq, Repr

/-- The state of the running program between two keys: the global `E`, the static
locals of `editorFindCallback` and of `editorProcessKeypress`, and the place it
reads the next key at. -/
structure Session where
  E : editorConfig
  fs : FindState
  quit_times : Int
  waiting : Waiting
  deriving DecidableEq, Repr

/-- The program from one call of `editorReadKey` to the next, the key read being
`c`.  In the loop of `main` this is `editorRefreshScreen(); editorProcessKeypress();`
where Ctrl-F enters `editorFind`; inside `editorFind` it is one iteration of the loop
of `editorPrompt`, which starts with `editorRefreshScreen()` too, and the end of
`editorFind` and of `editorProcessKeypress` when the prompt returns.  The result is
`none` when the program exits (Ctrl-Q) and for Ctrl-S: `editorSave` with its prompt
and file output is not part of the embedding. -/
def keyStep (S : Session) (c : Int) : Option Session :=
  let E := editorRefreshScreen S.E
  match S.waiting with
  | Waiting.main =>
    if c = CTRL_KEY 113 then
      if E.dirty ≠ 0 ∧ S.quit_times > 0 then
        some { S with E := E, quit_times := S.quit_times - 1 }
      else none
    else if c = CTRL_KEY 115 then none
    else if c = CTRL_KEY 102 then
      some { S with E := E
                    waiting := Waiting.find [] E.cursorX E.cursorY E.coloff E.rowoff }
    else some { S with E := processKey E c, quit_times := WRITEAM_QUIT_TIMES }
  | Waiting.find buf saved_cx saved_cy saved_coloff saved_rowoff =>
    match (promptKey E S.fs buf c).2.2 with
    | PromptStep.more buf1 =>
      some { S with E := (promptKey E S.fs buf c).1, fs := (promptKey E S.fs buf c).2.1
                    waiting := Waiting.find buf1 saved_cx saved_cy saved_coloff saved_rowoff }
    | PromptStep.done query =>
      some { E := editorFindEnd (promptKey E S.fs buf c).1 query saved_cx saved_cy
                    saved_coloff saved_rowoff
             fs := (promptKey E S.fs buf c).2.1
             quit_times := WRITEAM_QUIT_TIMES
             waiting := Waiting.main }

/-- The program over a sequence of keys. -/
def runKeys (S : Session) : List Int → Option Session
  | [] => some S
  | c :: rest =>
    match keyStep S c with
    | none => none
    | some S1 => runKeys S1 rest

/-- The state in which `main` enters its loop: after `initEditor` and, when a file
name was given, `editorOpen`; the static locals have their initial values. -/
def startSession (E : editorConfig) : Session :=
  { E := E, fs := FindState.start, quit_times := WRITEAM_QUIT_TIMES, waiting := Waiting.main }

/-! ## Section 15: init -/

/-- The state set up by `initEditor` when `getWindowSize` reports the given numbers
of rows and columns. -/
def initEditor (screenRows screenCols : Int) : editorConfig :=
  { cursorX := 0, cursorY := 0, rx := 0, rowoff := 0, coloff := 0,
    screenRows := screenRows - 2, screenCols := screenCols,
    numRows := 0, row := [], dirty := 0, fileName := none, syn := none }

/-! ## Specification-side definitions -/

/-- The members of a row the highlighter never writes. -/
def erow.text (r : erow) : Int × List Nat × List Nat := (r.idx, r.chars, r.render)

/-- The comment state `editorUpdateSyntax` starts the scan of row `k` with. -/
def startComment (E : editorConfig) (k : Nat) : Bool :=
  decide ((rowAt E k).idx > 0) && (rowAt E ((rowAt E k).idx - 1).toNat).hlOpenComment

/-- The row `k` as `editorUpdateSyntax` leaves it under profile `s`. -/
def rescanned (s : editorSyntax) (E : editorConfig) (k : Nat) : erow :=
  { rowAt E k with
    hl := (scanRow s (rowAt E k).render (startComment E k)).1
    hlOpenComment := (scanRow s (rowAt E k).render (startComment E k)).2 }

/-- Reference tab expansion from render column `col`: a tab becomes
`8 - (col mod 8)` spaces, every other byte is copied. -/
def tabExpandFrom (col : Nat) : List Nat → List Nat
  | [] => []
  | c :: cs =>
    if c = 9 then List.replicate (8 - col % 8) 32 ++ tabExpandFrom (col + (8 - col % 8)) cs
    else c :: tabExpandFrom (col + 1) cs

/-- Reference tab expansion of a row, the render column starting at 0. -/
def tabExpand (chars : List Nat) : List Nat := tabExpandFrom 0 chars

/-- A document holding the single row `"a\tb"` (no profile selected). -/
def docTab : editorConfig := editorInsertRow (initEditor 24 80) 0 (bytes "a\tb")

/-- The effect of an in-row edit of row `k` on the state: row `k` holds the
characters `cs` and their tab expansion, every other row keeps its index, characters
and render bytes, the dirty counter holds `d`, and nothing else changed. -/
structure RowEdited (E E1 : editorConfig) (k : Nat) (cs : List Nat) (d : Int) : Prop where
  len : E1.row.length = E.row.length
  chars : (rowAt E1 k).chars = cs
  render : (rowAt E1 k).render = tabExpand cs
  idx : (rowAt E1 k).idx = (rowAt E k).idx
  others : ∀ j, j ≠ k → (rowAt E1 j).text = (rowAt E j).text
  texts : E1.row.map erow.text = (E.row.map erow.text).set k ((rowAt E k).idx, cs, tabExpand cs)
  dirty : E1.dirty = d
  numRows : E1.numRows = E.numRows
  syn : E1.syn = E.syn
  cursorX : E1.cursorX = E.cursorX
  cursorY : E1.cursorY = E.cursorY
  rest : (E1.rx, E1.rowoff, E1.coloff, E1.screenRows, E1.screenCols, E1.fileName)
    = (E.rx, E.rowoff, E.coloff, E.screenRows, E.screenCols, E.fileName)

/-- A well-formed document: the row array holds `numRows` rows and every row stores
its own position (`row[i].idx == i`). -/
def docOk (E : editorConfig) : Prop :=
  (E.row.length : Int) = E.numRows ∧ ∀ i, i < E.row.length → (rowAt E i).idx = (i : Int)

/-- The comment state row `i` inherits: `i > 0 and row[i-1].hlOpenComment`. -/
def prevOpen (E : editorConfig) (i : Nat) : Bool :=
  decide (i > 0) && (rowAt E (i - 1)).hlOpenComment

/-- Row `i` carries the result of the single-row scan of its render bytes started
with the comment state of the row before it. -/
def rowConsistent (s : editorSyntax) (E : editorConfig) (i : Nat) : Prop :=
  ((rowAt E i).hl, (rowAt E i).hlOpenComment) = scanRow s (rowAt E i).render (prevOpen E i)

/-- A highlight-consistent document. -/
def hlConsistent (s : editorSyntax) (E : editorConfig) : Prop :=
  ∀ i, i < E.row.length → rowConsistent s E i

/-- Every row but row `k` is consistent. -/
def consistentExcept (s : editorSyntax) (E : editorConfig) (k : Nat) : Prop :=
  ∀ j, j < E.row.length → j ≠ k → rowConsistent s E j

instance (E : editorConfig) : Decidable (docOk E) := by
  unfold docOk
  infer_instance

instance (s : editorSyntax) (E : editorConfig) (i : Nat) : Decidable (rowConsistent s E i) := by
  unfold rowConsistent
  infer_instance

instance (s : editorSyntax) (E : editorConfig) : Decidable (hlConsistent s E) := by
  unfold hlConsistent
  infer_instance

/-- The rows `"/*"` and `"int x"` under the C profile. -/
def docComment : editorConfig :=
  editorInsertRow (editorInsertRow { initEditor 24 80 with syn := some HLDB_C } 0 (bytes "/*"))
    1 (bytes "int x")

/-- The prior match a search invocation starts from: the stored one for an arrow
key, none (`-1`) for every other key. -/
def priorMatch (fs : FindState) (key : Int) : Int :=
  if key = ARROW_RIGHT ∨ key = ARROW_DOWN ∨ key = ARROW_LEFT ∨ key = ARROW_UP then fs.last_match
  else -1

/-- The step of a search invocation: `-1` for a backward arrow with a prior match,
`+1` otherwise. -/
def searchStep (fs : FindState) (key : Int) : Int :=
  if (key = ARROW_LEFT ∨ key = ARROW_UP) ∧ priorMatch fs key ≠ -1 then -1 else 1

/-- The cyclic order in which `n` rows are examined from prior match `lm` with step
`d`: `lm + d`, `lm + 2d`, ... , `lm + n d`, wrapped into `0 .. n-1`. -/
def examOrder (n : Nat) (lm d : Int) : List Nat :=
  (List.range n).map (fun (j : Nat) => ((lm + ((j : Int) + 1) * d) % (n : Int)).toNat)

/-- The first examined row whose render bytes satisfy `found`. -/
def firstMatch (found : List Nat → Bool) (E : editorConfig) (fs : FindState) (key : Int) :
    Option Nat :=
  (examOrder E.numRows.toNat (priorMatch fs key) (searchStep fs key)).find?
    (fun r => found (rowAt E r).render)

/-- The render bytes contain the query as a literal substring. -/
def containsLiteral (query render : List Nat) : Bool := decide (query <:+: render)

/-- The render bytes, read as a C string, contain the query read as a C string. -/
def containsCstr (query render : List Nat) : Bool := decide (cstr query <:+: cstr render)

/-- Three rows `"x"` each (no profile). -/
def docXXX : editorConfig :=
  editorInsertRow (editorInsertRow (editorInsertRow (initEditor 24 80) 0 [120]) 1 [120]) 2 [120]

/-- The rows `"a"` and NUL followed by `"x"`, as typed with `a`, Enter, Ctrl-@, `x`;
the cursor is back on row 0. -/
def docNul : editorConfig :=
  { editorInsertRow (editorInsertRow (initEditor 24 80) 0 [97]) 1 [0, 120] with
    cursorX := 0, cursorY := 0 }

/-- A call of one of the two row-array operations. -/
inductive RowOp where
  | insert (pos : Int) (s : List Nat)
  | delete (pos : Int)
  deriving Repr

/-- One row-array operation applied to the state. -/
def applyRowOp (E : editorConfig) : RowOp → editorConfig
  | RowOp.insert pos s => editorInsertRow E pos s
  | RowOp.delete pos => editorDelRow E pos

/-- A sequence of row-array operations applied from left to right. -/
def applyRowOps (E : editorConfig) (ops : List RowOp) : editorConfig :=
  ops.foldl applyRowOp E

/-- A one-row document holding a newline byte, as typed with Ctrl-J. -/
def docNewline : editorConfig := editorInsertChar (initEditor 24 80) 10

/-- A one-row document `"a"` followed by a carriage return, as left by deleting the
`b` of a line `"a\rb"` read from a file. -/
def docCr : editorConfig :=
  editorDelChar { editorOpen (initEditor 24 80) (bytes "t") [97, 13, 98, 10] with cursorX := 3 }

/-- The escape sequences of the reference decoder: the bytes that follow ESC and the
key they stand for. -/
def escapeTable : List (List Nat × Int) :=
  [(bytes "[A", ARROW_UP), (bytes "[B", ARROW_DOWN), (bytes "[C", ARROW_RIGHT),
   (bytes "[D", ARROW_LEFT), (bytes "[H", HOME_KEY), (bytes "OH", HOME_KEY),
   (bytes "[F", END_KEY), (bytes "OF", END_KEY), (bytes "[1~", HOME_KEY),
   (bytes "[7~", HOME_KEY), (bytes "[3~", DEL_KEY), (bytes "[4~", END_KEY),
   (bytes "[8~", END_KEY), (bytes "[5~", PAGE_UP), (bytes "[6~", PAGE_DOWN)]

/-- Reference decoder behind an ESC byte: the key of the table entry whose bytes
arrive next without a time-out, the bare ESC key for every other continuation. -/
def refKeyAfterEsc (reads : List (Option Nat)) : Int :=
  match escapeTable.find? (fun e => (e.1.map some).isPrefixOf reads) with
  | some e => e.2
  | none => 27

/-- Reference decoder for a first byte `c` followed by the reads `rest`; a byte
other than ESC is the key `c` below 128 and the key `c - 256` from 128 on. -/
def refKey (c : Nat) (rest : List (Option Nat)) : Int :=
  if c = 27 then refKeyAfterEsc rest else if c < 128 then (c : Int) else (c : Int) - 256

/-- Reference decoder that returns every first byte other than ESC as is, the number
of the byte being the key. -/
def refKeyAsIs (c : Nat) (rest : List (Option Nat)) : Int :=
  if c = 27 then refKeyAfterEsc rest else (c : Int)

/-- A bound on the iterations the scan still needs: two per byte left, one more
while `previousSep` is set. -/
def scanMeasure (render : List Nat) (st : ScanState) : Nat :=
  2 * (render.length - st.i) + (if st.previousSep then 1 else 0)

/-- The command changed the characters of some row or the number of rows. -/
def docChanged (E E1 : editorConfig) : Prop :=
  E1.row.map erow.chars ≠ E.row.map erow.chars ∨ E1.numRows ≠ E.numRows
/-- The rows `"int x = 12; // c"` and a tab followed by `"a"` under the C profile,
in a window of 22 rows and 80 columns. -/
def docScroll : editorConfig :=
  editorInsertRow
    (editorInsertRow { initEditor 24 80 with syn := some HLDB_C } 0 (bytes "int x = 12; // c"))
    1 (bytes "\ta")

/-- The two adjustments `editorScroll` makes to an offset `off` for a cursor
coordinate `v` and a window of `n` lines or columns. -/
def scrollOffset (off v n : Int) : Int :=
  if v ≥ (if v < off then v else off) + n then v - n + 1 else (if v < off then v else off)

/-- The render column `editorScroll` stores in `E.rx`. -/
def cursorRx (E : editorConfig) : Int :=
  if E.cursorY < E.numRows then editorRowCxToRx (rowAt E E.cursorY.toNat) E.cursorX.toNat else 0

/-- The invocations of `editorFindCallback` of one search prompt, each with the
query and the key it is called with, run from left to right. -/
def runFind (E : editorConfig) (fs : FindState) (steps : List (List Nat × Int)) :
    editorConfig × FindState :=
  steps.foldl (fun st s => editorFindCallback st.1 st.2 s.1 s.2) (E, fs)

/-- The state of a search relative to the document `E0` it started on: the rows
differ from those of `E0` at most in their highlight; without a saved highlight the
highlight is that of `E0`; with one, it is the highlight of the row `saved_hl_line`
of `E0`, and that row carries `HL_MATCH` on a span inside it where a query occurs. -/
structure SearchInv (E0 E : editorConfig) (fs : FindState) : Prop where
  text : E.row.map erow.text = E0.row.map erow.text
  hl : match fs.saved_hl with
    | none => E.row.map erow.hl = E0.row.map erow.hl
    | some saved =>
      ∃ off len, off + len ≤ (rowAt E0 fs.saved_hl_line.toNat).rsize
        ∧ (∃ q, len = (cstr q).length
            ∧ cstr q <+: (rowAt E0 fs.saved_hl_line.toNat).render.drop off)
        ∧ saved = (rowAt E0 fs.saved_hl_line.toNat).hl
        ∧ E.row.map erow.hl
            = (E0.row.map erow.hl).set fs.saved_hl_line.toNat
                (memsetHl (rowAt E0 fs.saved_hl_line.toNat).hl off HL_MATCH len)

/-- The colour of a visible byte: the default colour (written `-1`, as in
`currentColor`) for class Normal, `editorSyntaxToColor` of its class otherwise. -/
def cellColor (h : editorHighlight) : Int :=
  if h = HL_NORMAL then -1 else editorSyntaxToColor h

/-- The escape that switches to a colour: `ESC[39m` for the default colour,
`ESC[<n>m` otherwise. -/
def colorEscape (col : Int) : List Nat :=
  if col = -1 then [27, 91, 51, 57, 109] else sgrColor col

/-- Reference colouring of a slice of bytes with their classes: a colour escape
exactly before each byte whose colour differs from the colour `prev` of the byte
before it. -/
def refColored : Int → List (Nat × editorHighlight) → List Nat
  | _, [] => []
  | prev, (c, h) :: t =>
    (if cellColor h ≠ prev then colorEscape (cellColor h) else []) ++ c :: refColored (cellColor h) t

/-- The number of bytes of a row that `editorDrawRows` shows: `rsize - coloff`
clamped to `[0, screenCols]`. -/
def visibleLen (E : editorConfig) (row : erow) : Nat :=
  (if (if (row.rsize : Int) - E.coloff < 0 then 0 else (row.rsize : Int) - E.coloff) > E.screenCols
    then E.screenCols
    else (if (row.rsize : Int) - E.coloff < 0 then 0 else (row.rsize : Int) - E.coloff)).toNat

/-- The visible slice `render[coloff .. coloff + len)` of a row. -/
def visibleSlice (E : editorConfig) (row : erow) : List Nat :=
  (row.render.drop E.coloff.toNat).take (visibleLen E row)

/-- The classes `hl[coloff .. coloff + len)` of the visible slice of a row. -/
def visibleHl (E : editorConfig) (row : erow) : List editorHighlight :=
  (row.hl.drop E.coloff.toNat).take (visibleLen E row)

/-- Removal of the escapes `ESC ... m` from a byte string; the flag tells whether
the scan is inside an escape. -/
def stripSgr : Bool → List Nat → List Nat
  | _, [] => []
  | true, c :: t => if c = 109 then stripSgr false t else stripSgr true t
  | false, c :: t => if c = 27 then stripSgr true t else c :: stripSgr false t

/-- The single row `"12"` under the C profile. -/
def docDigits : editorConfig :=
  editorInsertRow { initEditor 24 80 with syn := some HLDB_C } 0 (bytes "12")

/-- The rows `"//"`, `"/*"` and `"x"` under the C profile, the cursor at the start
of row 1. -/
def docJoin : editorConfig :=
  { editorInsertRow (editorInsertRow (editorInsertRow
      { initEditor 24 80 with syn := some HLDB_C } 0 (bytes "//")) 1 (bytes "/*")) 2 (bytes "x")
    with cursorY := 1, cursorX := 0 }

/-- The state `st2` extends `st`: the position did not move back and the classes
before the position of `st` are kept. -/
def ScanExt (st st2 : ScanState) : Prop :=
  st.i ≤ st2.i ∧ st.hl.take st.i <+: st2.hl

/-- The scan of a row continued from the loop state `st`: the classes and the
comment state at the end of the loop of `editorUpdateSyntax`. -/
def scanFrom (s : editorSyntax) (render : List Nat) (st : ScanState) :
    List editorHighlight × Bool :=
  ((scanLoop s render (2 * render.length + 1) st).hl,
    (scanLoop s render (2 * render.length + 1) st).inComment)

/-- The rows `"/* a"` and `"b */ 1"` under the C profile. -/
def docBlock : editorConfig :=
  editorInsertRow (editorInsertRow { initEditor 24 80 with syn := some HLDB_C } 0 (bytes "/* a"))
    1 (bytes "b */ 1")

/-- A keyword of a profile's list without the `'|'` that marks the second class. -/
def keywordName (kw : List Nat) : List Nat :=
  if kw.getLast? = some 124 then kw.dropLast else kw

/-- The class of a keyword of a profile's list: `HL_KEYWORD2` when it is listed with
the `'|'` suffix, `HL_KEYWORD1` otherwise. -/
def keywordClass (kw : List Nat) : editorHighlight :=
  if kw.getLast? = some 124 then HL_KEYWORD2 else HL_KEYWORD1

/-- The byte sequence is empty or begins with a separator byte. -/
def sepNext : List Nat → Prop
  | [] => True
  | c :: _ => isSeparator c = true

instance (s : List Nat) : Decidable (sepNext s) := by
  cases s <;> unfold sepNext <;> infer_instance

/-- A unit of a string body for the quote `q`: one byte other than `q` and the
backslash, or a backslash followed by any one byte. -/
def stringUnit (q : Nat) : List Nat → Bool
  | [c] => c != q && c != 92
  | [c, _] => c == 92
  | _ => false

/-- The single row `"a\"//*/"` (quotes included) under the C profile: a string that
holds an escaped quote and the three comment markers. -/
def docString : editorConfig :=
  editorInsertRow { initEditor 24 80 with syn := some HLDB_C } 0
    [34, 97, 92, 34, 47, 47, 42, 47, 34]

/-- The rows `"/*/"` and `"x"` under the C profile, the cursor between the `/` and
the `*` of row 0. -/
def docSplit : editorConfig :=
  { editorInsertRow (editorInsertRow
      { initEditor 24 80 with syn := some HLDB_C } 0 (bytes "/*/")) 1 (bytes "x")
    with cursorY := 0, cursorX := 1 }

/-- The rows `"/* x"` in double quotes and `"y"` under the C profile, the cursor
behind the opening quote of row 0. -/
def docSplitString : editorConfig :=
  { editorInsertRow (editorInsertRow
      { initEditor 24 80 with syn := some HLDB_C } 0 [34, 47, 42, 32, 120, 34]) 1 (bytes "y")
    with cursorY := 0, cursorX := 1 }

/-- The largest column the cursor may have on its row: `row[cursorY].size` on an
existing row, 0 on the line behind the last row. -/
def cursorLimit (E : editorConfig) : Int :=
  if E.cursorY < E.numRows then ((rowAt E E.cursorY.toNat).size : Int) else 0

/-- The rows `"/*"`, `"int x"` with the cursor behind `int` on row 1. -/
def docCursor : editorConfig := { docComment with cursorY := 1, cursorX := 3 }

/-- The position `(cx, cy)` is a cursor position of the document `E`:
`0 <= cy <= numRows` and `0 <= cx <= L`, where `L` is the size of `row[cy]` when
`cy < numRows` and 0 when `cy == numRows`. -/
def cursorOkAt (E : editorConfig) (cx cy : Int) : Prop :=
  0 ≤ cy ∧ cy ≤ E.numRows ∧ 0 ≤ cx
    ∧ cx ≤ (if cy < E.numRows then ((rowAt E cy.toNat).size : Int) else 0)

/-- The cursor invariant: the row array holds `numRows` rows and the cursor is at a
cursor position of the document. -/
def CursorOk (E : editorConfig) : Prop :=
  (E.row.length : Int) = E.numRows ∧ cursorOkAt E E.cursorX E.cursorY

/-- The index `i` is inside the row array. -/
def inRows (E : editorConfig) (i : Int) : Prop := 0 ≤ i ∧ i < (E.row.length : Int)

/-- The accesses `row[cursorY]` and `row[cursorY - 1]` made in state `E` are inside
the row array.  `editorInsertChar` reads `row[cursorY]` (behind the insertion of a
row when `cursorY == numRows`); `editorInsertNewLine` reads it when `cursorX != 0`;
`editorDelChar` reads it unless it returns at one of its two guards, and
`row[cursorY - 1]` unless `cursorX > 0`; `editorMoveCursor` reads `row[cursorY]` when
`cursorY < numRows` and `row[cursorY - 1]` for the left arrow at column 0 of a row
`cursorY > 0`. -/
def rowAccessOk (E : editorConfig) : Prop :=
  (E.cursorY ≠ E.numRows → inRows E E.cursorY)
  ∧ (E.cursorX ≠ 0 → inRows E E.cursorY)
  ∧ (E.cursorY ≠ E.numRows → ¬ (E.cursorX = 0 ∧ E.cursorY = 0) →
      inRows E E.cursorY ∧ (¬ E.cursorX > 0 → inRows E (E.cursorY - 1)))
  ∧ (E.cursorY < E.numRows → inRows E E.cursorY)
  ∧ (E.cursorX = 0 → E.cursorY > 0 → inRows E (E.cursorY - 1))

/-- The static locals of `editorFindCallback` fit the document: the direction is 1 or
-1 and `last_match` is -1 or the index of a row. -/
def findOk (E : editorConfig) (fs : FindState) : Prop :=
  (fs.direction = 1 ∨ fs.direction = -1)
    ∧ (fs.last_match = -1 ∨ (0 ≤ fs.last_match ∧ fs.last_match < E.numRows))

/-- The invariant of the running program between two keys. -/
structure SessionOk (S : Session) : Prop where
  cursor : CursorOk S.E
  rowoff : 0 ≤ S.E.rowoff
  screen : 1 ≤ S.E.screenRows
  find : findOk S.E S.fs
  mode : match S.waiting with
    | Waiting.main => S.fs.last_match = -1
    | Waiting.find _ cx cy _ ro => cursorOkAt S.E cx cy ∧ 0 ≤ ro

/-- The state after `initEditor` on a 24 by 80 terminal and `editorOpen` of a file
`x.c` holding the lines `ab` and `cd`. -/
def docOpen : editorConfig :=
  editorOpen (initEditor 24 80) (bytes "x.c") (bytes "ab\ncd\n")

/-- The keys Down, End, Enter, `x`, Page Up, Ctrl-F, `c`, Enter. -/
def someKeys : List Int :=
  [ARROW_DOWN, END_KEY, 13, 120, PAGE_UP, CTRL_KEY 102, 99, 13]

/-- The keys Down, byte 200 (read as the key -56), Up, Ctrl-F, byte 200, Enter. -/
def highKeys : List Int :=
  [ARROW_DOWN, charValue 200, ARROW_UP, CTRL_KEY 102, charValue 200, 13]

/-- The bytes `editorDrawRows` emits for the screen rows `a`, ..., `a + n - 1`: what
the iterations `i = a`, ..., `i = a + n - 1` of its outer loop append. -/
def screenLines (E : editorConfig) (a n : Nat) : List Nat :=
  ((List.range' a n).map (fun j => drawScreenRow E j [])).foldr (fun l acc => l ++ acc) []

/-! # Theorems -/

/-! ## Column conversions: proofs -/

theorem editorRowCxToRx_succ (row : erow) (cx : Nat) :
    editorRowCxToRx row (cx + 1)
      = advanceRx (row.chars.getD cx 0) (editorRowCxToRx row cx) := by
  simp [editorRowCxToRx, List.range_succ]

theorem advanceRx_gt (c rx : Nat) : rx < advanceRx c rx := by
  unfold advanceRx
  split <;> omega

theorem editorRowCxToRx_strictMono (row : erow) {a b : Nat} (h : a < b) :
    editorRowCxToRx row a < editorRowCxToRx row b := by
  induction b with
  | zero => omega
  | succ n ih =>
    rw [editorRowCxToRx_succ]
    have h1 := advanceRx_gt (row.chars.getD n 0) (editorRowCxToRx row n)
    rcases Nat.lt_succ_iff_lt_or_eq.mp h with h2 | h2
    · have := ih h2
      omega
    · subst h2
      exact h1

/-- The loop started at `cx` with the render column of `cx` stops at `i`. -/
theorem rxToCxLoop_eq (row : erow) (i : Nat) (hi : i ≤ row.size) :
    ∀ (fuel cx : Nat), cx ≤ i → row.size ≤ cx + fuel →
      rxToCxLoop row.chars (editorRowCxToRx row i) fuel cx (editorRowCxToRx row cx) = i := by
  intro fuel
  induction fuel with
  | zero =>
    intro cx h1 h2
    simp only [rxToCxLoop]
    omega
  | succ n ih =>
    intro cx h1 h2
    simp only [rxToCxLoop]
    have hsz : row.chars.length = row.size := rfl
    by_cases hc : cx < row.chars.length
    · rw [if_pos hc, ← editorRowCxToRx_succ]
      by_cases hlt : cx < i
      · have hle : editorRowCxToRx row (cx + 1) ≤ editorRowCxToRx row i := by
          rcases Nat.lt_or_ge (cx + 1) i with h3 | h3
          · exact Nat.le_of_lt (editorRowCxToRx_strictMono row h3)
          · have : cx + 1 = i := by omega
            rw [this]
        simp only [gt_iff_lt]
        rw [if_neg (by omega)]
        exact ih (cx + 1) (by omega) (by omega)
      · have hEq : cx = i := by omega
        subst hEq
        have := editorRowCxToRx_strictMono row (Nat.lt_succ_self cx)
        simp only [gt_iff_lt]
        rw [if_pos this]
    · rw [if_neg hc]
      omega

/-- C1: for every row (any bytes, tabs included) and every character index `i`
with `0 <= i <= row.size`, converting `i` to a render column with
`editorRowCxToRx` and back with `editorRowRxToCx` returns `i`. -/
theorem C1_rx_cx_roundtrip (row : erow) (i : Nat) (hi : i ≤ row.size) :
    editorRowRxToCx row (editorRowCxToRx row i) = i := by
  have h := rxToCxLoop_eq row i hi row.size 0 (Nat.zero_le _) (by omega)
  simpa [editorRowRxToCx, editorRowCxToRx] using h

/-- C1 at the row `"a\tb"` and index 2 (just behind the tab). -/
theorem C1_rx_cx_roundtrip_witness :
    (2 : Nat) ≤ erow.size { idx := 0, chars := [97, 9, 98], render := [], hl := [], hlOpenComment := false }
    ∧ editorRowRxToCx { idx := 0, chars := [97, 9, 98], render := [], hl := [], hlOpenComment := false }
        (editorRowCxToRx { idx := 0, chars := [97, 9, 98], render := [], hl := [], hlOpenComment := false } 2) = 2 :=
  ⟨by decide, C1_rx_cx_roundtrip _ 2 (by decide)⟩

/-! ## The scan of a row ends within its iteration bound -/

theorem scanMeasure_ite (render : List Nat) (c : Prop) [Decidable c] (a b : ScanState) (m : Nat)
    (ha : scanMeasure render a < m) (hb : scanMeasure render b < m) :
    scanMeasure render (if c then a else b) < m := by
  split <;> assumption

theorem scanMeasure_advance (render : List Nat) (st st2 : ScanState) (h : st.i < render.length)
    (hi : st.i + 1 ≤ st2.i) : scanMeasure render st2 < scanMeasure render st := by
  simp only [scanMeasure]
  split <;> split <;> omega

theorem stepDefault_measure (render : List Nat) (st : ScanState) (h : st.i < render.length) :
    scanMeasure render (stepDefault render st) < scanMeasure render st :=
  scanMeasure_advance render st _ h (Nat.le_refl _)

theorem stepKeyword_measure (s : editorSyntax) (render : List Nat) (st : ScanState)
    (h : st.i < render.length) :
    scanMeasure render (stepKeyword s render st) < scanMeasure render st := by
  unfold stepKeyword
  split
  · rename_i hp
    split
    · simp only [scanMeasure, hp]
      simp
      omega
    · exact stepDefault_measure render st h
  · exact stepDefault_measure render st h

theorem stepNumber_measure (s : editorSyntax) (render : List Nat) (st : ScanState)
    (h : st.i < render.length) :
    scanMeasure render (stepNumber s render st) < scanMeasure render st := by
  unfold stepNumber
  exact scanMeasure_ite render _ _ _ _ (scanMeasure_advance render st _ h (Nat.le_refl _))
    (stepKeyword_measure s render st h)

theorem stepString_measure (s : editorSyntax) (render : List Nat) (st : ScanState)
    (h : st.i < render.length) :
    scanMeasure render (stepString s render st) < scanMeasure render st := by
  unfold stepString
  refine scanMeasure_ite render _ _ _ _ ?_ (stepNumber_measure s render st h)
  refine scanMeasure_ite render _ _ _ _ ?_ ?_
  · exact scanMeasure_ite render _ _ _ _
      (scanMeasure_advance render st _ h (Nat.le_succ _))
      (scanMeasure_advance render st _ h (Nat.le_refl _))
  · exact scanMeasure_ite render _ _ _ _
      (scanMeasure_advance render st _ h (Nat.le_refl _)) (stepNumber_measure s render st h)

theorem stepMlComment_measure (s : editorSyntax) (render : List Nat) (st : ScanState)
    (h : st.i < render.length) :
    scanMeasure render (stepMlComment s render st) < scanMeasure render st := by
  unfold stepMlComment
  by_cases hc : (s.multilineCommentStart.length != 0 && s.multilineCommentEnd.length != 0
      && st.inString == 0) = true
  · have hc2 := hc
    simp only [Bool.and_eq_true, bne_iff_ne, ne_eq, beq_iff_eq] at hc2
    have h1 : 1 ≤ s.multilineCommentStart.length := Nat.pos_of_ne_zero hc2.1.1
    have h2 : 1 ≤ s.multilineCommentEnd.length := Nat.pos_of_ne_zero hc2.1.2
    simp only []
    rw [if_pos hc]
    refine scanMeasure_ite render _ _ _ _ ?_ ?_
    · exact scanMeasure_ite render _ _ _ _
        (scanMeasure_advance render st _ h (Nat.add_le_add_left h2 _))
        (scanMeasure_advance render st _ h (Nat.le_refl _))
    · exact scanMeasure_ite render _ _ _ _
        (scanMeasure_advance render st _ h (Nat.add_le_add_left h1 _))
        (stepString_measure s render st h)
  · simp only []
    rw [if_neg hc]
    exact stepString_measure s render st h

/-- The loop of `editorUpdateSyntax` has ended once the bound is used up: more
iterations allowed give the same result. -/
theorem scanLoop_fuel (s : editorSyntax) (render : List Nat) (fuel : Nat) :
    ∀ (st : ScanState) (extra : Nat), scanMeasure render st ≤ fuel →
      scanLoop s render (fuel + extra) st = scanLoop s render fuel st := by
  induction fuel with
  | zero =>
    intro st extra hm
    have hi : ¬ st.i < render.length := by
      simp only [scanMeasure] at hm
      omega
    cases extra with
    | zero => rfl
    | succ e =>
      simp only [Nat.zero_add, scanLoop]
      rw [if_neg hi]
  | succ n ih =>
    intro st extra hm
    have e : n + 1 + extra = (n + extra) + 1 := by omega
    rw [e]
    simp only [scanLoop]
    split
    · rename_i hi
      split
      · rfl
      · exact ih _ extra (by have := stepMlComment_measure s render st hi; omega)
    · rfl

/-- The scan of a row does not depend on the iteration bound of the model, once
that is at least `2 * rsize + 1`. -/
theorem scanRow_fuel (s : editorSyntax) (render : List Nat) (inComment : Bool) (extra : Nat) :
    ((scanLoop s render (2 * render.length + 1 + extra)
        { i := 0, hl := List.replicate render.length HL_NORMAL, previousSep := true,
          inString := 0, inComment := inComment }).hl,
      (scanLoop s render (2 * render.length + 1 + extra)
        { i := 0, hl := List.replicate render.length HL_NORMAL, previousSep := true,
          inString := 0, inComment := inComment }).inComment) = scanRow s render inComment := by
  simp only [scanRow]
  rw [scanLoop_fuel s render (2 * render.length + 1) _ extra (by simp [scanMeasure])]

/-! ## The highlighter changes highlight data only -/

theorem map_set_same {α β : Type} (f : α → β) (d : α) (l : List α) (k : Nat) (r : α)
    (h : f r = f (l.getD k d)) : (l.set k r).map f = l.map f := by
  induction l generalizing k with
  | nil => simp
  | cons a t ih =>
    cases k with
    | zero => simpa using h
    | succ n =>
      simp only [List.set_cons_succ, List.map_cons, List.cons.injEq, true_and]
      exact ih n (by simpa using h)

theorem getD_text_of_map_eq {l l2 : List erow} (h : l2.map erow.text = l.map erow.text)
    (k : Nat) : (l2.getD k default).text = (l.getD k default).text := by
  rw [← List.getD_map l2 default erow.text, ← List.getD_map l default erow.text, h]

theorem editorUpdateSyntaxFuel_none (n : Nat) (E : editorConfig) (k : Nat) (h : E.syn = none) :
    editorUpdateSyntaxFuel (n + 1) E k
      = setRow E k { rowAt E k with hl := List.replicate (rowAt E k).rsize HL_NORMAL } := by
  simp only [editorUpdateSyntaxFuel, h]

theorem editorUpdateSyntaxFuel_some (n : Nat) (E : editorConfig) (k : Nat) (s : editorSyntax)
    (h : E.syn = some s) :
    editorUpdateSyntaxFuel (n + 1) E k
      = if ((rowAt E k).hlOpenComment != (rescanned s E k).hlOpenComment
            && decide ((rowAt E k).idx + 1 < E.numRows)) = true then
          editorUpdateSyntaxFuel n (setRow E k (rescanned s E k)) ((rowAt E k).idx + 1).toNat
        else setRow E k (rescanned s E k) := by
  simp only [editorUpdateSyntaxFuel, h, rescanned, startComment]

/-- The function `editorUpdateSyntax` replaces the row array by one with the same
indices, characters and render bytes, and touches nothing else. -/
theorem editorUpdateSyntaxFuel_frame (fuel : Nat) :
    ∀ (E : editorConfig) (k : Nat),
      ∃ rows, editorUpdateSyntaxFuel fuel E k = { E with row := rows }
        ∧ rows.map erow.text = E.row.map erow.text := by
  induction fuel with
  | zero =>
    intro E k
    exact ⟨E.row, rfl, rfl⟩
  | succ n ih =>
    intro E k
    rcases Option.eq_none_or_eq_some E.syn with hs | ⟨s, hs⟩
    · rw [editorUpdateSyntaxFuel_none n E k hs]
      exact ⟨_, rfl, map_set_same erow.text default E.row k _ rfl⟩
    · rw [editorUpdateSyntaxFuel_some n E k s hs]
      split
      · obtain ⟨rows, h1, h2⟩ := ih (setRow E k (rescanned s E k)) ((rowAt E k).idx + 1).toNat
        refine ⟨rows, ?_, ?_⟩
        · rw [h1]
          rfl
        · rw [h2]
          exact map_set_same erow.text default E.row k _ rfl
      · exact ⟨_, rfl, map_set_same erow.text default E.row k _ rfl⟩

theorem editorUpdateSyntax_frame (E : editorConfig) (k : Nat) :
    ∃ rows, editorUpdateSyntax E k = { E with row := rows }
      ∧ rows.map erow.text = E.row.map erow.text :=
  editorUpdateSyntaxFuel_frame E.row.length E k

theorem getD_set_self {α : Type} (l : List α) (k : Nat) (r d : α) (hk : k < l.length) :
    (l.set k r).getD k d = r := by
  rw [List.getD_eq_getElem _ _ (by simpa using hk)]
  simp

/-- The function `editorUpdateRow` leaves the characters of every row alone, gives
row `k` the render bytes computed by its loop, and changes no other member of `E`
than the row array. -/
theorem editorUpdateRow_frame (E : editorConfig) (k : Nat) :
    ∃ rows, editorUpdateRow E k = { E with row := rows }
      ∧ rows.map erow.text
          = (E.row.set k { rowAt E k with render := renderLoop (rowAt E k).chars [] }).map erow.text := by
  obtain ⟨rows, h1, h2⟩ := editorUpdateSyntax_frame
    (setRow E k { rowAt E k with render := renderLoop (rowAt E k).chars [] }) k
  exact ⟨rows, h1, h2⟩

theorem editorUpdateRow_render (E : editorConfig) (k : Nat) (hk : k < E.row.length) :
    (rowAt (editorUpdateRow E k) k).render = renderLoop (rowAt E k).chars []
      ∧ (rowAt (editorUpdateRow E k) k).chars = (rowAt E k).chars
      ∧ (rowAt (editorUpdateRow E k) k).idx = (rowAt E k).idx := by
  obtain ⟨rows, h1, h2⟩ := editorUpdateRow_frame E k
  have h3 := getD_text_of_map_eq h2 k
  rw [getD_set_self _ _ _ _ hk] at h3
  simp only [erow.text, Prod.mk.injEq] at h3
  rw [h1]
  simp only [rowAt]
  exact ⟨h3.2.2, h3.2.1, h3.1⟩

/-! ## Tab expansion -/

theorem tabPad_eq (fuel : Nat) :
    ∀ render : List Nat, (8 - render.length % 8) % 8 ≤ fuel →
      tabPad fuel render = render ++ List.replicate ((8 - render.length % 8) % 8) 32 := by
  induction fuel with
  | zero =>
    intro render h
    have : (8 - render.length % 8) % 8 = 0 := by omega
    simp [tabPad, this]
  | succ n ih =>
    intro render h
    simp only [tabPad, WRITEAM_TAB_STOP]
    by_cases hz : render.length % 8 = 0
    · simp [hz]
    · have hlen : (render ++ [32]).length = render.length + 1 := by simp
      have hne : (render.length % 8 != 0) = true := by simpa using hz
      rw [if_pos hne, ih (render ++ [32]) (by rw [hlen]; omega), hlen]
      have e : (8 - render.length % 8) % 8 = (8 - (render.length + 1) % 8) % 8 + 1 := by omega
      rw [e, List.replicate_succ, List.append_assoc]
      rfl

theorem renderLoop_eq (cs : List Nat) :
    ∀ render : List Nat, renderLoop cs render = render ++ tabExpandFrom render.length cs := by
  induction cs with
  | nil => intro render; simp [renderLoop, tabExpandFrom]
  | cons c t ih =>
    intro render
    simp only [renderLoop, tabExpandFrom]
    by_cases hc : c = 9
    · have hlen : (render ++ [32]).length = render.length + 1 := by simp
      rw [if_pos hc, if_pos hc, tabPad_eq WRITEAM_TAB_STOP (render ++ [32])
        (by rw [hlen]; simp only [WRITEAM_TAB_STOP]; omega), ih, hlen]
      have e : 8 - render.length % 8 = (8 - (render.length + 1) % 8) % 8 + 1 := by omega
      have hl2 : (render ++ [32] ++ List.replicate ((8 - (render.length + 1) % 8) % 8) 32).length
          = render.length + (8 - render.length % 8) := by
        simp only [List.length_append, List.length_replicate, List.length_singleton]
        omega
      rw [hl2, e, List.replicate_succ]
      simp [List.append_assoc]
    · rw [if_neg hc, if_neg hc, ih]
      simp

/-- C2: `editorUpdateRow` sets `render` of the row to the reference tab expansion of
its `chars` (scanning left to right from render column 0, each tab replaced by
`8 - (column mod 8)` spaces, other bytes copied) and `rsize` to its length. -/
theorem C2_updateRow_tab_expansion (E : editorConfig) (k : Nat) (hk : k < E.row.length) :
    (rowAt (editorUpdateRow E k) k).render = tabExpand (rowAt E k).chars
    ∧ (rowAt (editorUpdateRow E k) k).rsize = (tabExpand (rowAt E k).chars).length := by
  have h := (editorUpdateRow_render E k hk).1
  rw [renderLoop_eq] at h
  simp only [List.nil_append, List.length_nil] at h
  simp only [erow.rsize, tabExpand, h, and_self]

/-- C2 on the row `"a\tb"`, which renders as `a`, 7 spaces, `b`; the row `"\t"`
renders as 8 spaces. -/
theorem C2_updateRow_tab_expansion_witness :
    0 < docTab.row.length
    ∧ ((rowAt (editorUpdateRow docTab 0) 0).render = tabExpand (rowAt docTab 0).chars
      ∧ (rowAt (editorUpdateRow docTab 0) 0).rsize = (tabExpand (rowAt docTab 0).chars).length)
    ∧ (rowAt (editorUpdateRow docTab 0) 0).render = 97 :: (List.replicate 7 32 ++ [98])
    ∧ (rowAt (editorInsertRow (initEditor 24 80) 0 [9]) 0).render = List.replicate 8 32 :=
  ⟨by decide, C2_updateRow_tab_expansion docTab 0 (by decide), by decide, by decide⟩

/-! ## In-row edits -/

theorem editorUpdateRow_setRow (E : editorConfig) (k : Nat) (r : erow) (hk : k < E.row.length) :
    ∃ rows, editorUpdateRow (setRow E k r) k = { E with row := rows }
      ∧ rows.map erow.text
          = (E.row.set k { r with render := renderLoop r.chars [] }).map erow.text := by
  obtain ⟨rows, h1, h2⟩ := editorUpdateRow_frame (setRow E k r) k
  have hr : rowAt (setRow E k r) k = r := getD_set_self E.row k r default hk
  rw [hr] at h2
  refine ⟨rows, h1, ?_⟩
  rw [h2]
  simp only [setRow, List.set_set]

theorem getD_text_set_ne (l : List erow) (k j : Nat) (r : erow) (h : j ≠ k) :
    ((l.set k r).getD j default) = l.getD j default := by
  simp only [List.getD_eq_getElem?_getD, List.getElem?_set]
  rw [if_neg (fun e => h e.symm)]

/-- What an in-row edit does: `editorUpdateRow` after the characters of row `k` were
replaced by `cs`. -/
theorem rowEdit_spec (E : editorConfig) (k : Nat) (cs : List Nat) (hk : k < E.row.length) :
    RowEdited E (editorUpdateRow (setRow E k { rowAt E k with chars := cs }) k) k cs E.dirty := by
  obtain ⟨rows, h1, h2⟩ := editorUpdateRow_setRow E k { rowAt E k with chars := cs } hk
  rw [h1]
  have hk3 := getD_text_of_map_eq h2 k
  rw [getD_set_self _ _ _ _ hk] at hk3
  simp only [erow.text, Prod.mk.injEq] at hk3
  refine ⟨?_, hk3.2.1, ?_, hk3.1, ?_, ?_, ?_, rfl, rfl, rfl, rfl, rfl⟩
  · have := congrArg List.length h2
    simpa using this
  · show (rows.getD k default).render = tabExpand cs
    rw [hk3.2.2, renderLoop_eq]
    simp [tabExpand]
  · intro j hj
    have hj3 := getD_text_of_map_eq h2 j
    rw [getD_text_set_ne _ _ _ _ hj] at hj3
    exact hj3
  · show rows.map erow.text = _
    rw [h2, List.map_set]
    simp only [erow.text, renderLoop_eq, tabExpand, List.nil_append, List.length_nil]
  · rfl

/-- An increment that stays inside the range of `int` does not wrap. -/
theorem wrapInt_eq (x : Int) (h1 : INT_MIN ≤ x) (h2 : x ≤ INT_MAX) : wrapInt x = x := by
  simp only [wrapInt, INT_MIN, INT_MAX] at *
  omega

theorem RowEdited.bump {E Eu : editorConfig} {k : Nat} {cs : List Nat}
    (h : RowEdited E Eu k cs E.dirty) :
    RowEdited E { Eu with dirty := wrapInt (Eu.dirty + 1) } k cs (wrapInt (E.dirty + 1)) :=
  ⟨h.len, h.chars, h.render, h.idx, h.others, h.texts, by rw [← h.dirty],
    h.numRows, h.syn, h.cursorX, h.cursorY, h.rest⟩

theorem editorRowInsertChar_spec (E : editorConfig) (k : Nat) (pos : Int) (c : Int)
    (hk : k < E.row.length) (h0 : 0 ≤ pos) (h1 : pos ≤ (rowAt E k).size) :
    RowEdited E (editorRowInsertChar E k pos c) k
      ((rowAt E k).chars.take pos.toNat ++ (c % 256).toNat :: (rowAt E k).chars.drop pos.toNat)
      (wrapInt (E.dirty + 1)) := by
  have hp : (if pos < 0 ∨ pos > ((rowAt E k).size : Int) then (rowAt E k).size else pos.toNat)
      = pos.toNat := by
    rw [if_neg (by omega)]
  simp only [editorRowInsertChar, hp]
  exact (rowEdit_spec E k _ hk).bump

theorem editorRowInsertChar_clamp (E : editorConfig) (k : Nat) (pos : Int) (c : Int)
    (hk : k < E.row.length) (h : pos < 0 ∨ pos > (rowAt E k).size) :
    RowEdited E (editorRowInsertChar E k pos c) k ((rowAt E k).chars ++ [(c % 256).toNat])
      (wrapInt (E.dirty + 1)) := by
  have hp : (if pos < 0 ∨ pos > ((rowAt E k).size : Int) then (rowAt E k).size else pos.toNat)
      = (rowAt E k).chars.length := by
    rw [if_pos h]
    rfl
  simp only [editorRowInsertChar, hp, List.take_length, List.drop_length]
  exact (rowEdit_spec E k _ hk).bump

theorem editorRowAppendString_spec (E : editorConfig) (k : Nat) (s : List Nat)
    (hk : k < E.row.length) :
    RowEdited E (editorRowAppendString E k s) k ((rowAt E k).chars ++ s)
      (wrapInt (E.dirty + 1)) := by
  simp only [editorRowAppendString]
  exact (rowEdit_spec E k _ hk).bump

theorem editorRowDelChar_spec (E : editorConfig) (k : Nat) (pos : Int)
    (hk : k < E.row.length) (h0 : 0 ≤ pos) (h1 : pos < (rowAt E k).size) :
    RowEdited E (editorRowDelChar E k pos) k
      ((rowAt E k).chars.take pos.toNat ++ (rowAt E k).chars.drop (pos.toNat + 1))
      (wrapInt (E.dirty + 1)) := by
  simp only [editorRowDelChar]
  rw [if_neg (by omega)]
  exact (rowEdit_spec E k _ hk).bump

theorem take_insert_drop (l : List Nat) (p : Nat) (c : Nat) (hp : p ≤ l.length) :
    (l.take p ++ c :: l.drop p).take p ++ (l.take p ++ c :: l.drop p).drop (p + 1) = l := by
  have hlen : (l.take p).length = p := by simp [hp]
  have h1 : (l.take p ++ c :: l.drop p).take p = l.take p := by
    rw [List.take_append_of_le_length (by omega)]
    rw [List.take_of_length_le (by omega)]
  have h2 : (l.take p ++ c :: l.drop p).drop (p + 1) = l.drop p := by
    have : p + 1 = (l.take p).length + 1 := by omega
    rw [this, List.drop_append]
    rfl
  rw [h1, h2, List.take_append_drop]

/-- C3: for a row whose `render` is the tab expansion of its `chars` (as
`editorUpdateRow` leaves every row), a position `0 <= at <= row.size` and a byte
`c`, `editorRowInsertChar(row, at, c)` followed by `editorRowDelChar(row, at)`
restores `chars`, `size`, `render` and `rsize`, and leaves the dirty counter
exactly 2 higher, so it never decreases and does not return to its old value.  The
counter is an `int` with `E.dirty + 2 <= INT_MAX`: it wraps around at `INT_MAX`. -/
theorem C3_insert_delete_roundtrip (E : editorConfig) (k : Nat) (pos : Int) (c : Int)
    (hk : k < E.row.length) (h0 : 0 ≤ pos) (h1 : pos ≤ (rowAt E k).size)
    (hr : (rowAt E k).render = tabExpand (rowAt E k).chars)
    (hlo : INT_MIN ≤ E.dirty) (hhi : E.dirty + 2 ≤ INT_MAX) :
    (rowAt (editorRowDelChar (editorRowInsertChar E k pos c) k pos) k).chars = (rowAt E k).chars
    ∧ (rowAt (editorRowDelChar (editorRowInsertChar E k pos c) k pos) k).size = (rowAt E k).size
    ∧ (rowAt (editorRowDelChar (editorRowInsertChar E k pos c) k pos) k).render = (rowAt E k).render
    ∧ (rowAt (editorRowDelChar (editorRowInsertChar E k pos c) k pos) k).rsize = (rowAt E k).rsize
    ∧ (editorRowDelChar (editorRowInsertChar E k pos c) k pos).dirty = E.dirty + 2
    ∧ (editorRowDelChar (editorRowInsertChar E k pos c) k pos).dirty ≠ E.dirty
    ∧ E.dirty ≤ (editorRowInsertChar E k pos c).dirty
    ∧ (editorRowInsertChar E k pos c).dirty
        ≤ (editorRowDelChar (editorRowInsertChar E k pos c) k pos).dirty := by
  have hsz : (rowAt E k).chars.length = (rowAt E k).size := rfl
  have hI := editorRowInsertChar_spec E k pos c hk h0 h1
  have hsz1 : ((rowAt (editorRowInsertChar E k pos c) k).size : Int) = (rowAt E k).size + 1 := by
    simp only [erow.size, hI.chars, List.length_append, List.length_take, List.length_cons,
      List.length_drop]
    omega
  have hD := editorRowDelChar_spec (editorRowInsertChar E k pos c) k pos
    (by rw [hI.len]; exact hk) h0 (by omega)
  have hchars : (rowAt (editorRowDelChar (editorRowInsertChar E k pos c) k pos) k).chars
      = (rowAt E k).chars := by
    rw [hD.chars, hI.chars]
    exact take_insert_drop _ _ _ (by omega)
  have hrender : (rowAt (editorRowDelChar (editorRowInsertChar E k pos c) k pos) k).render
      = (rowAt E k).render := by
    rw [hD.render, hr, hI.chars, take_insert_drop _ _ _ (by omega)]
  have hd1 := hI.dirty
  have hd2 := hD.dirty
  rw [wrapInt_eq _ (by omega) (by omega)] at hd1
  rw [hd1, wrapInt_eq _ (by omega) (by omega)] at hd2
  refine ⟨hchars, ?_, hrender, ?_, ?_, ?_, ?_, ?_⟩
  · simp only [erow.size, hchars]
  · simp only [erow.rsize, hrender]
  all_goals omega

/-- C3 on the row `"a\tb"`: a tab inserted at position 1 and deleted again. -/
theorem C3_insert_delete_roundtrip_witness :
    0 < docTab.row.length ∧ (0 : Int) ≤ 1 ∧ (1 : Int) ≤ (rowAt docTab 0).size
    ∧ (rowAt docTab 0).render = tabExpand (rowAt docTab 0).chars
    ∧ (INT_MIN ≤ docTab.dirty ∧ docTab.dirty + 2 ≤ INT_MAX)
    ∧ (rowAt (editorRowDelChar (editorRowInsertChar docTab 0 1 9) 0 1) 0).chars = (rowAt docTab 0).chars
    ∧ (rowAt (editorRowDelChar (editorRowInsertChar docTab 0 1 9) 0 1) 0).render = (rowAt docTab 0).render
    ∧ (editorRowDelChar (editorRowInsertChar docTab 0 1 9) 0 1).dirty = docTab.dirty + 2 :=
  have h := C3_insert_delete_roundtrip docTab 0 1 9 (by decide) (by decide) (by decide) (by decide)
    (by decide) (by decide)
  ⟨by decide, by decide, by decide, by decide, by decide, h.1, h.2.2.1, h.2.2.2.2.1⟩

/-! ## Propagation of the comment state -/

theorem rowAt_setRow_self (E : editorConfig) (k : Nat) (r : erow) (hk : k < E.row.length) :
    rowAt (setRow E k r) k = r :=
  getD_set_self E.row k r default hk

theorem rowAt_setRow_ne (E : editorConfig) (k j : Nat) (r : erow) (h : j ≠ k) :
    rowAt (setRow E k r) j = rowAt E j :=
  getD_text_set_ne E.row k j r h

theorem length_setRow (E : editorConfig) (k : Nat) (r : erow) :
    (setRow E k r).row.length = E.row.length := by
  simp [setRow]

theorem docOk_setRow (E : editorConfig) (k : Nat) (r : erow) (h : docOk E)
    (hidx : r.idx = (rowAt E k).idx) : docOk (setRow E k r) := by
  refine ⟨by rw [length_setRow]; exact h.1, ?_⟩
  intro i hi
  rw [length_setRow] at hi
  by_cases e : i = k
  · subst e
    rw [rowAt_setRow_self E i r hi, hidx]
    exact h.2 i hi
  · rw [rowAt_setRow_ne E k i r e]
    exact h.2 i hi

theorem startComment_eq (E : editorConfig) (k : Nat) (h : (rowAt E k).idx = (k : Int)) :
    startComment E k = prevOpen E k := by
  simp only [startComment, prevOpen, h]
  have e1 : ((k : Int) - 1).toNat = k - 1 := by omega
  have e2 : decide ((k : Int) > 0) = decide (k > 0) := by
    by_cases hk : k > 0
    · simp [hk]
    · have : k = 0 := by omega
      simp [this]
  rw [e1, e2]

theorem prevOpen_setRow (E : editorConfig) (k j : Nat) (r : erow)
    (h : j ≠ k + 1 ∨ r.hlOpenComment = (rowAt E k).hlOpenComment) :
    prevOpen (setRow E k r) j = prevOpen E j := by
  simp only [prevOpen]
  by_cases hj : j > 0
  · by_cases e : j - 1 = k
    · have hj2 : ¬ (j ≠ k + 1) := by omega
      have hr := h.resolve_left hj2
      by_cases hk : k < E.row.length
      · rw [e, rowAt_setRow_self E k r hk, hr]
      · have : setRow E k r = E := by
          simp only [setRow]
          rw [List.set_eq_of_length_le (by omega)]
        rw [this]
    · rw [rowAt_setRow_ne E k (j - 1) r e]
  · simp [hj]

/-- One call of `editorUpdateSyntax` on row `k` makes row `k` consistent. -/
theorem rowConsistent_rescanned (s : editorSyntax) (E : editorConfig) (k : Nat)
    (hk : k < E.row.length) (hidx : (rowAt E k).idx = (k : Int)) :
    rowConsistent s (setRow E k (rescanned s E k)) k := by
  have hp : prevOpen (setRow E k (rescanned s E k)) k = prevOpen E k :=
    prevOpen_setRow E k k _ (Or.inl (by omega))
  simp only [rowConsistent, hp, rowAt_setRow_self E k _ hk]
  simp only [rescanned, startComment_eq E k hidx]

theorem rowConsistent_setRow_other (s : editorSyntax) (E : editorConfig) (k j : Nat) (r : erow)
    (hjk : j ≠ k) (h : j ≠ k + 1 ∨ r.hlOpenComment = (rowAt E k).hlOpenComment)
    (hc : rowConsistent s E j) : rowConsistent s (setRow E k r) j := by
  simp only [rowConsistent, prevOpen_setRow E k j r h, rowAt_setRow_ne E k j r hjk]
  exact hc

/-- The recursion of `editorUpdateSyntax` from row `k` restores consistency of the
whole document when every other row was consistent before. -/
theorem hlConsistent_editorUpdateSyntaxFuel (s : editorSyntax) (fuel : Nat) :
    ∀ (E : editorConfig) (k : Nat), E.syn = some s → docOk E → k < E.row.length →
      E.row.length ≤ k + fuel → consistentExcept s E k →
      hlConsistent s (editorUpdateSyntaxFuel fuel E k) := by
  induction fuel with
  | zero =>
    intro E k _ _ hk hf _
    omega
  | succ n ih =>
    intro E k hs hok hk hf hex
    have hidx := hok.2 k hk
    have hnum := hok.1
    rw [editorUpdateSyntaxFuel_some n E k s hs]
    have hself := rowConsistent_rescanned s E k hk hidx
    split
    · rename_i hif
      simp only [Bool.and_eq_true, bne_iff_ne, ne_eq, decide_eq_true_eq] at hif
      have hk1 : k + 1 < E.row.length := by
        have := hif.2
        rw [hidx] at this
        omega
      have e : ((rowAt E k).idx + 1).toNat = k + 1 := by
        rw [hidx]
        omega
      rw [e]
      refine ih (setRow E k (rescanned s E k)) (k + 1) hs (docOk_setRow E k _ hok rfl)
        (by rw [length_setRow]; exact hk1) (by rw [length_setRow]; omega) ?_
      intro j hj hne
      rw [length_setRow] at hj
      by_cases ejk : j = k
      · rw [ejk]
        exact hself
      · exact rowConsistent_setRow_other s E k j _ ejk (Or.inl hne) (hex j hj ejk)
    · rename_i hif
      simp only [Bool.and_eq_true, bne_iff_ne, ne_eq, decide_eq_true_eq, not_and, not_lt] at hif
      intro j hj
      rw [length_setRow] at hj
      by_cases ejk : j = k
      · rw [ejk]
        exact hself
      · refine rowConsistent_setRow_other s E k j _ ejk ?_ (hex j hj ejk)
        by_cases e1 : j = k + 1
        · right
          by_contra hne
          have := hif (fun h => hne h.symm)
          rw [hidx] at this
          omega
        · exact Or.inl e1

/-- The recursion of `editorUpdateSyntax` from row `k` of a well-formed document
ends within `numRows - k` calls: a larger bound gives the same state. -/
theorem editorUpdateSyntaxFuel_enough (fuel : Nat) :
    ∀ (E : editorConfig) (k extra : Nat), docOk E → k < E.row.length →
      E.row.length ≤ k + fuel →
      editorUpdateSyntaxFuel (fuel + extra) E k = editorUpdateSyntaxFuel fuel E k := by
  induction fuel with
  | zero =>
    intro E k extra _ hk hf
    omega
  | succ n ih =>
    intro E k extra hok hk hf
    have e : n + 1 + extra = (n + extra) + 1 := by omega
    rw [e]
    rcases Option.eq_none_or_eq_some E.syn with hs | ⟨s, hs⟩
    · rw [editorUpdateSyntaxFuel_none _ E k hs, editorUpdateSyntaxFuel_none _ E k hs]
    · rw [editorUpdateSyntaxFuel_some _ E k s hs, editorUpdateSyntaxFuel_some _ E k s hs]
      split
      · rename_i hif
        simp only [Bool.and_eq_true, bne_iff_ne, ne_eq, decide_eq_true_eq] at hif
        have hidx := hok.2 k hk
        have hnum := hok.1
        have hk1 : k + 1 < E.row.length := by
          have := hif.2
          rw [hidx] at this
          omega
        have e2 : ((rowAt E k).idx + 1).toNat = k + 1 := by
          rw [hidx]
          omega
        rw [e2]
        exact ih (setRow E k (rescanned s E k)) (k + 1) extra (docOk_setRow E k _ hok rfl)
          (by rw [length_setRow]; exact hk1) (by rw [length_setRow]; omega)
      · rfl

/-- An in-row edit (new characters for row `k`, then `editorUpdateRow`) keeps a
consistent document consistent. -/
theorem hlConsistent_rowEdit (s : editorSyntax) (E : editorConfig) (k : Nat) (cs : List Nat)
    (hs : E.syn = some s) (hok : docOk E) (hk : k < E.row.length) (hc : hlConsistent s E) :
    hlConsistent s (editorUpdateRow (setRow E k { rowAt E k with chars := cs }) k) := by
  simp only [editorUpdateRow, editorUpdateSyntax]
  have hk1 : k < (setRow E k { rowAt E k with chars := cs }).row.length := by
    rw [length_setRow]
    exact hk
  rw [rowAt_setRow_self E k _ hk]
  simp only [setRow, List.set_set]
  have hlen : (E.row.set k { rowAt E k with chars := cs, render := renderLoop cs [] }).length
      = E.row.length := by simp
  rw [hlen]
  refine hlConsistent_editorUpdateSyntaxFuel s E.row.length
    (setRow E k { rowAt E k with chars := cs, render := renderLoop cs [] }) k hs
    (docOk_setRow E k _ hok rfl) (by rw [length_setRow]; exact hk)
    (by rw [length_setRow]; omega) ?_
  intro j hj hne
  rw [length_setRow] at hj
  exact rowConsistent_setRow_other s E k j _ hne (Or.inr rfl) (hc j hj)

theorem hlConsistent_dirty (s : editorSyntax) (E : editorConfig) (d : Int)
    (h : hlConsistent s E) : hlConsistent s { E with dirty := d } := h

/-- C4: with the C profile selected, in a well-formed highlight-consistent document
every in-row edit of a row `k` (`editorRowInsertChar`, `editorRowDelChar`,
`editorRowAppendString`, any position, byte or string) leaves the whole document
highlight-consistent: the recursion in `editorUpdateSyntax` re-highlights every
later row whose comment state depends on the edit. -/
theorem C4_edit_keeps_highlight_consistent (E : editorConfig) (k : Nat)
    (hs : E.syn = some HLDB_C) (hok : docOk E) (hk : k < E.row.length)
    (hc : hlConsistent HLDB_C E) :
    (∀ (pos c : Int), hlConsistent HLDB_C (editorRowInsertChar E k pos c))
    ∧ (∀ pos : Int, hlConsistent HLDB_C (editorRowDelChar E k pos))
    ∧ (∀ str : List Nat, hlConsistent HLDB_C (editorRowAppendString E k str)) := by
  refine ⟨?_, ?_, ?_⟩
  · intro pos c
    simp only [editorRowInsertChar]
    exact hlConsistent_dirty _ _ _ (hlConsistent_rowEdit HLDB_C E k _ hs hok hk hc)
  · intro pos
    simp only [editorRowDelChar]
    split
    · exact hc
    · exact hlConsistent_dirty _ _ _ (hlConsistent_rowEdit HLDB_C E k _ hs hok hk hc)
  · intro str
    simp only [editorRowAppendString]
    exact hlConsistent_dirty _ _ _ (hlConsistent_rowEdit HLDB_C E k _ hs hok hk hc)

/-- C4 on the rows `"/*"`, `"int x"`: row 1 is all block comment; appending `"*/"`
to row 0 re-highlights row 1 as `Keyword2` for `int` and `Normal` for the rest. -/
theorem C4_edit_keeps_highlight_consistent_witness :
    docComment.syn = some HLDB_C ∧ docOk docComment ∧ 0 < docComment.row.length
    ∧ hlConsistent HLDB_C docComment
    ∧ hlConsistent HLDB_C (editorRowAppendString docComment 0 (bytes "*/"))
    ∧ (rowAt docComment 1).hl = List.replicate 5 HL_MLCOMMENT
    ∧ (rowAt (editorRowAppendString docComment 0 (bytes "*/")) 1).hl
        = [HL_KEYWORD2, HL_KEYWORD2, HL_KEYWORD2, HL_NORMAL, HL_NORMAL] :=
  ⟨by decide, by decide, by decide, by decide,
    (C4_edit_keeps_highlight_consistent docComment 0 (by decide) (by decide) (by decide)
      (by decide)).2.2 (bytes "*/"),
    by decide, by decide⟩

/-! ## Search -/

theorem strstrFrom_isSome (needle : List Nat) :
    ∀ (hay : List Nat) (off : Nat),
      (strstrFrom needle hay off).isSome = decide (needle <:+: hay) := by
  intro hay
  induction hay with
  | nil =>
    intro off
    cases needle with
    | nil => simp [strstrFrom]
    | cons a t => simp [strstrFrom]
  | cons h t ih =>
    intro off
    simp only [strstrFrom]
    by_cases hp : needle.isPrefixOf (h :: t) = true
    · rw [if_pos hp]
      have : needle <:+: h :: t := (List.isPrefixOf_iff_prefix.mp hp).isInfix
      simp [this]
    · rw [if_neg hp, ih (off + 1)]
      have hp2 : ¬ needle <+: h :: t := fun c => hp (List.isPrefixOf_iff_prefix.mpr c)
      have : needle <:+: h :: t ↔ needle <:+: t := by
        rw [List.infix_cons_iff]
        exact ⟨fun c => c.resolve_left hp2, Or.inr⟩
      simp only [this]

theorem strstr_isSome (hay needle : List Nat) :
    (strstr hay needle).isSome = containsCstr needle hay := by
  simp only [strstr, containsCstr, strstrFrom_isSome]

theorem wrap_eq_emod (n c d : Int) (hn : 0 < n) (hc : -1 ≤ c ∧ c < n)
    (hd : d = 1 ∨ (d = -1 ∧ 0 ≤ c)) :
    (if c + d = -1 then n - 1 else if c + d = n then 0 else c + d) = (c + d) % n := by
  by_cases h1 : c + d = -1
  · rw [if_pos h1, h1]
    have : (-1 : Int) = (n - 1) + (-1) * n := by ring
    rw [this, Int.add_mul_emod_self, Int.emod_eq_of_lt (by omega) (by omega)]
  · rw [if_neg h1]
    by_cases h2 : c + d = n
    · rw [if_pos h2, h2, Int.emod_self]
    · rw [if_neg h2, Int.emod_eq_of_lt (by omega) (by omega)]

/-- The loop of `editorFindCallback` visits the rows in cyclic order and stops at
the first one `strstr` finds the query in. -/
theorem findLoop_fst (E : editorConfig) (q : List Nat) (d : Int) (hn : 0 < E.numRows) :
    ∀ (fuel : Nat) (c : Int), (-1 ≤ c ∧ c < E.numRows) → (d = 1 ∨ (d = -1 ∧ 0 ≤ c)) →
      (findLoop E q d fuel c).map (fun x => x.1)
        = (((List.range fuel).map
              (fun (j : Nat) => ((c + ((j : Int) + 1) * d) % E.numRows).toNat)).find?
            (fun r => (strstr (rowAt E r).render q).isSome)).map (fun (r : Nat) => (r : Int)) := by
  intro fuel
  induction fuel with
  | zero => intro c _ _; simp [findLoop]
  | succ m ih =>
    intro c hc hd
    have hw := wrap_eq_emod E.numRows c d hn hc hd
    have hpos : 0 ≤ (c + d) % E.numRows := Int.emod_nonneg _ (by omega)
    have hlt : (c + d) % E.numRows < E.numRows := Int.emod_lt_of_pos _ hn
    simp only [findLoop, hw]
    rw [List.range_succ_eq_map, List.map_cons, List.map_map, List.find?_cons]
    have h0 : (c + (((0 : Nat) : Int) + 1) * d) % E.numRows = (c + d) % E.numRows := by
      congr 1
      simp
    rw [h0]
    cases hs : strstr (rowAt E ((c + d) % E.numRows).toNat).render q with
    | some off =>
      simp only [Option.isSome_some, Option.map_some']
      congr 1
      omega
    | none =>
      simp only [Option.isSome_none]
      rw [ih ((c + d) % E.numRows) ⟨by omega, hlt⟩ (by omega)]
      congr 2
      apply List.map_congr_left
      intro j _
      simp only [Function.comp]
      congr 1
      rw [Int.emod_add_emod]
      congr 1
      push_cast
      ring

theorem findRestore_frame (E : editorConfig) (fs : FindState) :
    (findRestore E fs).numRows = E.numRows ∧ (findRestore E fs).cursorY = E.cursorY
    ∧ ∀ r, (rowAt (findRestore E fs) r).render = (rowAt E r).render := by
  unfold findRestore
  cases fs.saved_hl with
  | none => exact ⟨rfl, rfl, fun _ => rfl⟩
  | some saved =>
    refine ⟨rfl, rfl, ?_⟩
    intro r
    simp only []
    by_cases e : r = fs.saved_hl_line.toNat
    · by_cases hk : r < E.row.length
      · rw [e, rowAt_setRow_self E _ _ (by rw [← e]; exact hk)]
      · have : setRow E fs.saved_hl_line.toNat
            { rowAt E fs.saved_hl_line.toNat with
              hl := saved.take (rowAt E fs.saved_hl_line.toNat).rsize
                ++ (rowAt E fs.saved_hl_line.toNat).hl.drop (rowAt E fs.saved_hl_line.toNat).rsize }
            = E := by
          simp only [setRow]
          rw [List.set_eq_of_length_le (by omega)]
        rw [this]
    · rw [rowAt_setRow_ne E _ r _ e]

theorem findKey_eq (fs : FindState) (key : Int) :
    (findKey { fs with saved_hl := none } key).last_match = priorMatch fs key
    ∧ (findKey { fs with saved_hl := none } key).direction = searchStep fs key := by
  by_cases h1 : key = ARROW_RIGHT ∨ key = ARROW_DOWN
  · have h2 : ¬ (key = ARROW_LEFT ∨ key = ARROW_UP) := by
      simp only [ARROW_LEFT, ARROW_RIGHT, ARROW_UP, ARROW_DOWN] at h1 ⊢
      omega
    have hp : priorMatch fs key = fs.last_match := by
      unfold priorMatch
      rw [if_pos (by tauto)]
    have hs : searchStep fs key = 1 := by
      unfold searchStep
      rw [if_neg (fun c => h2 c.1)]
    rw [hp, hs]
    unfold findKey
    rw [if_pos h1]
    dsimp only
    by_cases h4 : fs.last_match = -1
    · rw [if_pos h4]
      exact ⟨rfl, rfl⟩
    · rw [if_neg h4]
      exact ⟨rfl, rfl⟩
  · by_cases h2 : key = ARROW_LEFT ∨ key = ARROW_UP
    · have hp : priorMatch fs key = fs.last_match := by
        unfold priorMatch
        rw [if_pos (by tauto)]
      unfold searchStep
      rw [hp]
      unfold findKey
      rw [if_neg h1, if_pos h2]
      by_cases h4 : fs.last_match = -1
      · rw [if_pos h4, if_neg (fun c => c.2 h4)]
        exact ⟨rfl, rfl⟩
      · rw [if_neg h4, if_pos ⟨h2, h4⟩]
        exact ⟨rfl, rfl⟩
    · have hp : priorMatch fs key = -1 := by
        unfold priorMatch
        rw [if_neg (by tauto)]
      have hs : searchStep fs key = 1 := by
        unfold searchStep
        rw [if_neg (fun c => h2 c.1)]
      rw [hp, hs]
      unfold findKey
      rw [if_neg h1, if_neg h2, if_pos rfl]
      exact ⟨rfl, rfl⟩

theorem priorMatch_range (fs : FindState) (key : Int) (n : Int) (hn : 1 ≤ n)
    (hlm : -1 ≤ fs.last_match ∧ fs.last_match < n) :
    (-1 ≤ priorMatch fs key ∧ priorMatch fs key < n)
    ∧ (searchStep fs key = 1 ∨ (searchStep fs key = -1 ∧ 0 ≤ priorMatch fs key)) := by
  have h1 : -1 ≤ priorMatch fs key ∧ priorMatch fs key < n := by
    unfold priorMatch
    split <;> omega
  refine ⟨h1, ?_⟩
  unfold searchStep
  split
  · rename_i h
    right
    exact ⟨rfl, by have := h.2; omega⟩
  · left
    rfl

/-- The row `findLoop` stops at is the first match of the reference order. -/
theorem findLoop_firstMatch (E : editorConfig) (fs : FindState) (query : List Nat) (key : Int)
    (hn : 1 ≤ E.numRows) (hlm : -1 ≤ fs.last_match ∧ fs.last_match < E.numRows) :
    (findLoop (findRestore E fs) query (searchStep fs key) E.numRows.toNat
        (priorMatch fs key)).map (fun x => x.1)
      = (firstMatch (containsCstr query) E fs key).map (fun (r : Nat) => (r : Int)) := by
  obtain ⟨hnum, -, hrender⟩ := findRestore_frame E fs
  obtain ⟨hr, hd⟩ := priorMatch_range fs key E.numRows hn hlm
  have h := findLoop_fst (findRestore E fs) query (searchStep fs key) (by rw [hnum]; omega)
    E.numRows.toNat (priorMatch fs key) (by rw [hnum]; exact hr) hd
  rw [h]
  have hcast : ((E.numRows.toNat : Nat) : Int) = E.numRows := by omega
  simp only [firstMatch, examOrder, hcast, hnum, hrender, strstr_isSome]

/-- C5 (amended): for a document of `n >= 1` rows, a stored `last_match` that is
unset or a row index, and a key other than Enter/Escape, `editorFindCallback`
examines at most `n` rows in the cyclic order `last_match + d`, `last_match + 2d`,
... (`d = -1` for a backward arrow with a prior match, `+1` otherwise, any other key
than an arrow unsetting `last_match` first) and sets `last_match` and `cursorY` to
the first examined row whose render bytes, read as a C string (up to the first NUL),
contain the query; with no such row `cursorY` is unchanged. -/
theorem C5_find_first_match (E : editorConfig) (fs : FindState) (query : List Nat) (key : Int)
    (hn : 1 ≤ E.numRows) (hlm : -1 ≤ fs.last_match ∧ fs.last_match < E.numRows)
    (hkey : key ≠ 13 ∧ key ≠ 27) :
    ((editorFindCallback E fs query key).2.last_match,
        (editorFindCallback E fs query key).1.cursorY)
      = (match firstMatch (containsCstr query) E fs key with
          | some r => ((r : Int), (r : Int))
          | none => (priorMatch fs key, E.cursorY))
    ∧ (examOrder E.numRows.toNat (priorMatch fs key) (searchStep fs key)).length
        = E.numRows.toNat := by
  refine ⟨?_, by simp [examOrder]⟩
  have h := findLoop_firstMatch E fs query key hn hlm
  obtain ⟨hnum, hcy, -⟩ := findRestore_frame E fs
  obtain ⟨hk1, hk2⟩ := findKey_eq fs key
  simp only [editorFindCallback]
  rw [if_neg (by omega), hk1, hk2, hnum]
  cases hfl : findLoop (findRestore E fs) query (searchStep fs key) E.numRows.toNat
      (priorMatch fs key) with
  | none =>
    rw [hfl] at h
    cases hfm : firstMatch (containsCstr query) E fs key with
    | none => simp only [hk1, hcy]
    | some r => rw [hfm] at h; simp at h
  | some res =>
    obtain ⟨cur, off⟩ := res
    rw [hfl] at h
    cases hfm : firstMatch (containsCstr query) E fs key with
    | none => rw [hfm] at h; simp at h
    | some r =>
      rw [hfm] at h
      simp only [Option.map_some', Option.some.injEq] at h
      simp only [setRow, h]

/-- C5 on three rows `"x"`: a first search and three forward arrows put the cursor
on rows 0, 1, 2, 0. -/
theorem C5_find_first_match_witness :
    (1 ≤ docXXX.numRows
      ∧ (-1 ≤ FindState.start.last_match ∧ FindState.start.last_match < docXXX.numRows)
      ∧ ((120 : Int) ≠ 13 ∧ (120 : Int) ≠ 27))
    ∧ (((editorFindCallback docXXX FindState.start [120] 120).2.last_match,
          (editorFindCallback docXXX FindState.start [120] 120).1.cursorY)
        = (match firstMatch (containsCstr [120]) docXXX FindState.start 120 with
            | some r => ((r : Int), (r : Int))
            | none => (priorMatch FindState.start 120, docXXX.cursorY))
      ∧ (examOrder docXXX.numRows.toNat (priorMatch FindState.start 120)
          (searchStep FindState.start 120)).length = docXXX.numRows.toNat)
    ∧ (let r1 := editorFindCallback docXXX FindState.start [120] 120
       let r2 := editorFindCallback r1.1 r1.2 [120] ARROW_RIGHT
       let r3 := editorFindCallback r2.1 r2.2 [120] ARROW_RIGHT
       let r4 := editorFindCallback r3.1 r3.2 [120] ARROW_DOWN
       [r1.1.cursorY, r2.1.cursorY, r3.1.cursorY, r4.1.cursorY] = [0, 1, 2, 0]) :=
  ⟨by decide,
    C5_find_first_match docXXX FindState.start [120] 120 (by decide) (by decide) (by decide),
    by decide⟩

/-- C5 as stated fails on a row with a NUL byte: in `docNul` the first examined row
whose render bytes contain `"x"` is row 1, but `strstr` stops at the NUL, so
`last_match` and `cursorY` are not set to 1: `last_match` stays unset and the cursor
stays on row 0. -/
theorem C5_counterexample :
    (1 ≤ docNul.numRows
      ∧ (-1 ≤ FindState.start.last_match ∧ FindState.start.last_match < docNul.numRows)
      ∧ ((120 : Int) ≠ 13 ∧ (120 : Int) ≠ 27))
    ∧ firstMatch (containsLiteral [120]) docNul FindState.start 120 = some 1
    ∧ ¬ ((editorFindCallback docNul FindState.start [120] 120).2.last_match = 1
        ∧ (editorFindCallback docNul FindState.start [120] 120).1.cursorY = 1)
    ∧ (editorFindCallback docNul FindState.start [120] 120).2.last_match = -1
    ∧ (editorFindCallback docNul FindState.start [120] 120).1.cursorY = 0 := by
  decide

/-! ## Row insertion and deletion -/

theorem getD_insertAt {α : Type} (l : List α) (p i : Nat) (x d : α) (f : α → α)
    (hp : p ≤ l.length) (hi : i ≤ l.length) :
    (l.take p ++ x :: (l.drop p).map f).getD i d
      = if i < p then l.getD i d else if i = p then x else f (l.getD (i - 1) d) := by
  have hlen : (l.take p).length = p := by simp [hp]
  simp only [List.getD_eq_getElem?_getD]
  by_cases h1 : i < p
  · rw [if_pos h1, List.getElem?_append_left (by omega), List.getElem?_take_of_lt h1]
  · rw [if_neg h1, List.getElem?_append_right (by omega), hlen]
    by_cases h2 : i = p
    · rw [if_pos h2, h2]
      simp
    · rw [if_neg h2]
      obtain ⟨m, hm⟩ : ∃ m, i - p = m + 1 := ⟨i - p - 1, by omega⟩
      rw [hm, List.getElem?_cons_succ, List.getElem?_map, List.getElem?_drop]
      have e : p + m = i - 1 := by omega
      rw [e]
      have hlt : i - 1 < l.length := by omega
      rw [List.getElem?_eq_getElem hlt]
      rfl

theorem getD_deleteAt {α : Type} (l : List α) (p i : Nat) (d : α) (f : α → α)
    (hp : p < l.length) (hi : i + 1 < l.length) :
    (l.take p ++ (l.drop (p + 1)).map f).getD i d
      = if i < p then l.getD i d else f (l.getD (i + 1) d) := by
  have hlen : (l.take p).length = p := by simp; omega
  simp only [List.getD_eq_getElem?_getD]
  by_cases h1 : i < p
  · rw [if_pos h1, List.getElem?_append_left (by omega), List.getElem?_take_of_lt h1]
  · rw [if_neg h1, List.getElem?_append_right (by omega), hlen, List.getElem?_map,
      List.getElem?_drop]
    have e : p + 1 + (i - p) = i + 1 := by omega
    rw [e, List.getElem?_eq_getElem hi]
    rfl

theorem getD_take_append_cons {α : Type} (l t : List α) (p : Nat) (x d : α)
    (hp : p ≤ l.length) : (l.take p ++ x :: t).getD p d = x := by
  have hlen : (l.take p).length = p := by simp [hp]
  rw [List.getD_eq_getElem?_getD, List.getElem?_append_right (by omega), hlen]
  simp

theorem set_take_append_cons {α : Type} (l t : List α) (p : Nat) (x y : α)
    (hp : p ≤ l.length) : (l.take p ++ x :: t).set p y = l.take p ++ y :: t := by
  have hlen : (l.take p).length = p := by simp [hp]
  rw [List.set_append, if_neg (by omega), hlen]
  simp

/-- The state after `editorInsertRow` at a position inside `[0, numRows]`. -/
theorem editorInsertRow_inrange (E : editorConfig) (pos : Int) (s : List Nat)
    (h0 : 0 ≤ pos) (h1 : pos ≤ E.numRows) (hlen : (E.row.length : Int) = E.numRows) :
    ∃ rows, editorInsertRow E pos s
        = { E with row := rows, numRows := E.numRows + 1, dirty := wrapInt (E.dirty + 1) }
      ∧ rows.map erow.text
          = (E.row.map erow.text).take pos.toNat
            ++ (pos, s, tabExpand s)
              :: ((E.row.map erow.text).drop pos.toNat).map (fun t => (t.1 + 1, t.2)) := by
  have hp : pos.toNat ≤ E.row.length := by omega
  obtain ⟨rows, e1, e2⟩ := editorUpdateRow_frame
    { E with row := E.row.take pos.toNat
        ++ ({ idx := pos, chars := s, render := [], hl := [], hlOpenComment := false } : erow)
          :: (E.row.drop pos.toNat).map (fun r => { r with idx := r.idx + 1 }) } pos.toNat
  refine ⟨rows, ?_, ?_⟩
  · simp only [editorInsertRow]
    rw [if_neg (by omega), e1]
  · rw [e2]
    simp only [rowAt]
    rw [getD_take_append_cons _ _ _ _ _ hp, set_take_append_cons _ _ _ _ _ hp]
    simp only [List.map_append, List.map_cons, List.map_take, List.map_drop, List.map_map]
    congr 2
    simp only [erow.text, renderLoop_eq, tabExpand, List.nil_append, List.length_nil]

/-- The state after `editorDelRow` at a position inside `[0, numRows)`. -/
theorem editorDelRow_inrange (E : editorConfig) (pos : Int) (h0 : 0 ≤ pos)
    (h1 : pos < E.numRows) :
    editorDelRow E pos
      = { E with row := E.row.take pos.toNat
                    ++ (E.row.drop (pos.toNat + 1)).map (fun r : erow => { r with idx := r.idx - 1 })
                 numRows := E.numRows - 1
                 dirty := wrapInt (E.dirty + 1) } := by
  simp only [editorDelRow]
  rw [if_neg (by omega)]

theorem rowAt_text_eq (E : editorConfig) (i : Nat) :
    (rowAt E i).text = (E.row.map erow.text).getD i (default : erow).text := by
  rw [List.getD_map]
  rfl

theorem docOk_editorInsertRow (E : editorConfig) (pos : Int) (s : List Nat) (h : docOk E) :
    docOk (editorInsertRow E pos s) := by
  by_cases hr : pos < 0 ∨ pos > E.numRows
  · simp only [editorInsertRow]
    rw [if_pos hr]
    exact h
  · have hlen := h.1
    obtain ⟨rows, e1, e2⟩ := editorInsertRow_inrange E pos s (by omega) (by omega) hlen
    have hl : rows.length = E.row.length + 1 := by
      have := congrArg List.length e2
      simp only [List.length_map, List.length_append, List.length_take, List.length_cons,
        List.length_drop] at this
      omega
    rw [e1]
    refine ⟨?_, ?_⟩
    · show ((rows.length : Nat) : Int) = E.numRows + 1
      omega
    · intro i hi
      have hi2 : i < rows.length := hi
      show (rows.getD i default).idx = (i : Int)
      have ht : (rows.getD i default).text
          = (rows.map erow.text).getD i (default : erow).text := by
        rw [List.getD_map]
      rw [e2, getD_insertAt _ _ _ _ _ _ (by simp; omega) (by simp; omega)] at ht
      have hidx : ∀ j, j < E.row.length →
          ((E.row.map erow.text).getD j (default : erow).text).1 = (j : Int) := by
        intro j hj
        rw [← rowAt_text_eq]
        exact h.2 j hj
      have hfst := congrArg Prod.fst ht
      simp only [erow.text] at hfst
      rw [hfst]
      by_cases c1 : i < pos.toNat
      · rw [if_pos c1]
        exact hidx i (by omega)
      · rw [if_neg c1]
        by_cases c2 : i = pos.toNat
        · rw [if_pos c2]
          simp only
          omega
        · rw [if_neg c2]
          have := hidx (i - 1) (by omega)
          simp only [erow.text] at this
          simp only [this]
          omega

theorem docOk_editorDelRow (E : editorConfig) (pos : Int) (h : docOk E) :
    docOk (editorDelRow E pos) := by
  by_cases hr : pos < 0 ∨ pos ≥ E.numRows
  · simp only [editorDelRow]
    rw [if_pos hr]
    exact h
  · have hlen := h.1
    rw [editorDelRow_inrange E pos (by omega) (by omega)]
    have hl : (E.row.take pos.toNat
        ++ (E.row.drop (pos.toNat + 1)).map (fun r : erow => { r with idx := r.idx - 1 })).length
        = E.row.length - 1 := by
      simp only [List.length_append, List.length_take, List.length_map, List.length_drop]
      omega
    refine ⟨?_, ?_⟩
    · show ((_ : Nat) : Int) = E.numRows - 1
      rw [hl]
      omega
    · intro i hi
      have hi2 : i < E.row.length - 1 := by
        rw [← hl]
        exact hi
      show ((E.row.take pos.toNat
        ++ (E.row.drop (pos.toNat + 1)).map (fun r : erow => { r with idx := r.idx - 1 })).getD i
          default).idx = (i : Int)
      rw [getD_deleteAt _ _ _ _ _ (by omega) (by omega)]
      by_cases c1 : i < pos.toNat
      · rw [if_pos c1]
        exact h.2 i (by omega)
      · rw [if_neg c1]
        have := h.2 (i + 1) (by omega)
        simp only [rowAt] at this
        simp only [this]
        omega

theorem docOk_applyRowOps (ops : List RowOp) :
    ∀ E : editorConfig, docOk E → docOk (applyRowOps E ops) := by
  induction ops with
  | nil => intro E h; exact h
  | cons op rest ih =>
    intro E h
    simp only [applyRowOps, List.foldl_cons]
    apply ih
    cases op with
    | insert pos s => exact docOk_editorInsertRow E pos s h
    | delete pos => exact docOk_editorDelRow E pos h

/-- C8: in every state reached from an empty document by any sequence of
`editorInsertRow` and `editorDelRow` calls with arbitrary positions, the row array
holds `numRows` rows and `row[i].idx == i` for every `0 <= i < numRows`. -/
theorem C8_row_index_invariant (E : editorConfig) (ops : List RowOp) (i : Nat)
    (hrow : E.row = []) (hnum : E.numRows = 0) (hi : (i : Int) < (applyRowOps E ops).numRows) :
    ((applyRowOps E ops).row.length : Int) = (applyRowOps E ops).numRows
    ∧ (rowAt (applyRowOps E ops) i).idx = (i : Int) := by
  have h0 : docOk E := by
    refine ⟨by rw [hrow, hnum]; rfl, ?_⟩
    intro j hj
    rw [hrow] at hj
    simp at hj
  have h := docOk_applyRowOps ops E h0
  exact ⟨h.1, h.2 i (by have := h.1; omega)⟩

/-- C8 on four calls from the state of `initEditor`, one of them out of range. -/
theorem C8_row_index_invariant_witness :
    (initEditor 24 80).row = [] ∧ (initEditor 24 80).numRows = 0
    ∧ ((1 : Nat) : Int) < (applyRowOps (initEditor 24 80)
        [RowOp.insert 0 [97], RowOp.insert 0 [98], RowOp.insert 7 [99], RowOp.insert 1 [100],
          RowOp.delete 0]).numRows
    ∧ (((applyRowOps (initEditor 24 80)
        [RowOp.insert 0 [97], RowOp.insert 0 [98], RowOp.insert 7 [99], RowOp.insert 1 [100],
          RowOp.delete 0]).row.length : Int)
        = (applyRowOps (initEditor 24 80)
        [RowOp.insert 0 [97], RowOp.insert 0 [98], RowOp.insert 7 [99], RowOp.insert 1 [100],
          RowOp.delete 0]).numRows
      ∧ (rowAt (applyRowOps (initEditor 24 80)
        [RowOp.insert 0 [97], RowOp.insert 0 [98], RowOp.insert 7 [99], RowOp.insert 1 [100],
          RowOp.delete 0]) 1).idx = ((1 : Nat) : Int)) :=
  ⟨rfl, rfl, by decide, C8_row_index_invariant _ _ 1 rfl rfl (by decide)⟩

/-- C10 (amended): for a position `at < 0` or `at > numRows`, `editorInsertRow`
returns at its guard and leaves the whole state unchanged: no row is added, the
position is not clamped. -/
theorem C10_insert_out_of_range_ignored (E : editorConfig) (pos : Int) (s : List Nat)
    (h : pos < 0 ∨ pos > E.numRows) : editorInsertRow E pos s = E := by
  simp only [editorInsertRow]
  rw [if_pos h]

/-- C10 (amended) at position 5 of the one-row document `docTab`. -/
theorem C10_insert_out_of_range_ignored_witness :
    ((5 : Int) < 0 ∨ (5 : Int) > docTab.numRows) ∧ editorInsertRow docTab 5 [98] = docTab :=
  ⟨by decide, C10_insert_out_of_range_ignored docTab 5 [98] (by decide)⟩

/-- C10 as stated fails: inserting at position 5, or at position -1, of the one-row
document `docTab` does not give a document with one more row; the rows stay as they
are. -/
theorem C10_counterexample :
    ((5 : Int) > docTab.numRows
      ∧ (editorInsertRow docTab 5 [98]).numRows ≠ docTab.numRows + 1
      ∧ (editorInsertRow docTab 5 [98]).numRows = docTab.numRows
      ∧ (editorInsertRow docTab 5 [98]).row.map erow.chars = [bytes "a\tb"])
    ∧ ((-1 : Int) < 0
      ∧ (editorInsertRow docTab (-1) [98]).numRows ≠ docTab.numRows + 1
      ∧ (editorInsertRow docTab (-1) [98]).numRows = docTab.numRows
      ∧ (editorInsertRow docTab (-1) [98]).row.map erow.chars = [bytes "a\tb"]) := by
  decide

/-! ## Backspace at the start of a line -/

theorem take_drop_set {α : Type} (l : List α) :
    ∀ (k : Nat) (x : α), k < l.length →
      (l.set k x).take (k + 1) ++ (l.set k x).drop (k + 2) = l.take k ++ x :: l.drop (k + 2) := by
  induction l with
  | nil => intro k x h; simp at h
  | cons a t ih =>
    intro k x h
    cases k with
    | zero => simp
    | succ n =>
      have := ih n x (by simpa using h)
      simpa using this

/-- C9: with `0 < cursorY < numRows` and `cursorX == 0`, `editorDelChar` joins the
current row onto the previous one: one row less, `row[cursorY-1].chars` is the old
`row[cursorY-1].chars` followed by the old `row[cursorY].chars`, the other rows keep
their chars and order, and the cursor is at `(cursorY - 1, old size of
row[cursorY-1])`. -/
theorem C9_backspace_joins_rows (E : editorConfig) (hlen : (E.row.length : Int) = E.numRows)
    (hy0 : 0 < E.cursorY) (hy1 : E.cursorY < E.numRows) (hx : E.cursorX = 0) :
    (editorDelChar E).numRows = E.numRows - 1
    ∧ ((editorDelChar E).row.length : Int) = E.numRows - 1
    ∧ (editorDelChar E).row.map erow.chars
        = (E.row.map erow.chars).take (E.cursorY.toNat - 1)
          ++ ((rowAt E (E.cursorY.toNat - 1)).chars ++ (rowAt E E.cursorY.toNat).chars)
            :: (E.row.map erow.chars).drop (E.cursorY.toNat + 1)
    ∧ (editorDelChar E).cursorY = E.cursorY - 1
    ∧ (editorDelChar E).cursorX = (rowAt E (E.cursorY.toNat - 1)).size := by
  have hk : (E.cursorY - 1).toNat = E.cursorY.toNat - 1 := by omega
  have hA := editorRowAppendString_spec
    { E with cursorX := (rowAt E (E.cursorY - 1).toNat).size } (E.cursorY - 1).toNat
    (rowAt E E.cursorY.toNat).chars (by show (E.cursorY - 1).toNat < E.row.length; omega)
  simp only [editorDelChar]
  rw [if_neg (by omega), if_neg (by omega), if_neg (by omega)]
  generalize editorRowAppendString { E with cursorX := (rowAt E (E.cursorY - 1).toNat).size }
    (E.cursorY - 1).toNat (rowAt E E.cursorY.toNat).chars = E2 at hA ⊢
  have hcy : E2.cursorY = E.cursorY := hA.cursorY
  have hnum : E2.numRows = E.numRows := hA.numRows
  have hcx : E2.cursorX = (rowAt E (E.cursorY - 1).toNat).size := hA.cursorX
  have hl2 : E2.row.length = E.row.length := hA.len
  have hchars : E2.row.map erow.chars
      = (E.row.map erow.chars).set (E.cursorY.toNat - 1)
          ((rowAt E (E.cursorY.toNat - 1)).chars ++ (rowAt E E.cursorY.toNat).chars) := by
    have ht := congrArg (List.map (fun t : Int × List Nat × List Nat => t.2.1)) hA.texts
    simp only [List.map_map, List.map_set] at ht
    rw [hk] at ht
    exact ht
  rw [editorDelRow_inrange E2 E2.cursorY (by omega) (by omega)]
  refine ⟨?_, ?_, ?_, ?_, ?_⟩
  · show E2.numRows - 1 = E.numRows - 1
    omega
  · show (((E2.row.take E2.cursorY.toNat
      ++ (E2.row.drop (E2.cursorY.toNat + 1)).map
        (fun r : erow => { r with idx := r.idx - 1 })).length : Nat) : Int) = E.numRows - 1
    simp only [List.length_append, List.length_take, List.length_map, List.length_drop]
    omega
  · show (E2.row.take E2.cursorY.toNat
      ++ (E2.row.drop (E2.cursorY.toNat + 1)).map
        (fun r : erow => { r with idx := r.idx - 1 })).map erow.chars = _
    simp only [List.map_append, List.map_map, List.map_take]
    have e : (erow.chars ∘ fun r : erow => { r with idx := r.idx - 1 }) = erow.chars := rfl
    rw [e, List.map_drop, hchars, hcy]
    have e1 : E.cursorY.toNat = (E.cursorY.toNat - 1) + 1 := by omega
    have e2 : E.cursorY.toNat + 1 = (E.cursorY.toNat - 1) + 2 := by omega
    rw [e2]
    nth_rewrite 1 [e1]
    exact take_drop_set _ _ _ (by simp; omega)
  · show E2.cursorY - 1 = E.cursorY - 1
    omega
  · show E2.cursorX = _
    rw [hcx, hk]

/-- C9 on the rows `"/*"`, `"int x"` with the cursor at the start of row 1. -/
theorem C9_backspace_joins_rows_witness :
    ((({ docComment with cursorY := 1 } : editorConfig).row.length : Int)
        = ({ docComment with cursorY := 1 } : editorConfig).numRows
      ∧ 0 < ({ docComment with cursorY := 1 } : editorConfig).cursorY
      ∧ ({ docComment with cursorY := 1 } : editorConfig).cursorY
          < ({ docComment with cursorY := 1 } : editorConfig).numRows
      ∧ ({ docComment with cursorY := 1 } : editorConfig).cursorX = 0)
    ∧ (editorDelChar { docComment with cursorY := 1 }).row.map erow.chars = [bytes "/*int x"]
    ∧ (editorDelChar { docComment with cursorY := 1 }).numRows = 1
    ∧ (editorDelChar { docComment with cursorY := 1 }).cursorY = 0
    ∧ (editorDelChar { docComment with cursorY := 1 }).cursorX = 2 :=
  have h := C9_backspace_joins_rows { docComment with cursorY := 1 }
    (by decide) (by decide) (by decide) (by decide)
  ⟨by decide, by rw [h.2.2.1]; decide, by rw [h.1]; decide, by rw [h.2.2.2.1]; decide,
    by rw [h.2.2.2.2]; decide⟩

/-! ## Save and reopen -/

theorem editorInsertRow_append (E : editorConfig) (s : List Nat)
    (hlen : (E.row.length : Int) = E.numRows) :
    (editorInsertRow E E.numRows s).row.map erow.chars = E.row.map erow.chars ++ [s]
    ∧ ((editorInsertRow E E.numRows s).row.length : Int) = (editorInsertRow E E.numRows s).numRows
    ∧ (editorInsertRow E E.numRows s).numRows = E.numRows + 1 := by
  obtain ⟨rows, e1, e2⟩ := editorInsertRow_inrange E E.numRows s (by omega) (by omega) hlen
  have hp : E.numRows.toNat = (E.row.map erow.text).length := by
    simp only [List.length_map]
    omega
  rw [hp, List.take_length, List.drop_length] at e2
  have hc := congrArg (List.map (fun t : Int × List Nat × List Nat => t.2.1)) e2
  simp only [List.map_map, List.map_append, List.map_cons, List.map_nil] at hc
  have hl := congrArg List.length e2
  simp only [List.length_map, List.length_append, List.length_cons, List.length_nil] at hl
  rw [e1]
  refine ⟨hc, ?_, rfl⟩
  show ((rows.length : Nat) : Int) = E.numRows + 1
  omega

theorem getline_row (cs rest : List Nat) (h : 10 ∉ cs) :
    getline (cs ++ 10 :: rest) = some (cs ++ [10], rest) := by
  have hall : ∀ a ∈ cs, (fun c : Nat => c != 10) a = true := by
    intro a ha
    have : a ≠ 10 := fun e => h (e ▸ ha)
    simpa using this
  have hspan : (cs ++ 10 :: rest).span (fun c => c != 10) = (cs, 10 :: rest) := by
    rw [List.span_eq_take_drop, List.takeWhile_append_of_pos hall,
      List.dropWhile_append_of_pos hall]
    simp [List.takeWhile, List.dropWhile]
  unfold getline
  cases hcs : cs ++ 10 :: rest with
  | nil => simp at hcs
  | cons a t =>
    simp only []
    rw [← hcs, hspan]

theorem stripEol_row (cs : List Nat) (h10 : 10 ∉ cs) (h13 : cs.getLast? ≠ some 13) :
    stripEol (cs ++ [10]) = cs := by
  unfold stripEol
  rw [List.rdropWhile_concat_pos _ _ _ (by simp), List.rdropWhile_eq_self_iff]
  intro hne
  have hmem : cs.getLast hne ∈ cs := List.getLast_mem hne
  have h1 : cs.getLast hne ≠ 10 := fun e => h10 (e ▸ hmem)
  have h2 : cs.getLast hne ≠ 13 := by
    intro e
    apply h13
    rw [List.getLast?_eq_getLast _ hne, e]
  simp [h1, h2]

/-- The reading loop of `editorOpen` on the bytes written by `editorRowsToString`
appends the rows written, when no row holds a newline or ends in a carriage
return. -/
theorem openLoop_rowsToString (rows : List erow) :
    ∀ (fuel : Nat) (E : editorConfig), (E.row.length : Int) = E.numRows →
      (rowsToString rows).length ≤ fuel →
      (∀ r ∈ rows, 10 ∉ r.chars ∧ r.chars.getLast? ≠ some 13) →
      (openLoop fuel E (rowsToString rows)).row.map erow.chars
          = E.row.map erow.chars ++ rows.map erow.chars
        ∧ (openLoop fuel E (rowsToString rows)).numRows = E.numRows + rows.length := by
  induction rows with
  | nil =>
    intro fuel E _ _ _
    cases fuel with
    | zero => simp [openLoop, rowsToString]
    | succ n => simp [openLoop, rowsToString, getline]
  | cons r rs ih =>
    intro fuel E hlen hf hrows
    have hr := hrows r (List.mem_cons_self _ _)
    simp only [rowsToString, List.length_append, List.length_cons] at hf
    obtain ⟨n, rfl⟩ : ∃ n, fuel = n + 1 := ⟨fuel - 1, by omega⟩
    simp only [openLoop, rowsToString, getline_row _ _ hr.1, stripEol_row _ hr.1 hr.2]
    obtain ⟨a1, a2, a3⟩ := editorInsertRow_append E r.chars hlen
    obtain ⟨b1, b2⟩ := ih n (editorInsertRow E E.numRows r.chars) a2 (by omega)
      (fun x hx => hrows x (List.mem_cons_of_mem _ hx))
    rw [b1, b2, a1, a3]
    refine ⟨by simp, ?_⟩
    simp only [List.length_cons]
    push_cast
    ring

theorem editorSelectSyntaxHighlight_empty (E : editorConfig) (hrow : E.row = [])
    (hnum : E.numRows = 0) :
    (editorSelectSyntaxHighlight E).row = [] ∧ (editorSelectSyntaxHighlight E).numRows = 0 := by
  unfold editorSelectSyntaxHighlight
  cases E.fileName with
  | none => exact ⟨hrow, hnum⟩
  | some name =>
    simp only []
    split
    · exact ⟨hrow, hnum⟩
    · simp [hnum, hrow]

/-- C6 (amended): for a document of `N` rows none of which holds a newline byte or
ends in a carriage return, reading the bytes of `editorRowsToString` back into a
fresh editor with the line reader of `editorOpen` yields exactly `N` rows with the
same `chars`, row by row. -/
theorem C6_save_open_roundtrip (E : editorConfig) (sr sc : Int) (fileName : List Nat)
    (hlen : (E.row.length : Int) = E.numRows)
    (hrows : ∀ r ∈ E.row, 10 ∉ r.chars ∧ r.chars.getLast? ≠ some 13) :
    (editorOpen (initEditor sr sc) fileName (editorRowsToString E)).row.map erow.chars
        = E.row.map erow.chars
    ∧ (editorOpen (initEditor sr sc) fileName (editorRowsToString E)).numRows = E.numRows := by
  have htake : E.row.take E.numRows.toNat = E.row := List.take_of_length_le (by omega)
  obtain ⟨s1, s2⟩ := editorSelectSyntaxHighlight_empty
    { initEditor sr sc with fileName := some (cstr fileName) } rfl rfl
  obtain ⟨o1, o2⟩ := openLoop_rowsToString E.row (rowsToString E.row).length
    (editorSelectSyntaxHighlight { initEditor sr sc with fileName := some (cstr fileName) })
    (by rw [s1, s2]; rfl) (Nat.le_refl _) hrows
  rw [s1] at o1
  rw [s2] at o2
  simp only [editorOpen, editorRowsToString, htake]
  refine ⟨?_, ?_⟩
  · rw [o1]
    simp
  · rw [o2]
    omega

/-- C6 (amended) on the rows `"/*"`, `"int x"`. -/
theorem C6_save_open_roundtrip_witness :
    ((docComment.row.length : Int) = docComment.numRows
      ∧ ∀ r ∈ docComment.row, 10 ∉ r.chars ∧ r.chars.getLast? ≠ some 13)
    ∧ (editorOpen (initEditor 24 80) (bytes "t.c") (editorRowsToString docComment)).row.map
        erow.chars = docComment.row.map erow.chars
    ∧ (editorOpen (initEditor 24 80) (bytes "t.c") (editorRowsToString docComment)).numRows
        = docComment.numRows :=
  ⟨by decide,
    C6_save_open_roundtrip docComment 24 80 (bytes "t.c") (by decide) (by decide)⟩

/-- C6 as stated fails: the one row of `docNewline` holds a newline byte and comes
back as two empty rows; the one row of `docCr` ends in a carriage return and comes
back without it. -/
theorem C6_counterexample :
    ((docNewline.row.length : Int) = docNewline.numRows
      ∧ docNewline.row.map erow.chars = [[10]]
      ∧ (editorOpen (initEditor 24 80) (bytes "t") (editorRowsToString docNewline)).row.map
          erow.chars = [[], []]
      ∧ (editorOpen (initEditor 24 80) (bytes "t") (editorRowsToString docNewline)).row.map
          erow.chars ≠ docNewline.row.map erow.chars)
    ∧ ((docCr.row.length : Int) = docCr.numRows
      ∧ docCr.row.map erow.chars = [[97, 13]]
      ∧ (editorOpen (initEditor 24 80) (bytes "t") (editorRowsToString docCr)).row.map
          erow.chars = [[97]]
      ∧ (editorOpen (initEditor 24 80) (bytes "t") (editorRowsToString docCr)).row.map
          erow.chars ≠ docCr.row.map erow.chars) := by
  decide

theorem escapeTable_eq : escapeTable =
  [([91, 65], 1002), ([91, 66], 1003), ([91, 67], 1001), ([91, 68], 1000), ([91, 72], 1005),
   ([79, 72], 1005), ([91, 70], 1006), ([79, 70], 1006), ([91, 49, 126], 1005),
   ([91, 55, 126], 1005), ([91, 51, 126], 1004), ([91, 52, 126], 1006), ([91, 56, 126], 1006),
   ([91, 53, 126], 1007), ([91, 54, 126], 1008)] := by decide

theorem lit_beq_false (v x : Nat) (h : x ≠ v) : (v == x) = false := by
  simpa using fun e => h e.symm

/-- The reference decoder when the first byte behind ESC opens no sequence. -/
theorem refKeyAfterEsc_other (s0 : Nat) (r : List (Option Nat)) (h1 : s0 ≠ 91) (h2 : s0 ≠ 79) :
    refKeyAfterEsc (some s0 :: r) = 27 := by
  simp [refKeyAfterEsc, escapeTable_eq, List.find?, List.isPrefixOf,
    lit_beq_false 91 s0 h1, lit_beq_false 79 s0 h2]

theorem refKeyAfterEsc_ss3 (s1 : Nat) (r : List (Option Nat)) :
    refKeyAfterEsc (some 79 :: some s1 :: r)
      = if s1 = 72 then HOME_KEY else if s1 = 70 then END_KEY else 27 := by
  by_cases h1 : s1 = 72
  · subst h1
    simp [refKeyAfterEsc, escapeTable_eq, List.find?, List.isPrefixOf, HOME_KEY]
  · by_cases h2 : s1 = 70
    · subst h2
      simp [refKeyAfterEsc, escapeTable_eq, List.find?, List.isPrefixOf, END_KEY]
    · simp [refKeyAfterEsc, escapeTable_eq, List.find?, List.isPrefixOf, h1, h2,
        lit_beq_false 72 s1 h1, lit_beq_false 70 s1 h2]

theorem refKeyAfterEsc_csi (s1 : Nat) (r : List (Option Nat)) (hd : ¬ (48 ≤ s1 ∧ s1 ≤ 57)) :
    refKeyAfterEsc (some 91 :: some s1 :: r)
      = if s1 = 65 then ARROW_UP else if s1 = 66 then ARROW_DOWN
        else if s1 = 67 then ARROW_RIGHT else if s1 = 68 then ARROW_LEFT
        else if s1 = 72 then HOME_KEY else if s1 = 70 then END_KEY else 27 := by
  by_cases h1 : s1 = 65
  · subst h1; simp [refKeyAfterEsc, escapeTable_eq, List.find?, List.isPrefixOf, ARROW_UP]
  by_cases h2 : s1 = 66
  · subst h2; simp [refKeyAfterEsc, escapeTable_eq, List.find?, List.isPrefixOf, ARROW_DOWN]
  by_cases h3 : s1 = 67
  · subst h3; simp [refKeyAfterEsc, escapeTable_eq, List.find?, List.isPrefixOf, ARROW_RIGHT]
  by_cases h4 : s1 = 68
  · subst h4; simp [refKeyAfterEsc, escapeTable_eq, List.find?, List.isPrefixOf, ARROW_LEFT]
  by_cases h5 : s1 = 72
  · subst h5; simp [refKeyAfterEsc, escapeTable_eq, List.find?, List.isPrefixOf, HOME_KEY]
  by_cases h6 : s1 = 70
  · subst h6; simp [refKeyAfterEsc, escapeTable_eq, List.find?, List.isPrefixOf, END_KEY]
  simp [refKeyAfterEsc, escapeTable_eq, List.find?, List.isPrefixOf, h1, h2, h3, h4, h5, h6,
    lit_beq_false 65 s1 h1, lit_beq_false 66 s1 h2, lit_beq_false 67 s1 h3,
    lit_beq_false 68 s1 h4, lit_beq_false 72 s1 h5, lit_beq_false 70 s1 h6,
    lit_beq_false 49 s1 (by omega), lit_beq_false 51 s1 (by omega), lit_beq_false 52 s1 (by omega),
    lit_beq_false 53 s1 (by omega), lit_beq_false 54 s1 (by omega), lit_beq_false 55 s1 (by omega),
    lit_beq_false 56 s1 (by omega)]

theorem refKeyAfterEsc_digit (s1 : Nat) (r : List (Option Nat)) (hd : 48 ≤ s1 ∧ s1 ≤ 57) :
    refKeyAfterEsc (some 91 :: some s1 :: r)
      = if r.head? = some (some 126) then
          (if s1 = 49 then HOME_KEY else if s1 = 51 then DEL_KEY else if s1 = 52 then END_KEY
           else if s1 = 53 then PAGE_UP else if s1 = 54 then PAGE_DOWN
           else if s1 = 55 then HOME_KEY else if s1 = 56 then END_KEY else 27)
        else 27 := by
  obtain ⟨a, b⟩ := hd
  rcases r with _ | ⟨_ | s2, r3⟩
  · interval_cases s1 <;> simp [refKeyAfterEsc, escapeTable_eq, List.find?, List.isPrefixOf]
  · interval_cases s1 <;> simp [refKeyAfterEsc, escapeTable_eq, List.find?, List.isPrefixOf]
  · by_cases h : s2 = 126
    · subst h
      interval_cases s1 <;>
        simp [refKeyAfterEsc, escapeTable_eq, List.find?, List.isPrefixOf, HOME_KEY, DEL_KEY,
          END_KEY, PAGE_UP, PAGE_DOWN]
    · interval_cases s1 <;>
        simp [refKeyAfterEsc, escapeTable_eq, List.find?, List.isPrefixOf, h,
          lit_beq_false 126 s2 h]

theorem refKeyAfterEsc_short (r : List (Option Nat))
    (h : r = [] ∨ (∃ t, r = none :: t) ∨ (∃ s0, r = [some s0]) ∨ ∃ s0 t, r = some s0 :: none :: t) :
    refKeyAfterEsc r = 27 := by
  rcases h with rfl | ⟨t, rfl⟩ | ⟨s0, rfl⟩ | ⟨s0, t, rfl⟩ <;>
    simp [refKeyAfterEsc, escapeTable_eq, List.find?, List.isPrefixOf]

/-- The escape branch of `editorReadKey` returns the key of the reference decoder
and leaves the script behind at most three reads. -/
theorem readEscape_eq (rest : List (Option Nat)) :
    (readEscape rest).1 = refKeyAfterEsc rest
    ∧ ∃ n, n ≤ 3 ∧ (readEscape rest).2 = rest.drop n := by
  rcases rest with _ | ⟨_ | s0, r1⟩
  · exact ⟨(refKeyAfterEsc_short [] (Or.inl rfl)).symm, 0, by omega, rfl⟩
  · exact ⟨(refKeyAfterEsc_short _ (Or.inr (Or.inl ⟨r1, rfl⟩))).symm, 1, by omega, rfl⟩
  rcases r1 with _ | ⟨_ | s1, r2⟩
  · exact ⟨(refKeyAfterEsc_short _ (Or.inr (Or.inr (Or.inl ⟨s0, rfl⟩)))).symm, 1, by omega, rfl⟩
  · exact ⟨(refKeyAfterEsc_short _ (Or.inr (Or.inr (Or.inr ⟨s0, r2, rfl⟩)))).symm, 2,
      by omega, rfl⟩
  by_cases h0 : s0 = 91
  · subst h0
    by_cases hd : 48 ≤ s1 ∧ s1 ≤ 57
    · rw [refKeyAfterEsc_digit s1 r2 hd]
      simp only [readEscape, readByte]
      rw [if_pos True.intro, if_pos hd]
      rcases r2 with _ | ⟨_ | s2, r3⟩
      · exact ⟨by simp, 2, by omega, rfl⟩
      · exact ⟨by simp, 3, by omega, rfl⟩
      · by_cases h2 : s2 = 126
        · subst h2
          refine ⟨?_, 3, by omega, ?_⟩
          · simp only [readByte, List.head?_cons, if_true]
            split_ifs <;> rfl
          · simp only [readByte, if_true]
            split_ifs <;> rfl
        · refine ⟨?_, 3, by omega, ?_⟩
          · simp [readByte, h2]
          · simp [readByte, h2]
    · rw [refKeyAfterEsc_csi s1 r2 hd]
      simp only [readEscape, readByte]
      rw [if_pos True.intro, if_neg hd]
      refine ⟨?_, 2, by omega, ?_⟩
      · split_ifs <;> rfl
      · split_ifs <;> rfl
  · by_cases h1 : s0 = 79
    · subst h1
      rw [refKeyAfterEsc_ss3 s1 r2]
      simp only [readEscape, readByte]
      rw [if_neg (by omega), if_pos True.intro]
      refine ⟨?_, 2, by omega, ?_⟩
      · split_ifs <;> rfl
      · split_ifs <;> rfl
    · rw [refKeyAfterEsc_other s0 _ h0 h1]
      simp only [readEscape, readByte]
      rw [if_neg h0, if_neg h1]
      exact ⟨rfl, 2, by omega, rfl⟩

theorem editorReadKey_wait (t : Nat) (input : List (Option Nat)) :
    editorReadKey (List.replicate t none ++ input) = editorReadKey input := by
  induction t with
  | zero => rfl
  | succ n ih =>
    rw [List.replicate_succ, List.cons_append]
    simpa [editorReadKey] using ih

/-- C7 (amended): when the first byte `c` arrives after `t` timed-out reads and
`rest` is the rest of the script, `editorReadKey` returns the key of the reference
decoder: unless `c` is ESC, the value of the `char` that holds `c`, which is `c`
itself below 128 (the byte as is) and `c - 256` from 128 on; behind ESC the key of
the table of escape sequences (`ESC [ A/B/C/D`, `ESC [ H`, `ESC O H`, `ESC [ F`,
`ESC O F`, `ESC [ d ~`) and the bare ESC key for every other continuation, a
time-out on the first or second read included; at most 3 reads are taken behind an
ESC, none behind another byte; while only time-outs arrive no key is returned.
`ESC [ A` decodes to `ARROW_UP`, `ESC [ 3 ~` to `DEL_KEY`, a lone `ESC` to the ESC
key. -/
theorem C7_readKey_decoder (t c : Nat) (rest : List (Option Nat)) :
    (editorReadKey (List.replicate t none ++ some c :: rest)).map (fun r => r.1)
        = some (refKey c rest)
    ∧ (c ≠ 27 → c < 128 →
        (editorReadKey (List.replicate t none ++ some c :: rest)).map (fun r => r.1)
          = some (refKeyAsIs c rest))
    ∧ (∃ n, n ≤ 3 ∧ (c ≠ 27 → n = 0)
        ∧ (editorReadKey (List.replicate t none ++ some c :: rest)).map (fun r => r.2)
            = some (rest.drop n))
    ∧ editorReadKey (List.replicate t none) = none
    ∧ editorReadKey [some 27, some 91, some 65] = some (ARROW_UP, [])
    ∧ editorReadKey [some 27, some 91, some 51, some 126] = some (DEL_KEY, [])
    ∧ editorReadKey [some 27, none] = some (27, []) := by
  refine ⟨?_, ?_, ?_, ?_, by decide, by decide, by decide⟩
  · rw [editorReadKey_wait]
    simp only [editorReadKey, refKey, ESC]
    by_cases hc : c = 27
    · rw [if_pos hc, if_pos hc]
      simp only [Option.map_some', (readEscape_eq rest).1]
    · rw [if_neg hc, if_neg hc]
      rfl
  · intro hc hlt
    rw [editorReadKey_wait]
    simp only [editorReadKey, ESC, charValue, refKeyAsIs]
    rw [if_neg hc, if_pos hlt, if_neg hc]
    rfl
  · rw [editorReadKey_wait]
    simp only [editorReadKey, ESC]
    by_cases hc : c = 27
    · obtain ⟨n, hn, hr⟩ := (readEscape_eq rest).2
      refine ⟨n, hn, fun h => absurd hc h, ?_⟩
      rw [if_pos hc]
      simp only [Option.map_some', hr]
    · refine ⟨0, by omega, fun _ => rfl, ?_⟩
      rw [if_neg hc]
      rfl
  · have := editorReadKey_wait t []
    simpa [editorReadKey] using this

/-- C7 (amended) on the byte 200 arriving after one time-out, which is the key
-56, and on the byte 97, the key 97. -/
theorem C7_readKey_decoder_witness :
    ((editorReadKey (List.replicate 1 none ++ some 200 :: [])).map (fun r => r.1)
        = some (refKey 200 [])
      ∧ refKey 200 [] = -56)
    ∧ ((97 : Nat) ≠ 27 ∧ (97 : Nat) < 128)
    ∧ (editorReadKey (List.replicate 0 none ++ some 97 :: [])).map (fun r => r.1)
        = some (refKeyAsIs 97 [])
    ∧ refKeyAsIs 97 [] = 97 :=
  ⟨⟨(C7_readKey_decoder 1 200 []).1, by decide⟩, by decide,
    (C7_readKey_decoder 0 97 []).2.1 (by decide) (by decide), by decide⟩

/-- C7 as stated fails on a first byte from 128 on: the byte 200 (and the bytes
195, 169 of a two-byte UTF-8 character) is not returned as is, it comes back as the
negative key -56 (-61, -87), the value of the `char` it was read into. -/
theorem C7_counterexample :
    (editorReadKey [some 200]).map (fun r => r.1) = some (-56)
    ∧ (editorReadKey [some 200]).map (fun r => r.1) ≠ some (refKeyAsIs 200 [])
    ∧ refKeyAsIs 200 [] = 200
    ∧ (editorReadKey [some 195, some 169]).map (fun r => r.1) = some (-61)
    ∧ (editorReadKey [some 169]).map (fun r => r.1) = some (-87) := by
  decide

/-! ## Out-of-range deletes and the dirty counter -/

/-- C11: `editorDelRow(at)` with `at < 0` or `at >= numRows` and
`editorRowDelChar(row, at)` with `at < 0` or `at >= row.size` return at their guard
and leave the whole editor state unchanged: every row with its chars, render and
highlight, `numRows` and the dirty counter. -/
theorem C11_delete_out_of_range_noop (E : editorConfig) (pos : Int) (k : Nat) (cpos : Int)
    (h1 : pos < 0 ∨ pos ≥ E.numRows) (h2 : cpos < 0 ∨ cpos ≥ (rowAt E k).size) :
    editorDelRow E pos = E ∧ editorRowDelChar E k cpos = E := by
  refine ⟨?_, ?_⟩
  · simp only [editorDelRow]
    rw [if_pos h1]
  · simp only [editorRowDelChar]
    rw [if_pos h2]

/-- C11 on the one-row document `docTab` (`"a\tb"`): row 1 and row -1 do not exist,
nor do the characters 3 and -1 of row 0. -/
theorem C11_delete_out_of_range_noop_witness :
    (((1 : Int) < 0 ∨ (1 : Int) ≥ docTab.numRows) ∧ ((3 : Int) < 0 ∨ (3 : Int) ≥ (rowAt docTab 0).size))
    ∧ (editorDelRow docTab 1 = docTab ∧ editorRowDelChar docTab 0 3 = docTab)
    ∧ (editorDelRow docTab (-1) = docTab ∧ editorRowDelChar docTab 0 (-1) = docTab) :=
  ⟨by decide, C11_delete_out_of_range_noop docTab 1 0 3 (by decide) (by decide),
    C11_delete_out_of_range_noop docTab (-1) 0 (-1) (by decide) (by decide)⟩

theorem editorUpdateRow_dirty (E : editorConfig) (k : Nat) :
    (editorUpdateRow E k).dirty = E.dirty ∧ (editorUpdateRow E k).numRows = E.numRows := by
  obtain ⟨rows, h, -⟩ := editorUpdateRow_frame E k
  rw [h]
  exact ⟨rfl, rfl⟩

theorem editorInsertRow_dirty (E : editorConfig) (pos : Int) (s : List Nat) :
    editorInsertRow E pos s = E ∨ (editorInsertRow E pos s).dirty = wrapInt (E.dirty + 1) := by
  simp only [editorInsertRow]
  split
  · exact Or.inl rfl
  · right
    simp only []
    rw [(editorUpdateRow_dirty _ _).1]

theorem editorDelRow_dirty (E : editorConfig) (pos : Int) :
    editorDelRow E pos = E ∨ (editorDelRow E pos).dirty = wrapInt (E.dirty + 1) := by
  simp only [editorDelRow]
  split
  · exact Or.inl rfl
  · exact Or.inr rfl

theorem editorRowInsertChar_dirty (E : editorConfig) (k : Nat) (pos c : Int) :
    (editorRowInsertChar E k pos c).dirty = wrapInt (E.dirty + 1) := by
  simp only [editorRowInsertChar]
  rw [(editorUpdateRow_dirty _ _).1]
  rfl

theorem editorRowAppendString_dirty (E : editorConfig) (k : Nat) (s : List Nat) :
    (editorRowAppendString E k s).dirty = wrapInt (E.dirty + 1) := by
  simp only [editorRowAppendString]
  rw [(editorUpdateRow_dirty _ _).1]
  rfl

theorem editorRowDelChar_dirty (E : editorConfig) (k : Nat) (pos : Int) :
    editorRowDelChar E k pos = E ∨ (editorRowDelChar E k pos).dirty = wrapInt (E.dirty + 1) := by
  simp only [editorRowDelChar]
  split
  · exact Or.inl rfl
  · right
    simp only []
    rw [(editorUpdateRow_dirty _ _).1]
    rfl

/-- The counter behind `editorInsertChar`: incremented once, or twice when a row
was appended first. -/
theorem editorInsertChar_dirty (E : editorConfig) (c : Int) :
    (editorInsertChar E c).dirty = wrapInt (E.dirty + 1)
    ∨ (editorInsertChar E c).dirty = wrapInt (wrapInt (E.dirty + 1) + 1) := by
  simp only [editorInsertChar]
  rw [editorRowInsertChar_dirty]
  split
  · rcases editorInsertRow_dirty E E.numRows [] with h | h
    · rw [h]
      exact Or.inl rfl
    · rw [h]
      exact Or.inr rfl
  · exact Or.inl rfl

/-- The counter behind `editorDelChar`: unchanged with the document unchanged, or
incremented once or twice. -/
theorem editorDelChar_dirty (E : editorConfig) :
    ((editorDelChar E).dirty = E.dirty ∧ ¬ docChanged E (editorDelChar E))
    ∨ (editorDelChar E).dirty = wrapInt (E.dirty + 1)
    ∨ (editorDelChar E).dirty = wrapInt (wrapInt (E.dirty + 1) + 1) := by
  simp only [editorDelChar]
  split
  · exact Or.inl ⟨rfl, fun h => by simp [docChanged] at h⟩
  split
  · exact Or.inl ⟨rfl, fun h => by simp [docChanged] at h⟩
  split
  · rcases editorRowDelChar_dirty E E.cursorY.toNat (E.cursorX - 1) with h | h
    · rw [h]
      exact Or.inl ⟨rfl, fun h => by simp [docChanged] at h⟩
    · simp only []
      rw [h]
      exact Or.inr (Or.inl rfl)
  · simp only []
    have h1 := editorRowAppendString_dirty
      { E with cursorX := (rowAt E (E.cursorY - 1).toNat).size } (E.cursorY - 1).toNat
      (rowAt E E.cursorY.toNat).chars
    have h3 : ({ E with cursorX := (rowAt E (E.cursorY - 1).toNat).size } : editorConfig).dirty
        = E.dirty := rfl
    rw [h3] at h1
    rcases editorDelRow_dirty
      (editorRowAppendString { E with cursorX := (rowAt E (E.cursorY - 1).toNat).size }
        (E.cursorY - 1).toNat (rowAt E E.cursorY.toNat).chars)
      (editorRowAppendString { E with cursorX := (rowAt E (E.cursorY - 1).toNat).size }
        (E.cursorY - 1).toNat (rowAt E E.cursorY.toNat).chars).cursorY with h2 | h2
    · rw [h2, h1]
      exact Or.inr (Or.inl rfl)
    · rw [h2, h1]
      exact Or.inr (Or.inr rfl)

theorem editorUpdateRow_outside (E : editorConfig) (k : Nat) (r : erow)
    (hk : E.row.length ≤ k) :
    (editorUpdateRow (setRow E k r) k).row.map erow.chars = E.row.map erow.chars := by
  obtain ⟨rows, h1, h2⟩ := editorUpdateRow_frame (setRow E k r) k
  rw [h1]
  have hs : setRow E k r = E := by
    simp only [setRow]
    rw [List.set_eq_of_length_le hk]
  rw [hs] at h2
  rw [List.set_eq_of_length_le hk] at h2
  have := congrArg (List.map (fun t : Int × List Nat × List Nat => t.2.1)) h2
  simpa [List.map_map] using this

theorem editorInsertRow_dirty_in (E : editorConfig) (pos : Int) (s : List Nat)
    (hr : ¬ (pos < 0 ∨ pos > E.numRows)) :
    (editorInsertRow E pos s).dirty = wrapInt (E.dirty + 1) := by
  simp only [editorInsertRow]
  rw [if_neg hr]
  simp only []
  rw [(editorUpdateRow_dirty _ _).1]

/-- The counter behind the body of `editorInsertNewLine`: unchanged with the
document unchanged, or incremented once. -/
theorem insertNewLineBody_dirty (E : editorConfig)
    (hlen : (E.row.length : Int) = E.numRows) (hcy : 0 ≤ E.cursorY) :
    ((insertNewLineBody E).dirty = E.dirty ∧ ¬ docChanged E (insertNewLineBody E))
    ∨ (insertNewLineBody E).dirty = wrapInt (E.dirty + 1) := by
  unfold insertNewLineBody
  split
  · rcases editorInsertRow_dirty E E.cursorY [] with h | h
    · rw [h]
      exact Or.inl ⟨rfl, fun h => by simp [docChanged] at h⟩
    · rw [h]
      exact Or.inr rfl
  · by_cases hr : E.cursorY + 1 < 0 ∨ E.cursorY + 1 > E.numRows
    · have hE : editorInsertRow E (E.cursorY + 1)
          ((rowAt E E.cursorY.toNat).chars.drop E.cursorX.toNat) = E := by
        simp only [editorInsertRow]
        rw [if_pos hr]
      simp only []
      rw [hE]
      generalize ({ rowAt E E.cursorY.toNat with
        chars := (rowAt E E.cursorY.toNat).chars.take E.cursorX.toNat } : erow) = r
      rw [(editorUpdateRow_dirty _ _).1]
      refine Or.inl ⟨rfl, fun h => ?_⟩
      rcases h with h | h
      · exact h (editorUpdateRow_outside E _ r (by omega))
      · apply h
        rw [(editorUpdateRow_dirty _ _).2]
        rfl
    · have hd := editorInsertRow_dirty_in E (E.cursorY + 1)
        ((rowAt E E.cursorY.toNat).chars.drop E.cursorX.toNat) hr
      simp only []
      rw [(editorUpdateRow_dirty _ _).1]
      have : ∀ (k : Nat) (r : erow) (E1 : editorConfig), (setRow E1 k r).dirty = E1.dirty :=
        fun _ _ _ => rfl
      rw [this, hd]
      exact Or.inr rfl

theorem editorInsertNewLine_dirty (E : editorConfig)
    (hlen : (E.row.length : Int) = E.numRows) (hcy : 0 ≤ E.cursorY) :
    ((editorInsertNewLine E).dirty = E.dirty ∧ ¬ docChanged E (editorInsertNewLine E))
    ∨ (editorInsertNewLine E).dirty = wrapInt (E.dirty + 1) :=
  insertNewLineBody_dirty E hlen hcy

/-- C12: let the dirty counter be an `int` with `E.dirty < INT_MAX` (the counter,
a 32-bit `int`, wraps around at `INT_MAX`).  Each of `editorInsertRow`,
`editorDelRow`, `editorRowInsertChar`, `editorRowAppendString`, `editorRowDelChar`
either returns at its guard with the state unchanged or increases the counter by
exactly 1, and none of them decreases it.  With room for the two increments a
command can make (`E.dirty + 1 < INT_MAX`), `editorInsertChar` always leaves the
counter strictly greater, `editorInsertNewLine` and `editorDelChar` leave it strictly
greater whenever they change the chars of a row or the number of rows, and none of
the three decreases it.  The cursor row is not negative and the row array holds
`numRows` rows. -/
theorem C12_dirty_counter (E : editorConfig) (pos : Int) (s : List Nat) (k : Nat) (c : Int)
    (hlen : (E.row.length : Int) = E.numRows) (hcy : 0 ≤ E.cursorY)
    (hlo : INT_MIN ≤ E.dirty) (hhi : E.dirty < INT_MAX) :
    ((editorInsertRow E pos s = E ∨ (editorInsertRow E pos s).dirty = E.dirty + 1)
      ∧ (editorDelRow E pos = E ∨ (editorDelRow E pos).dirty = E.dirty + 1)
      ∧ (editorRowInsertChar E k pos c).dirty = E.dirty + 1
      ∧ (editorRowAppendString E k s).dirty = E.dirty + 1
      ∧ (editorRowDelChar E k pos = E ∨ (editorRowDelChar E k pos).dirty = E.dirty + 1))
    ∧ (E.dirty + 1 < INT_MAX →
        E.dirty < (editorInsertChar E c).dirty
        ∧ (docChanged E (editorInsertNewLine E) → E.dirty < (editorInsertNewLine E).dirty)
        ∧ (docChanged E (editorDelChar E) → E.dirty < (editorDelChar E).dirty))
    ∧ (E.dirty ≤ (editorInsertRow E pos s).dirty ∧ E.dirty ≤ (editorDelRow E pos).dirty
      ∧ E.dirty ≤ (editorRowInsertChar E k pos c).dirty
      ∧ E.dirty ≤ (editorRowAppendString E k s).dirty
      ∧ E.dirty ≤ (editorRowDelChar E k pos).dirty)
    ∧ (E.dirty + 1 < INT_MAX →
        E.dirty ≤ (editorInsertChar E c).dirty
        ∧ E.dirty ≤ (editorInsertNewLine E).dirty
        ∧ E.dirty ≤ (editorDelChar E).dirty) := by
  have h1 := editorInsertRow_dirty E pos s
  have h2 := editorDelRow_dirty E pos
  have h3 := editorRowInsertChar_dirty E k pos c
  have h4 := editorRowAppendString_dirty E k s
  have h5 := editorRowDelChar_dirty E k pos
  have h6 := editorInsertChar_dirty E c
  have h7 := editorInsertNewLine_dirty E hlen hcy
  have h8 := editorDelChar_dirty E
  have w1 : wrapInt (E.dirty + 1) = E.dirty + 1 := wrapInt_eq _ (by omega) (by omega)
  rw [w1] at h1 h2 h3 h4 h5 h6 h7 h8
  have hle : ∀ E1 : editorConfig, (E1 = E ∨ E1.dirty = E.dirty + 1) → E.dirty ≤ E1.dirty := by
    intro E1 h
    rcases h with h | h
    · rw [h]
    · omega
  refine ⟨⟨h1, h2, h3, h4, h5⟩, ?_, ⟨hle _ h1, hle _ h2, by omega, by omega, hle _ h5⟩, ?_⟩
  · intro hr
    have w2 : wrapInt (E.dirty + 1 + 1) = E.dirty + 1 + 1 := wrapInt_eq _ (by omega) (by omega)
    rw [w2] at h6 h8
    refine ⟨by omega, fun hc => ?_, fun hc => ?_⟩
    · rcases h7 with h | h
      · exact absurd hc h.2
      · omega
    · rcases h8 with h | h | h
      · exact absurd hc h.2
      · omega
      · omega
  · intro hr
    have w2 : wrapInt (E.dirty + 1 + 1) = E.dirty + 1 + 1 := wrapInt_eq _ (by omega) (by omega)
    rw [w2] at h6 h8
    refine ⟨by omega, ?_, ?_⟩
    · rcases h7 with h | h <;> omega
    · rcases h8 with h | h | h <;> omega

/-- C12 on the rows `"/*"`, `"int x"` with the cursor at column 2 of row 1: Enter
and Backspace change the document and raise the counter from 2 to 3. -/
theorem C12_dirty_counter_witness :
    ((({ docComment with cursorY := 1, cursorX := 2 } : editorConfig).row.length : Int)
        = ({ docComment with cursorY := 1, cursorX := 2 } : editorConfig).numRows
      ∧ 0 ≤ ({ docComment with cursorY := 1, cursorX := 2 } : editorConfig).cursorY
      ∧ INT_MIN ≤ ({ docComment with cursorY := 1, cursorX := 2 } : editorConfig).dirty
      ∧ ({ docComment with cursorY := 1, cursorX := 2 } : editorConfig).dirty < INT_MAX
      ∧ ({ docComment with cursorY := 1, cursorX := 2 } : editorConfig).dirty + 1 < INT_MAX)
    ∧ docComment.dirty < (editorInsertChar { docComment with cursorY := 1, cursorX := 2 } 97).dirty
    ∧ docComment.dirty = 2
    ∧ (editorInsertNewLine { docComment with cursorY := 1, cursorX := 2 }).dirty = 3
    ∧ (editorDelChar { docComment with cursorY := 1, cursorX := 2 }).dirty = 3 :=
  ⟨by decide,
    ((C12_dirty_counter { docComment with cursorY := 1, cursorX := 2 } 0 [] 0 97
      (by decide) (by decide) (by decide) (by decide)).2.1 (by decide)).1,
    by decide, by decide, by decide⟩

/-! ## Scrolling -/

theorem editorScroll_eq (E : editorConfig) :
    editorScroll E
      = { E with rx := cursorRx E
                 rowoff := scrollOffset E.rowoff E.cursorY E.screenRows
                 coloff := scrollOffset E.coloff (cursorRx E) E.screenCols } := by
  simp only [editorScroll, scrollOffset, cursorRx]
  split_ifs
  all_goals (try dsimp only [rowAt] at *)
  all_goals first | rfl | (exfalso; omega)

theorem scrollOffset_window (off v n : Int) (hn : 1 ≤ n) :
    scrollOffset off v n ≤ v ∧ v < scrollOffset off v n + n
    ∧ (off ≤ v ∧ v < off + n → scrollOffset off v n = off) := by
  simp only [scrollOffset]
  split_ifs <;> omega

/-- C13: with `screenRows >= 1` and `screenCols >= 1`, after `editorScroll` the
cursor is inside the window, `rowoff <= cursorY < rowoff + screenRows` and
`coloff <= rx < coloff + screenCols`, where `rx` is `editorRowCxToRx` of the cursor
row at `cursorX` when `cursorY < numRows` and 0 when `cursorY == numRows`; the cursor
is not moved, and an offset whose window already held the cursor is unchanged. -/
theorem C13_scroll_window (E : editorConfig) (hr : 1 ≤ E.screenRows) (hc : 1 ≤ E.screenCols) :
    ((editorScroll E).rowoff ≤ (editorScroll E).cursorY
      ∧ (editorScroll E).cursorY < (editorScroll E).rowoff + (editorScroll E).screenRows
      ∧ (editorScroll E).coloff ≤ (editorScroll E).rx
      ∧ (editorScroll E).rx < (editorScroll E).coloff + (editorScroll E).screenCols)
    ∧ ((E.cursorY < E.numRows →
          (editorScroll E).rx = editorRowCxToRx (rowAt E E.cursorY.toNat) E.cursorX.toNat)
      ∧ (E.cursorY = E.numRows → (editorScroll E).rx = 0))
    ∧ ((editorScroll E).cursorY = E.cursorY ∧ (editorScroll E).cursorX = E.cursorX
      ∧ (editorScroll E).screenRows = E.screenRows ∧ (editorScroll E).screenCols = E.screenCols)
    ∧ (E.rowoff ≤ E.cursorY ∧ E.cursorY < E.rowoff + E.screenRows →
        (editorScroll E).rowoff = E.rowoff)
    ∧ (E.coloff ≤ (editorScroll E).rx ∧ (editorScroll E).rx < E.coloff + E.screenCols →
        (editorScroll E).coloff = E.coloff) := by
  rw [editorScroll_eq]
  obtain ⟨a1, a2, a3⟩ := scrollOffset_window E.rowoff E.cursorY E.screenRows hr
  obtain ⟨b1, b2, b3⟩ := scrollOffset_window E.coloff (cursorRx E) E.screenCols hc
  refine ⟨⟨a1, a2, b1, b2⟩, ⟨fun h => ?_, fun h => ?_⟩, ⟨rfl, rfl, rfl, rfl⟩, a3, b3⟩
  · show cursorRx E = _
    simp only [cursorRx]
    rw [if_pos h]
  · show cursorRx E = _
    simp only [cursorRx]
    rw [if_neg (by omega)]

/-- C13 on a document of two rows with the cursor behind the tab of row 1 and a
window that starts at column 20: the window moves to column 8. -/
theorem C13_scroll_window_witness :
    (1 ≤ ({ docScroll with cursorX := 1, cursorY := 1, coloff := 20 } : editorConfig).screenRows
      ∧ 1 ≤ ({ docScroll with cursorX := 1, cursorY := 1, coloff := 20 } : editorConfig).screenCols)
    ∧ (editorScroll { docScroll with cursorX := 1, cursorY := 1, coloff := 20 }).rx = 8
    ∧ (editorScroll { docScroll with cursorX := 1, cursorY := 1, coloff := 20 }).coloff = 8
    ∧ (editorScroll { docScroll with cursorX := 1, cursorY := 1, coloff := 20 }).rowoff = 0
    ∧ (editorScroll { docScroll with cursorX := 1, cursorY := 1, coloff := 20 }).rowoff
        ≤ (editorScroll { docScroll with cursorX := 1, cursorY := 1, coloff := 20 }).cursorY :=
  ⟨by decide, by decide, by decide, by decide,
    (C13_scroll_window { docScroll with cursorX := 1, cursorY := 1, coloff := 20 }
      (by decide) (by decide)).1.1⟩

/-! ## The highlight overlay of a search -/

theorem strstrFrom_some (needle : List Nat) :
    ∀ (hay : List Nat) (o off : Nat), strstrFrom needle hay o = some off →
      o ≤ off ∧ (off - o) + needle.length ≤ hay.length ∧ needle <+: hay.drop (off - o) := by
  intro hay
  induction hay with
  | nil =>
    intro o off h
    simp only [strstrFrom] at h
    split at h
    · rename_i he
      simp only [Option.some.injEq] at h
      have : needle = [] := by simpa using he
      subst this
      simp
      omega
    · cases h
  | cons a t ih =>
    intro o off h
    simp only [strstrFrom] at h
    split at h
    · rename_i hp
      simp only [Option.some.injEq] at h
      have hpre := List.isPrefixOf_iff_prefix.mp hp
      have hl := hpre.length_le
      have e : off - o = 0 := by omega
      rw [e]
      exact ⟨by omega, by omega, hpre⟩
    · obtain ⟨h1, h2, h3⟩ := ih (o + 1) off h
      have e : off - o = (off - (o + 1)) + 1 := by omega
      rw [e]
      simp only [List.length_cons, List.drop_succ_cons]
      exact ⟨by omega, by omega, h3⟩

theorem drop_takeWhile_extends (p : Nat → Bool) (l : List Nat) (k : Nat) :
    (l.takeWhile p).drop k <+: l.drop k := by
  induction l generalizing k with
  | nil => simp
  | cons a t ih =>
    cases k with
    | zero =>
      simp only [List.drop_zero]
      exact List.takeWhile_prefix p
    | succ n =>
      simp only [List.takeWhile_cons, List.drop_succ_cons]
      split
      · simpa using ih n
      · simp

theorem strstr_some_le (hay needle : List Nat) (off : Nat) (h : strstr hay needle = some off) :
    off + (cstr needle).length ≤ hay.length ∧ cstr needle <+: hay.drop off := by
  obtain ⟨-, h1, h3⟩ := strstrFrom_some (cstr needle) (cstr hay) 0 off h
  have h2 : (cstr hay).length ≤ hay.length := by
    unfold cstr
    exact (List.takeWhile_sublist _).length_le
  refine ⟨by omega, ?_⟩
  exact h3.trans (drop_takeWhile_extends _ hay off)

theorem findLoop_some (E : editorConfig) (q : List Nat) (d : Int) :
    ∀ (fuel : Nat) (c cur : Int) (off : Nat), findLoop E q d fuel c = some (cur, off) →
      strstr (rowAt E cur.toNat).render q = some off := by
  intro fuel
  induction fuel with
  | zero => intro c cur off h; simp [findLoop] at h
  | succ n ih =>
    intro c cur off h
    simp only [findLoop] at h
    split at h
    · rename_i o ho
      simp only [Option.some.injEq, Prod.mk.injEq] at h
      rw [← h.1, ← h.2]
      exact ho
    · exact ih _ cur off h

theorem set_getD_self {α : Type} (l : List α) (k : Nat) (d : α) : l.set k (l.getD k d) = l := by
  induction l generalizing k with
  | nil => rfl
  | cons a t ih =>
    cases k with
    | zero => rfl
    | succ n =>
      simp only [List.set_cons_succ, List.cons.injEq, true_and]
      simpa using ih n

theorem rowAt_hl_eq (E : editorConfig) (k : Nat) :
    (rowAt E k).hl = (E.row.map erow.hl).getD k [] := by
  have := List.getD_map E.row (default : erow) (n := k) erow.hl
  exact this.symm

theorem rowAt_render_of_text {E0 E : editorConfig} (h : E.row.map erow.text = E0.row.map erow.text)
    (k : Nat) : (rowAt E k).render = (rowAt E0 k).render := by
  have := getD_text_of_map_eq h k
  simp only [erow.text, Prod.mk.injEq] at this
  exact this.2.2

theorem memsetHl_length (hl : List editorHighlight) (i n : Nat) (v : editorHighlight)
    (h : i + n ≤ hl.length) : (memsetHl hl i v n).length = hl.length := by
  simp only [memsetHl, List.length_append, List.length_take, List.length_replicate,
    List.length_drop]
  omega

theorem setRow_hl_map (E : editorConfig) (k : Nat) (h : List editorHighlight) :
    (setRow E k { rowAt E k with hl := h }).row.map erow.hl = (E.row.map erow.hl).set k h
    ∧ (setRow E k { rowAt E k with hl := h }).row.map erow.text = E.row.map erow.text := by
  refine ⟨?_, ?_⟩
  · simp only [setRow, List.map_set]
  · exact map_set_same erow.text default E.row k _ rfl

/-- The rows of a well-formed document carry one highlight value per render byte. -/
theorem rowAt_hl_length (E0 : editorConfig) (hhl : ∀ r ∈ E0.row, r.hl.length = r.rsize)
    (k : Nat) : (rowAt E0 k).hl.length = (rowAt E0 k).rsize := by
  by_cases hk : k < E0.row.length
  · have : rowAt E0 k = E0.row[k] := List.getD_eq_getElem _ _ hk
    rw [this]
    exact hhl _ (List.getElem_mem hk)
  · have : rowAt E0 k = default := List.getD_eq_default _ _ (by omega)
    rw [this]
    rfl

/-- The first statements of `editorFindCallback` put back the highlight the search
started with. -/
theorem findRestore_inv (E0 E : editorConfig) (fs : FindState)
    (hhl : ∀ r ∈ E0.row, r.hl.length = r.rsize) (h : SearchInv E0 E fs) :
    (findRestore E fs).row.map erow.hl = E0.row.map erow.hl
    ∧ (findRestore E fs).row.map erow.text = E0.row.map erow.text := by
  have htext := h.text
  have hh := h.hl
  unfold findRestore
  cases hs : fs.saved_hl with
  | none =>
    rw [hs] at hh
    exact ⟨hh, htext⟩
  | some saved =>
    rw [hs] at hh
    obtain ⟨off, len, hle, -, hsaved, hmap⟩ := hh
    simp only []
    have hlen0 := rowAt_hl_length E0 hhl fs.saved_hl_line.toNat
    have hrs : (rowAt E fs.saved_hl_line.toNat).rsize = (rowAt E0 fs.saved_hl_line.toNat).rsize := by
      simp only [erow.rsize, rowAt_render_of_text htext]
    have hrowhl : (rowAt E fs.saved_hl_line.toNat).hl.length
        ≤ (rowAt E0 fs.saved_hl_line.toNat).rsize := by
      rw [rowAt_hl_eq, hmap]
      by_cases hk : fs.saved_hl_line.toNat < (E0.row.map erow.hl).length
      · rw [getD_set_self _ _ _ _ hk, memsetHl_length _ _ _ _ (by omega)]
        omega
      · rw [List.getD_eq_default _ _ (by simp at hk ⊢; omega)]
        simp
    have hnew : saved.take (rowAt E fs.saved_hl_line.toNat).rsize
        ++ (rowAt E fs.saved_hl_line.toNat).hl.drop (rowAt E fs.saved_hl_line.toNat).rsize
        = (rowAt E0 fs.saved_hl_line.toNat).hl := by
      rw [hrs, hsaved, List.take_of_length_le (by omega), List.drop_of_length_le hrowhl]
      simp
    rw [hnew]
    obtain ⟨s1, s2⟩ := setRow_hl_map E fs.saved_hl_line.toNat (rowAt E0 fs.saved_hl_line.toNat).hl
    refine ⟨?_, by rw [s2]; exact htext⟩
    rw [s1, hmap, List.set_set, rowAt_hl_eq]
    exact set_getD_self _ _ _

/-- One invocation of `editorFindCallback` keeps the state of the search. -/
theorem editorFindCallback_inv (E0 E : editorConfig) (fs : FindState) (q : List Nat) (key : Int)
    (hhl : ∀ r ∈ E0.row, r.hl.length = r.rsize) (h : SearchInv E0 E fs) :
    SearchInv E0 (editorFindCallback E fs q key).1 (editorFindCallback E fs q key).2 := by
  obtain ⟨r1, r2⟩ := findRestore_inv E0 E fs hhl h
  simp only [editorFindCallback]
  split
  · exact ⟨r2, r1⟩
  · have hk : (findKey { fs with saved_hl := none } key).saved_hl = none := by
      simp only [findKey]
      split_ifs <;> rfl
    split
    · refine ⟨r2, ?_⟩
      simp only [hk]
      exact r1
    · rename_i cur off hfl
      have hstr := findLoop_some _ _ _ _ _ _ _ hfl
      obtain ⟨hle, hocc⟩ := strstr_some_le _ _ _ hstr
      have hrow : (rowAt (findRestore E fs) cur.toNat).hl = (rowAt E0 cur.toNat).hl := by
        rw [rowAt_hl_eq, rowAt_hl_eq, r1]
      have hrender := rowAt_render_of_text r2 cur.toNat
      have hlen0 := rowAt_hl_length E0 hhl cur.toNat
      refine ⟨?_, ?_⟩
      · show (setRow _ _ _).row.map erow.text = _
        rw [← r2]
        exact map_set_same erow.text default _ cur.toNat _ rfl
      · show ∃ off2 len, off2 + len ≤ (rowAt E0 cur.toNat).rsize
          ∧ (∃ q2, len = (cstr q2).length ∧ cstr q2 <+: (rowAt E0 cur.toNat).render.drop off2)
          ∧ (rowAt (findRestore E fs) cur.toNat).hl.take (rowAt (findRestore E fs) cur.toNat).rsize
              = (rowAt E0 cur.toNat).hl
          ∧ (setRow _ _ _).row.map erow.hl = _
        refine ⟨off, (cstr q).length, ?_, ⟨q, rfl, by rw [← hrender]; exact hocc⟩, ?_, ?_⟩
        · simp only [erow.rsize, ← hrender]
          exact hle
        · rw [hrow]
          simp only [erow.rsize, hrender]
          exact List.take_of_length_le (by simp only [erow.rsize] at hlen0; omega)
        · simp only [setRow, List.map_set]
          rw [hrow]
          show (List.map erow.hl (findRestore E fs).row).set _ _ = _
          rw [r1]

theorem runFind_inv (E0 : editorConfig) (hhl : ∀ r ∈ E0.row, r.hl.length = r.rsize)
    (steps : List (List Nat × Int)) :
    ∀ (E : editorConfig) (fs : FindState), SearchInv E0 E fs →
      SearchInv E0 (runFind E fs steps).1 (runFind E fs steps).2 := by
  induction steps with
  | nil => intro E fs h; exact h
  | cons s rest ih =>
    intro E fs h
    simp only [runFind, List.foldl_cons]
    exact ih _ _ (editorFindCallback_inv E0 E fs s.1 s.2 hhl h)

/-- C14: in a document whose rows carry one highlight value per render byte, for
every sequence of `editorFindCallback` invocations of one search prompt (any queries
and keys, no saved highlight at its start) followed by an Enter or Escape
invocation, the highlight of every row after the last invocation is the one before
the first, and nothing else of the rows changed; after the invocations before it, at
most one row `L` differs from its highlight before the search, and only by
`HL_MATCH` on a span inside the row where a query occurs. -/
theorem C14_search_restores_highlight (E : editorConfig) (fs : FindState)
    (steps : List (List Nat × Int)) (q : List Nat) (kend : Int)
    (hhl : ∀ r ∈ E.row, r.hl.length = r.rsize) (hfs : fs.saved_hl = none)
    (hend : kend = 13 ∨ kend = 27) :
    (editorFindCallback (runFind E fs steps).1 (runFind E fs steps).2 q kend).1.row.map erow.hl
        = E.row.map erow.hl
    ∧ (editorFindCallback (runFind E fs steps).1 (runFind E fs steps).2 q kend).1.row.map erow.text
        = E.row.map erow.text
    ∧ (editorFindCallback (runFind E fs steps).1 (runFind E fs steps).2 q kend).2.saved_hl = none
    ∧ ∃ L off len, off + len ≤ (rowAt E L).rsize
        ∧ (∃ qm, len = (cstr qm).length ∧ cstr qm <+: (rowAt E L).render.drop off)
        ∧ (runFind E fs steps).1.row.map erow.hl
            = (E.row.map erow.hl).set L (memsetHl (rowAt E L).hl off HL_MATCH len)
        ∧ (runFind E fs steps).1.row.map erow.text = E.row.map erow.text := by
  have h0 : SearchInv E E fs := ⟨rfl, by rw [hfs]⟩
  have hR := runFind_inv E hhl steps E fs h0
  obtain ⟨r1, r2⟩ := findRestore_inv E _ _ hhl hR
  refine ⟨?_, ?_, ?_, ?_⟩
  · simp only [editorFindCallback]
    rw [if_pos hend]
    exact r1
  · simp only [editorFindCallback]
    rw [if_pos hend]
    exact r2
  · simp only [editorFindCallback]
    rw [if_pos hend]
  · have hh := hR.hl
    cases hs : (runFind E fs steps).2.saved_hl with
    | none =>
      rw [hs] at hh
      refine ⟨0, 0, 0, by omega, ⟨[], rfl, by simp [cstr]⟩, ?_, hR.text⟩
      rw [hh]
      have : memsetHl (rowAt E 0).hl 0 HL_MATCH 0 = (rowAt E 0).hl := by simp [memsetHl]
      rw [this, rowAt_hl_eq]
      exact (set_getD_self _ _ _).symm
    | some saved =>
      rw [hs] at hh
      obtain ⟨off, len, hle, hq, -, hmap⟩ := hh
      exact ⟨_, off, len, hle, hq, hmap, hR.text⟩

/-- C14 on three rows `"x"`: a search for `"x"`, two forward arrows and Escape; the
match of row 2 is shown in between and gone at the end. -/
theorem C14_search_restores_highlight_witness :
    ((∀ r ∈ docXXX.row, r.hl.length = r.rsize) ∧ FindState.start.saved_hl = none
      ∧ ((27 : Int) = 13 ∨ (27 : Int) = 27))
    ∧ (runFind docXXX FindState.start [([120], 120), ([120], ARROW_RIGHT),
        ([120], ARROW_RIGHT)]).1.row.map erow.hl = [[HL_NORMAL], [HL_NORMAL], [HL_MATCH]]
    ∧ (editorFindCallback
        (runFind docXXX FindState.start [([120], 120), ([120], ARROW_RIGHT),
          ([120], ARROW_RIGHT)]).1
        (runFind docXXX FindState.start [([120], 120), ([120], ARROW_RIGHT),
          ([120], ARROW_RIGHT)]).2 [120] 27).1.row.map erow.hl = docXXX.row.map erow.hl :=
  ⟨by decide, by decide,
    (C14_search_restores_highlight docXXX FindState.start
      [([120], 120), ([120], ARROW_RIGHT), ([120], ARROW_RIGHT)] [120] 27
      (by decide) (by decide) (by decide)).1⟩

/-! ## Drawing a row -/

theorem abAppend_all (ab s : List Nat) : abAppend ab s s.length = ab ++ s := by
  simp [abAppend]

/-- The byte and class the drawing loop reads at index `j` of the visible part. -/
theorem drawLoop_eq (render : List Nat) (hl : List editorHighlight) (coloff : Nat) :
    ∀ (n i : Nat) (cur : Int) (ab : List Nat),
      (∀ j, j < n → iscntrl (render.getD (coloff + (i + j)) 0) = false) →
      drawLoop render hl coloff n i cur ab
        = ab ++ refColored cur ((List.range' i n).map
            (fun j => (render.getD (coloff + j) 0, hl.getD (coloff + j) HL_NORMAL))) := by
  intro n
  induction n with
  | zero => intro i cur ab _; simp [drawLoop, refColored]
  | succ m ih =>
    intro i cur ab hctl
    have h0 : iscntrl (render.getD (coloff + i) 0) = false := by simpa using hctl 0 (by omega)
    have hrest : ∀ j, j < m → iscntrl (render.getD (coloff + (i + 1 + j)) 0) = false := by
      intro j hj
      have := hctl (j + 1) (by omega)
      rw [show i + 1 + j = i + (j + 1) by omega]
      exact this
    simp only [drawLoop, h0, List.range'_succ, List.map_cons, refColored]
    by_cases hn : hl.getD (coloff + i) HL_NORMAL = HL_NORMAL
    · simp only [hn, if_true, cellColor]
      rw [ih (i + 1) (-1) _ hrest]
      by_cases hc : cur = -1
      · subst hc
        simp [abAppend]
      · have hc2 : (-1 : Int) ≠ cur := fun e => hc e.symm
        simp [abAppend, hc, hc2, colorEscape]
    · have hcol : cellColor (hl.getD (coloff + i) HL_NORMAL)
          = editorSyntaxToColor (hl.getD (coloff + i) HL_NORMAL) := by
        simp only [cellColor]
        rw [if_neg hn]
      have hne : editorSyntaxToColor (hl.getD (coloff + i) HL_NORMAL) ≠ -1 := by
        cases hl.getD (coloff + i) HL_NORMAL <;> simp [editorSyntaxToColor]
      simp only [hn, if_false, Bool.false_eq_true, hcol]
      by_cases hc : editorSyntaxToColor (hl.getD (coloff + i) HL_NORMAL) = cur
      · rw [if_neg (by simpa using hc), if_neg (by simpa using hc), ih (i + 1) cur _ hrest, ← hc]
        simp [abAppend]
      · have hesc : colorEscape (editorSyntaxToColor (hl.getD (coloff + i) HL_NORMAL))
            = sgrColor (editorSyntaxToColor (hl.getD (coloff + i) HL_NORMAL)) := by
          simp only [colorEscape]
          rw [if_neg hne]
        rw [if_pos hc, if_pos hc, ih (i + 1) _ _ hrest, hesc]
        simp [abAppend]

theorem take_drop_eq_map_range {α : Type} (l : List α) (d : α) (k : Nat) :
    ∀ n, k + n ≤ l.length →
      (l.drop k).take n = (List.range' 0 n).map (fun j => l.getD (k + j) d) := by
  intro n hn
  apply List.ext_getElem
  · simp
    omega
  · intro j h1 h2
    simp only [List.getElem_take, List.getElem_drop, List.getElem_map, List.getElem_range']
    rw [List.getD_eq_getElem _ _ (by simp at h1; omega)]
    simp

theorem stripSgr_colorEscape (h : editorHighlight) (rest : List Nat) :
    stripSgr false (colorEscape (cellColor h) ++ rest) = stripSgr false rest := by
  cases h <;> rfl

theorem stripSgr_refColored (cells : List (Nat × editorHighlight)) :
    ∀ prev : Int, (∀ x ∈ cells, iscntrl x.1 = false) →
      stripSgr false (refColored prev cells) = cells.map (fun x => x.1) := by
  induction cells with
  | nil => intro prev _; rfl
  | cons x t ih =>
    intro prev h
    obtain ⟨c, hc⟩ := x
    have hc27 : c ≠ 27 := by
      intro e
      have := h (c, hc) (List.mem_cons_self _ _)
      rw [e] at this
      simp [iscntrl] at this
    have iht := ih (cellColor hc) (fun y hy => h y (List.mem_cons_of_mem _ hy))
    simp only [refColored, List.map_cons]
    split
    · rw [stripSgr_colorEscape]
      simp only [stripSgr, if_neg hc27, iht]
    · simp only [List.nil_append, stripSgr, if_neg hc27, iht]
theorem take_drop_eq_map_range_or {α : Type} (l : List α) (d : α) (k n : Nat)
    (hn : n ≠ 0 → k + n ≤ l.length) :
    (l.drop k).take n = (List.range' 0 n).map (fun j => l.getD (k + j) d) := by
  by_cases h : n = 0
  · subst h
    simp
  · exact take_drop_eq_map_range l d k n (hn h)

theorem visibleLen_le (E : editorConfig) (row : erow) (hc : 0 ≤ E.coloff) :
    visibleLen E row ≠ 0 → E.coloff.toNat + visibleLen E row ≤ row.rsize := by
  simp only [visibleLen]
  split_ifs <;> omega

/-- The bytes `drawScreenRow` emits for a screen line that shows a document row. -/
theorem drawScreenRow_row (E : editorConfig) (i : Nat) (ab : List Nat)
    (h1 : (i : Int) + E.rowoff < E.numRows)
    (hc : 0 ≤ E.coloff)
    (hhl : (rowAt E ((i : Int) + E.rowoff).toNat).hl.length
      = (rowAt E ((i : Int) + E.rowoff).toNat).rsize)
    (hctl : ∀ c ∈ visibleSlice E (rowAt E ((i : Int) + E.rowoff).toNat), iscntrl c = false) :
    drawScreenRow E i ab
        = ab ++ refColored (-1)
            ((visibleSlice E (rowAt E ((i : Int) + E.rowoff).toNat)).zip
              (visibleHl E (rowAt E ((i : Int) + E.rowoff).toNat)))
          ++ [27, 91, 51, 57, 109] ++ [27, 91, 75] ++ [13, 10]
    ∧ stripSgr false (refColored (-1)
        ((visibleSlice E (rowAt E ((i : Int) + E.rowoff).toNat)).zip
          (visibleHl E (rowAt E ((i : Int) + E.rowoff).toNat))))
        = visibleSlice E (rowAt E ((i : Int) + E.rowoff).toNat) := by
  generalize hrow : rowAt E ((i : Int) + E.rowoff).toNat = row at hhl hctl ⊢
  have hle := visibleLen_le E row hc
  have hs : visibleSlice E row
      = (List.range' 0 (visibleLen E row)).map (fun j => row.render.getD (E.coloff.toNat + j) 0) :=
    take_drop_eq_map_range_or _ _ _ _ hle
  have hh : visibleHl E row
      = (List.range' 0 (visibleLen E row)).map
          (fun j => row.hl.getD (E.coloff.toNat + j) HL_NORMAL) :=
    take_drop_eq_map_range_or _ _ _ _ (fun h => by rw [hhl]; exact hle h)
  have hz : (visibleSlice E row).zip (visibleHl E row)
      = (List.range' 0 (visibleLen E row)).map
          (fun j => (row.render.getD (E.coloff.toNat + j) 0,
            row.hl.getD (E.coloff.toNat + j) HL_NORMAL)) := by
    rw [hs, hh, List.zip_map']
  have hctl2 : ∀ j, j < visibleLen E row →
      iscntrl (row.render.getD (E.coloff.toNat + (0 + j)) 0) = false := by
    intro j hj
    apply hctl
    rw [hs]
    simp only [List.mem_map, List.mem_range']
    exact ⟨j, ⟨j, hj, by omega⟩, by simp⟩
  refine ⟨?_, ?_⟩
  · simp only [drawScreenRow]
    rw [if_neg (by omega), hrow, hz]
    have := drawLoop_eq row.render row.hl E.coloff.toNat (visibleLen E row) 0 (-1) ab hctl2
    change abAppend (abAppend (abAppend
      (drawLoop row.render row.hl E.coloff.toNat (visibleLen E row) 0 (-1) ab) _ 5) _ 3) _ 2 = _
    rw [this]
    simp only [abAppend, List.take_succ_cons, List.take_zero, List.take_nil, List.append_assoc]
  · rw [stripSgr_refColored _ _ (by
      intro x hx
      exact hctl x.1 (List.of_mem_zip hx).1)]
    rw [hs, hh, List.zip_map', List.map_map]
    rfl

/-- The drawing loop only appends to the buffer. -/
theorem drawLoop_append (render : List Nat) (hl : List editorHighlight) (coloff : Nat) :
    ∀ (n i : Nat) (cur : Int) (ab : List Nat),
      drawLoop render hl coloff n i cur ab = ab ++ drawLoop render hl coloff n i cur [] := by
  intro n
  induction n with
  | zero => intro i cur ab; simp [drawLoop]
  | succ m ih =>
    intro i cur ab
    have key : ∀ (cur2 : Int) (X : List Nat),
        drawLoop render hl coloff m (i + 1) cur2 (ab ++ X)
          = ab ++ drawLoop render hl coloff m (i + 1) cur2 X := by
      intro cur2 X
      rw [ih (i + 1) cur2 (ab ++ X), ih (i + 1) cur2 X, List.append_assoc]
    simp only [drawLoop, abAppend]
    split_ifs <;> simp only [List.append_assoc, List.nil_append, key]

/-- One iteration of the outer loop of `editorDrawRows` only appends to the buffer. -/
theorem drawScreenRow_append (E : editorConfig) (i : Nat) (ab : List Nat) :
    drawScreenRow E i ab = ab ++ drawScreenRow E i [] := by
  simp only [drawScreenRow, abAppend]
  split_ifs
  all_goals first
    | (rw [drawLoop_append _ _ _ _ _ _ ab]; simp only [List.append_assoc, List.nil_append])
    | simp only [List.append_assoc, List.nil_append]

theorem foldl_drawScreenRow (E : editorConfig) :
    ∀ (l : List Nat) (ab : List Nat),
      l.foldl (fun acc i => drawScreenRow E i acc) ab
        = ab ++ (l.map (fun j => drawScreenRow E j [])).foldr (fun l acc => l ++ acc) [] := by
  intro l
  induction l with
  | nil => intro ab; simp
  | cons j t ih =>
    intro ab
    rw [List.foldl_cons, ih, drawScreenRow_append]
    simp only [List.map_cons, List.foldr_cons, List.append_assoc]

theorem foldr_append_append (a b : List (List Nat)) :
    (a ++ b).foldr (fun l acc => l ++ acc) []
      = a.foldr (fun l acc => l ++ acc) [] ++ b.foldr (fun l acc => l ++ acc) [] := by
  induction a with
  | nil => rfl
  | cons x t ih => simp only [List.cons_append, List.foldr_cons, ih, List.append_assoc]

/-- The output of `editorDrawRows` is the buffer, the lines of the screen rows before
row `i`, the line of row `i` and the lines of the screen rows behind it. -/
theorem editorDrawRows_split (E : editorConfig) (i : Nat) (ab : List Nat)
    (hi : (i : Int) < E.screenRows) :
    editorDrawRows E ab
      = ab ++ screenLines E 0 i ++ drawScreenRow E i []
          ++ screenLines E (i + 1) (E.screenRows.toNat - (i + 1)) := by
  have hn : E.screenRows.toNat = ((E.screenRows.toNat - (i + 1)) + 1) + i := by omega
  have hr : List.range E.screenRows.toNat
      = List.range' 0 i ++ (i :: List.range' (i + 1) (E.screenRows.toNat - (i + 1))) := by
    rw [List.range_eq_range']
    conv_lhs => rw [hn]
    rw [← List.range'_append_1 0 i, List.range'_succ, Nat.zero_add]
  simp only [editorDrawRows, screenLines]
  rw [foldl_drawScreenRow, hr, List.map_append, List.map_cons, foldr_append_append,
    List.foldr_cons]
  simp only [List.append_assoc]

/-- C15: for a screen row `i < screenRows` that shows the document row `i + rowoff`
(which carries one class per render byte, with `coloff >= 0`) and whose visible
slice `render[coloff .. coloff + len)` holds no control byte, the output of
`editorDrawRows` is the buffer it was given, the lines of the screen rows before
`i`, the line of row `i`, and the lines of the screen rows behind `i`; the line of
row `i`, which the iteration `i` of the loop appends, is the slice with a colour
escape exactly before each byte whose colour differs from that of the byte before it
(the default colour before the first byte; `ESC[39m` back to the default colour,
`ESC[<n>m` with `n = editorSyntaxToColor(class)` otherwise), then `ESC[39m`,
`ESC[K`, CR LF; removing the escapes from the coloured slice leaves exactly the
slice. -/
theorem C15_draw_row (E : editorConfig) (i : Nat) (ab : List Nat)
    (hi : (i : Int) < E.screenRows)
    (h0 : 0 ≤ (i : Int) + E.rowoff) (h1 : (i : Int) + E.rowoff < E.numRows)
    (hc : 0 ≤ E.coloff)
    (hhl : (rowAt E ((i : Int) + E.rowoff).toNat).hl.length
      = (rowAt E ((i : Int) + E.rowoff).toNat).rsize)
    (hctl : ∀ c ∈ visibleSlice E (rowAt E ((i : Int) + E.rowoff).toNat), iscntrl c = false) :
    editorDrawRows E ab
        = ab ++ screenLines E 0 i
          ++ (refColored (-1)
              ((visibleSlice E (rowAt E ((i : Int) + E.rowoff).toNat)).zip
                (visibleHl E (rowAt E ((i : Int) + E.rowoff).toNat)))
            ++ [27, 91, 51, 57, 109] ++ [27, 91, 75] ++ [13, 10])
          ++ screenLines E (i + 1) (E.screenRows.toNat - (i + 1))
    ∧ drawScreenRow E i ab
        = ab ++ refColored (-1)
            ((visibleSlice E (rowAt E ((i : Int) + E.rowoff).toNat)).zip
              (visibleHl E (rowAt E ((i : Int) + E.rowoff).toNat)))
          ++ [27, 91, 51, 57, 109] ++ [27, 91, 75] ++ [13, 10]
    ∧ stripSgr false (refColored (-1)
        ((visibleSlice E (rowAt E ((i : Int) + E.rowoff).toNat)).zip
          (visibleHl E (rowAt E ((i : Int) + E.rowoff).toNat))))
        = visibleSlice E (rowAt E ((i : Int) + E.rowoff).toNat)
    ∧ ((((i : Int) + E.rowoff).toNat : Nat) : Int) = (i : Int) + E.rowoff := by
  refine ⟨?_, (drawScreenRow_row E i ab h1 hc hhl hctl).1,
    (drawScreenRow_row E i ab h1 hc hhl hctl).2, by omega⟩
  rw [editorDrawRows_split E i ab hi, (drawScreenRow_row E i [] h1 hc hhl hctl).1]
  simp only [List.nil_append, List.append_assoc]

set_option maxRecDepth 100000 in
/-- C15 on row 0 of `docScroll`, `"int x = 12; // c"`, drawn on screen row 0 of 22:
the output of `editorDrawRows` starts with the line `ESC[32m int ESC[39m`, ` x = `,
`ESC[31m 1 ESC[39m`, `2; `, `ESC[36m // c`, `ESC[39m ESC[K` and CR LF. -/
theorem C15_draw_row_witness :
    ((((0 : Nat) : Int) < docScroll.screenRows
        ∧ 0 ≤ ((0 : Nat) : Int) + docScroll.rowoff
        ∧ ((0 : Nat) : Int) + docScroll.rowoff < docScroll.numRows
        ∧ 0 ≤ docScroll.coloff)
      ∧ (rowAt docScroll (((0 : Nat) : Int) + docScroll.rowoff).toNat).hl.length
          = (rowAt docScroll (((0 : Nat) : Int) + docScroll.rowoff).toNat).rsize
      ∧ ∀ c ∈ visibleSlice docScroll (rowAt docScroll (((0 : Nat) : Int) + docScroll.rowoff).toNat),
          iscntrl c = false)
    ∧ editorDrawRows docScroll []
        = [] ++ screenLines docScroll 0 0
          ++ (refColored (-1)
              ((visibleSlice docScroll
                  (rowAt docScroll (((0 : Nat) : Int) + docScroll.rowoff).toNat)).zip
                (visibleHl docScroll
                  (rowAt docScroll (((0 : Nat) : Int) + docScroll.rowoff).toNat)))
            ++ [27, 91, 51, 57, 109] ++ [27, 91, 75] ++ [13, 10])
          ++ screenLines docScroll (0 + 1) (docScroll.screenRows.toNat - (0 + 1))
    ∧ (editorDrawRows docScroll []).take 51
        = [27, 91, 51, 50, 109] ++ bytes "int" ++ [27, 91, 51, 57, 109] ++ bytes " x = "
          ++ [27, 91, 51, 49, 109] ++ bytes "1" ++ [27, 91, 51, 57, 109] ++ bytes "2; "
          ++ [27, 91, 51, 54, 109] ++ bytes "// c" ++ [27, 91, 51, 57, 109] ++ [27, 91, 75]
          ++ [13, 10]
    ∧ stripSgr false (refColored (-1)
        ((visibleSlice docScroll (rowAt docScroll (((0 : Nat) : Int) + docScroll.rowoff).toNat)).zip
          (visibleHl docScroll (rowAt docScroll (((0 : Nat) : Int) + docScroll.rowoff).toNat))))
        = bytes "int x = 12; // c" :=
  have h := C15_draw_row docScroll 0 [] (by decide) (by decide) (by decide) (by decide)
    (by decide) (by decide)
  ⟨by decide, h.1, by decide, by rw [h.2.2.1]; decide⟩

/-- C16 (the code at the failing input): under the C profile `editorUpdateSyntax`
leaves the second byte of the row `"12"` Normal, and the scan of `"123"` gives
Number, Normal, Number: a digit that directly follows a byte classified Number is
not classified Number, because the digit clause tests `previousHl == HL_NORMAL`.
The `'.'` clause of the same condition tests `previousHl == HL_NUMBER`: in `"1.5"`
the `'.'` after the Number byte is Number, the digit after it is not. -/
theorem C16_digit_after_number_stays_normal :
    docDigits.syn = some HLDB_C
    ∧ (rowAt docDigits 0).render = bytes "12"
    ∧ (rowAt (editorUpdateSyntax docDigits 0) 0).hl = [HL_NUMBER, HL_NORMAL]
    ∧ scanRow HLDB_C (bytes "12") false = ([HL_NUMBER, HL_NORMAL], false)
    ∧ scanRow HLDB_C (bytes "123") false = ([HL_NUMBER, HL_NORMAL, HL_NUMBER], false)
    ∧ scanRow HLDB_C (bytes "1.5") false = ([HL_NUMBER, HL_NUMBER, HL_NORMAL], false) := by
  decide

/-! ## The scan of a row under the C profile -/

theorem HLDB_C_fields :
    HLDB_C.singlelineCommentStart = [47, 47] ∧ HLDB_C.multilineCommentStart = [47, 42]
    ∧ HLDB_C.multilineCommentEnd = [42, 47] ∧ HLDB_C.flags = 3
    ∧ HLDB_C.keywords = C_HL_keywords := by
  decide

/-- On a pattern without NUL bytes `strncmp` over the pattern's length tests whether
the pattern is a prefix of the buffer. -/
theorem strncmp0_iff_starts (b t : List Nat) (hb : ∀ c ∈ b, c ≠ 0) :
    ∀ a : List Nat, strncmp0 a (b ++ t) b.length = true ↔ b <+: a := by
  induction b with
  | nil =>
    intro a
    simp [strncmp0]
  | cons x b ih =>
    intro a
    have hx : x ≠ 0 := hb x (List.mem_cons_self _ _)
    have ih2 := ih (fun c hc => hb c (List.mem_cons_of_mem _ hc))
    cases a with
    | nil =>
      simp only [List.cons_append, List.length_cons, strncmp0, List.headD_nil, List.headD_cons]
      rw [if_pos (by simpa using (Ne.symm hx))]
      simp
    | cons c a =>
      simp only [List.cons_append, List.length_cons, strncmp0, List.headD_cons, List.tail_cons]
      by_cases hc : c = x
      · subst hc
        rw [if_neg (by simp), if_neg (by simpa using hx), ih2 a]
        simp [List.cons_prefix_cons]
      · rw [if_pos (by simpa using hc)]
        simp only [List.cons_prefix_cons, Bool.false_eq_true, false_iff, not_and]
        intro h
        exact absurd h.symm hc

theorem strncmp0_two (a : List Nat) (x y : Nat) (hx : x ≠ 0) (hy : y ≠ 0) :
    strncmp0 a [x, y] 2 = true ↔ [x, y] <+: a := by
  have := strncmp0_iff_starts [x, y] [] (by
    intro c hc
    simp only [List.mem_cons, List.mem_singleton, List.not_mem_nil, or_false] at hc
    rcases hc with h | h <;> rw [h] <;> assumption) a
  simpa using this

theorem memsetHl_keeps_before (hl : List editorHighlight) (i : Nat) (v : editorHighlight) (n : Nat) :
    hl.take i <+: memsetHl hl i v n := by
  simp only [memsetHl, List.append_assoc]
  exact List.prefix_append _ _

theorem prefix_take_of_le {α : Type} (p l : List α) (n : Nat) (h : p <+: l)
    (hn : p.length ≤ n) : p <+: l.take n := by
  obtain ⟨t, rfl⟩ := h
  rw [List.take_append_eq_append_take, List.take_of_length_le hn]
  exact List.prefix_append _ _

theorem ScanExt.refl (st : ScanState) : ScanExt st st :=
  ⟨Nat.le_refl _, List.take_prefix _ _⟩

theorem ScanExt.trans {a b c : ScanState} (h1 : ScanExt a b) (h2 : ScanExt b c) :
    ScanExt a c :=
  ⟨Nat.le_trans h1.1 h2.1,
    List.IsPrefix.trans
      (prefix_take_of_le _ _ _ h1.2 (by rw [List.length_take]; exact Nat.le_trans (Nat.min_le_left _ _) h1.1))
      h2.2⟩

theorem ScanExt.memset (st : ScanState) (v : editorHighlight) (n k : Nat) (ps : Bool)
    (q : Nat) (ic : Bool) :
    ScanExt st { i := st.i + k, hl := memsetHl st.hl st.i v n, previousSep := ps,
                 inString := q, inComment := ic } :=
  ⟨Nat.le_add_right _ _, memsetHl_keeps_before _ _ _ _⟩

theorem ScanExt.ite (st : ScanState) (c : Prop) [Decidable c] (a b : ScanState)
    (ha : ScanExt st a) (hb : ScanExt st b) : ScanExt st (if c then a else b) := by
  split <;> assumption

theorem stepDefault_ext (render : List Nat) (st : ScanState) :
    ScanExt st (stepDefault render st) :=
  ⟨Nat.le_succ _, List.take_prefix _ _⟩

theorem stepKeyword_ext (s : editorSyntax) (render : List Nat) (st : ScanState) :
    ScanExt st (stepKeyword s render st) := by
  unfold stepKeyword
  split
  · split
    · exact ScanExt.memset st _ _ _ _ _ _
    · exact stepDefault_ext render st
  · exact stepDefault_ext render st

theorem stepNumber_ext (s : editorSyntax) (render : List Nat) (st : ScanState) :
    ScanExt st (stepNumber s render st) := by
  unfold stepNumber
  exact ScanExt.ite st _ _ _ (ScanExt.memset st _ _ _ _ _ _) (stepKeyword_ext s render st)

theorem stepString_ext (s : editorSyntax) (render : List Nat) (st : ScanState) :
    ScanExt st (stepString s render st) := by
  unfold stepString
  refine ScanExt.ite st _ _ _ ?_ (stepNumber_ext s render st)
  refine ScanExt.ite st _ _ _ ?_ ?_
  · refine ScanExt.ite st _ _ _ ?_ (ScanExt.memset st _ _ _ _ _ _)
    exact ScanExt.trans (ScanExt.memset st HL_STRING 1 1 st.previousSep st.inString st.inComment)
      (ScanExt.memset _ HL_STRING 1 1 _ _ _)
  · exact ScanExt.ite st _ _ _ (ScanExt.memset st _ _ _ _ _ _) (stepNumber_ext s render st)

theorem stepMlComment_ext (s : editorSyntax) (render : List Nat) (st : ScanState) :
    ScanExt st (stepMlComment s render st) := by
  unfold stepMlComment
  refine ScanExt.ite st _ _ _ ?_ (stepString_ext s render st)
  refine ScanExt.ite st _ _ _ ?_ ?_
  · refine ScanExt.ite st _ _ _ ?_ (ScanExt.memset st _ _ _ _ _ _)
    exact ScanExt.trans (ScanExt.memset st HL_MLCOMMENT 1 0 st.previousSep st.inString st.inComment)
      (ScanExt.memset _ HL_MLCOMMENT _ _ _ _ _)
  · exact ScanExt.ite st _ _ _ (ScanExt.memset st _ _ _ _ _ _) (stepString_ext s render st)

/-- The scan never moves back and never rewrites a class before its position. -/
theorem scanLoop_ext (s : editorSyntax) (render : List Nat) (fuel : Nat) :
    ∀ st : ScanState, ScanExt st (scanLoop s render fuel st) := by
  induction fuel with
  | zero =>
    intro st
    exact ScanExt.refl st
  | succ n ih =>
    intro st
    simp only [scanLoop]
    split
    · split
      · exact ScanExt.memset st _ _ 0 _ _ _
      · exact ScanExt.trans (stepMlComment_ext s render st) (ih _)
    · exact ScanExt.refl st

/-- The recursion of `editorUpdateSyntax` from row `k` leaves the rows before `k`
as they are. -/
theorem editorUpdateSyntaxFuel_before (fuel : Nat) :
    ∀ (E : editorConfig) (k j : Nat), docOk E → k < E.row.length → j < k →
      rowAt (editorUpdateSyntaxFuel fuel E k) j = rowAt E j := by
  induction fuel with
  | zero =>
    intro E k j _ _ _
    rfl
  | succ n ih =>
    intro E k j hok hk hj
    rcases Option.eq_none_or_eq_some E.syn with hs | ⟨s, hs⟩
    · rw [editorUpdateSyntaxFuel_none n E k hs]
      exact rowAt_setRow_ne E k j _ (by omega)
    · rw [editorUpdateSyntaxFuel_some n E k s hs]
      split
      · rename_i hif
        simp only [Bool.and_eq_true, bne_iff_ne, ne_eq, decide_eq_true_eq] at hif
        have hidx := hok.2 k hk
        have hnum := hok.1
        have hk1 : k + 1 < E.row.length := by
          have := hif.2
          rw [hidx] at this
          omega
        have e2 : ((rowAt E k).idx + 1).toNat = k + 1 := by
          rw [hidx]
          omega
        rw [e2, ih (setRow E k (rescanned s E k)) (k + 1) j (docOk_setRow E k _ hok rfl)
          (by rw [length_setRow]; exact hk1) (by omega)]
        exact rowAt_setRow_ne E k j _ (by omega)
      · exact rowAt_setRow_ne E k j _ (by omega)

/-- After `editorUpdateSyntax` on row `k` of a well-formed document, row `k` carries
the scan of its render bytes started with the comment state of the row before it. -/
theorem editorUpdateSyntax_row (s : editorSyntax) (E : editorConfig) (k : Nat)
    (hs : E.syn = some s) (hok : docOk E) (hk : k < E.row.length) :
    ((rowAt (editorUpdateSyntax E k) k).hl, (rowAt (editorUpdateSyntax E k) k).hlOpenComment)
      = scanRow s (rowAt E k).render (prevOpen E k) := by
  obtain ⟨n, hn⟩ : ∃ n, E.row.length = n + 1 := ⟨E.row.length - 1, by omega⟩
  have hr : rowAt (editorUpdateSyntax E k) k = rescanned s E k := by
    simp only [editorUpdateSyntax]
    rw [hn, editorUpdateSyntaxFuel_some n E k s hs]
    split
    · rename_i hif
      simp only [Bool.and_eq_true, bne_iff_ne, ne_eq, decide_eq_true_eq] at hif
      have hidx := hok.2 k hk
      have hnum := hok.1
      have hk1 : k + 1 < E.row.length := by
        have := hif.2
        rw [hidx] at this
        omega
      have e2 : ((rowAt E k).idx + 1).toNat = k + 1 := by
        rw [hidx]
        omega
      rw [e2, editorUpdateSyntaxFuel_before n (setRow E k (rescanned s E k)) (k + 1) k
        (docOk_setRow E k _ hok rfl) (by rw [length_setRow]; exact hk1) (by omega)]
      exact rowAt_setRow_self E k _ hk
    · exact rowAt_setRow_self E k _ hk
  rw [hr]
  simp only [rescanned, startComment_eq E k (hok.2 k hk)]

theorem memsetHl_append (hpre hmid hrest : List editorHighlight) (v : editorHighlight) :
    memsetHl (hpre ++ hmid ++ hrest) hpre.length v hmid.length
      = hpre ++ List.replicate hmid.length v ++ hrest := by
  simp [memsetHl, List.take_append_eq_append_take, List.drop_append_eq_append_drop]

/-- One iteration of the scan inside an open multi-line comment. -/
theorem scanLoop_comment_step (render : List Nat) (fuel i : Nat) (hl : List editorHighlight)
    (ps : Bool) (hi : i < render.length) :
    scanLoop HLDB_C render (fuel + 1)
        { i := i, hl := hl, previousSep := ps, inString := 0, inComment := true }
      = scanLoop HLDB_C render fuel
          (if strncmp0 (render.drop i) [42, 47] 2 = true then
            { i := i + 2, hl := memsetHl (memsetHl hl i HL_MLCOMMENT 1) i HL_MLCOMMENT 2,
              previousSep := true, inString := 0, inComment := false }
           else
            { i := i + 1, hl := memsetHl hl i HL_MLCOMMENT 1, previousSep := ps,
              inString := 0, inComment := true }) := by
  simp only [scanLoop, if_pos hi, stepMlComment, HLDB_C_fields.1, HLDB_C_fields.2.1,
    HLDB_C_fields.2.2.1]
  simp

theorem scanLoop_at_end (s : editorSyntax) (render : List Nat) (fuel : Nat) (st : ScanState)
    (h : ¬ st.i < render.length) : scanLoop s render fuel st = st := by
  cases fuel with
  | zero => rfl
  | succ n =>
    simp only [scanLoop]
    rw [if_neg h]

/-- Inside an open comment with no `"*/"` ahead, the scan classifies every byte left
as block comment and ends with the comment open. -/
theorem scanLoop_comment_open (render : List Nat) :
    ∀ (hrest hpre : List editorHighlight) (i fuel : Nat) (ps : Bool),
      hpre.length = i → i + hrest.length = render.length → hrest.length ≤ fuel →
      (∀ j, i ≤ j → ¬ [42, 47] <+: render.drop j) →
      scanLoop HLDB_C render fuel
          { i := i, hl := hpre ++ hrest, previousSep := ps, inString := 0, inComment := true }
        = { i := render.length, hl := hpre ++ List.replicate hrest.length HL_MLCOMMENT,
            previousSep := ps, inString := 0, inComment := true } := by
  intro hrest
  induction hrest with
  | nil =>
    intro hpre i fuel ps hp hlen _ _
    rw [scanLoop_at_end _ _ _ _ (by simp only []; simp only [List.length_nil] at hlen; omega)]
    simp only [List.length_nil, Nat.add_zero] at hlen
    simp [hlen]
  | cons h hrest ih =>
    intro hpre i fuel ps hp hlen hf hno
    simp only [List.length_cons] at hlen hf
    obtain ⟨f, rfl⟩ : ∃ f, fuel = f + 1 := ⟨fuel - 1, by omega⟩
    rw [scanLoop_comment_step render f i _ ps (by omega)]
    have hn : ¬ strncmp0 (render.drop i) [42, 47] 2 = true := by
      rw [strncmp0_two _ _ _ (by decide) (by decide)]
      exact hno i (Nat.le_refl _)
    rw [if_neg hn]
    have hm : memsetHl (hpre ++ h :: hrest) i HL_MLCOMMENT 1 = (hpre ++ [HL_MLCOMMENT]) ++ hrest := by
      have := memsetHl_append hpre [h] hrest HL_MLCOMMENT
      simpa [hp] using this
    rw [hm, ih (hpre ++ [HL_MLCOMMENT]) (i + 1) f ps (by simp [hp]) (by omega) (by omega)
      (fun j hj => hno j (by omega))]
    simp [List.replicate_succ]

/-- Inside an open comment the scan classifies every byte up to and including the
first `"*/"` as block comment and goes on behind it, outside the comment, in
separator context. -/
theorem scanLoop_comment_close (render : List Nat) (h1 h2 : editorHighlight)
    (htail : List editorHighlight) (f : Nat) :
    ∀ (hmid hpre : List editorHighlight) (i : Nat) (ps : Bool),
      hpre.length = i → i + hmid.length + 2 ≤ render.length →
      [42, 47] <+: render.drop (i + hmid.length) →
      (∀ j, i ≤ j → j < i + hmid.length → ¬ [42, 47] <+: render.drop j) →
      scanLoop HLDB_C render (hmid.length + 1 + f)
          { i := i, hl := hpre ++ hmid ++ h1 :: h2 :: htail, previousSep := ps, inString := 0,
            inComment := true }
        = scanLoop HLDB_C render f
          { i := i + hmid.length + 2,
            hl := hpre ++ List.replicate (hmid.length + 2) HL_MLCOMMENT ++ htail,
            previousSep := true, inString := 0, inComment := false } := by
  intro hmid
  induction hmid with
  | nil =>
    intro hpre i ps hp hlen hat _
    simp only [List.length_nil, Nat.add_zero, List.append_nil, Nat.zero_add] at hlen hat ⊢
    rw [Nat.add_comm 1 f, scanLoop_comment_step render f i _ ps (by omega)]
    rw [if_pos ((strncmp0_two _ _ _ (by decide) (by decide)).2 hat)]
    have hm1 : memsetHl (hpre ++ h1 :: h2 :: htail) i HL_MLCOMMENT 1
        = hpre ++ [HL_MLCOMMENT, h2] ++ htail := by
      have := memsetHl_append hpre [h1] (h2 :: htail) HL_MLCOMMENT
      simpa [hp] using this
    have hm2 : memsetHl (hpre ++ [HL_MLCOMMENT, h2] ++ htail) i HL_MLCOMMENT 2
        = hpre ++ List.replicate 2 HL_MLCOMMENT ++ htail := by
      have := memsetHl_append hpre [HL_MLCOMMENT, h2] htail HL_MLCOMMENT
      simpa [hp] using this
    rw [hm1, hm2]
  | cons h hmid ih =>
    intro hpre i ps hp hlen hat hno
    simp only [List.length_cons] at hlen hat hno ⊢
    have e : hmid.length + 1 + 1 + f = (hmid.length + 1 + f) + 1 := by omega
    rw [e, scanLoop_comment_step render _ i _ ps (by omega)]
    have hn : ¬ strncmp0 (render.drop i) [42, 47] 2 = true := by
      rw [strncmp0_two _ _ _ (by decide) (by decide)]
      exact hno i (Nat.le_refl _) (by omega)
    rw [if_neg hn]
    have hm : memsetHl (hpre ++ h :: hmid ++ h1 :: h2 :: htail) i HL_MLCOMMENT 1
        = (hpre ++ [HL_MLCOMMENT]) ++ hmid ++ h1 :: h2 :: htail := by
      have := memsetHl_append hpre [h] (hmid ++ h1 :: h2 :: htail) HL_MLCOMMENT
      simpa [hp] using this
    rw [hm, ih (hpre ++ [HL_MLCOMMENT]) (i + 1) ps (by simp [hp]) (by omega)
      (by rw [show i + 1 + hmid.length = i + (hmid.length + 1) by omega]; exact hat)
      (fun j hj hj2 => hno j (by omega) (by omega))]
    have e1 : i + 1 + hmid.length + 2 = i + (hmid.length + 1) + 2 := by omega
    have e2 : hpre ++ [HL_MLCOMMENT] ++ List.replicate (hmid.length + 2) HL_MLCOMMENT
        = hpre ++ List.replicate (hmid.length + 1 + 2) HL_MLCOMMENT := by
      simp [List.replicate_succ]
    rw [e1, e2]

theorem not_prefix_drop_of_not_infix {α : Type} (pat l : List α) (h : ¬ pat <:+: l) (j : Nat) :
    ¬ pat <+: l.drop j :=
  fun hp => h (hp.isInfix.trans (List.drop_suffix j l).isInfix)

/-- Before the first `"*/"` of a row no `"*/"` starts. -/
theorem not_prefix_before_first (mid tail : List Nat) (h : ¬ [42, 47] <:+: mid ++ [42])
    (j : Nat) (hj : j < mid.length) : ¬ [42, 47] <+: (mid ++ [42, 47] ++ tail).drop j := by
  intro hp
  rw [List.append_assoc, List.drop_append_of_le_length (by omega)] at hp
  have hsuf : mid.drop j <:+ mid := List.drop_suffix j mid
  rcases hd : mid.drop j with _ | ⟨c, _ | ⟨d, m⟩⟩
  · have := congrArg List.length hd
    simp only [List.length_drop, List.length_nil] at this
    omega
  · rw [hd] at hp
    simp [List.cons_prefix_cons] at hp
  · rw [hd] at hp hsuf
    simp only [List.cons_append, List.cons_prefix_cons] at hp
    apply h
    have h3 : [42, 47] <+: c :: d :: m := by
      rw [← hp.1, ← hp.2.1]
      exact List.prefix_append [42, 47] m
    exact (h3.isInfix.trans hsuf.isInfix).trans (List.prefix_append mid [42]).isInfix

theorem scanRow_comment_open (render : List Nat) (h : ¬ [42, 47] <:+: render) :
    scanRow HLDB_C render true = (List.replicate render.length HL_MLCOMMENT, true) := by
  simp only [scanRow]
  have := scanLoop_comment_open render (List.replicate render.length HL_NORMAL) [] 0
    (2 * render.length + 1) true rfl (by simp) (by simp only [List.length_replicate]; omega)
    (fun j _ => not_prefix_drop_of_not_infix _ _ h j)
  simp only [List.nil_append, List.length_replicate] at this
  rw [this]

theorem scanRow_comment_close (mid tail : List Nat) (h : ¬ [42, 47] <:+: mid ++ [42]) :
    scanRow HLDB_C (mid ++ [42, 47] ++ tail) true
      = scanFrom HLDB_C (mid ++ [42, 47] ++ tail)
          { i := mid.length + 2,
            hl := List.replicate (mid.length + 2) HL_MLCOMMENT
              ++ List.replicate tail.length HL_NORMAL,
            previousSep := true, inString := 0, inComment := false } := by
  generalize hr : mid ++ [42, 47] ++ tail = render
  have hlen : render.length = mid.length + 2 + tail.length := by
    rw [← hr]
    simp only [List.length_append, List.length_cons, List.length_nil]
  have hinit : List.replicate render.length HL_NORMAL
      = [] ++ List.replicate mid.length HL_NORMAL
        ++ HL_NORMAL :: HL_NORMAL :: List.replicate tail.length HL_NORMAL := by
    rw [hlen, List.replicate_add, List.replicate_add, List.nil_append, List.append_assoc]
    rfl
  have hfuel : 2 * render.length + 1
      = (List.replicate mid.length HL_NORMAL).length + 1 + (2 * render.length - mid.length) := by
    simp only [List.length_replicate]
    omega
  have hclose := scanLoop_comment_close render HL_NORMAL HL_NORMAL
    (List.replicate tail.length HL_NORMAL) (2 * render.length - mid.length)
    (List.replicate mid.length HL_NORMAL) [] 0 true rfl
    (by simp only [List.length_replicate]; omega)
    (by
      simp only [List.length_replicate, Nat.zero_add]
      rw [← hr, List.append_assoc, List.drop_left]
      exact List.prefix_append _ _)
    (fun j _ hj => by
      rw [← hr]
      exact not_prefix_before_first mid tail h j (by simpa using hj))
  simp only [scanRow]
  rw [hinit, hfuel, hclose]
  simp only [scanFrom, List.length_replicate, List.nil_append, Nat.zero_add]
  have hmore := scanLoop_fuel HLDB_C render (2 * render.length - mid.length)
    { i := mid.length + 2,
      hl := List.replicate (mid.length + 2) HL_MLCOMMENT ++ List.replicate tail.length HL_NORMAL,
      previousSep := true, inString := 0, inComment := false } (mid.length + 1)
    (by simp only [scanMeasure]; simp only [if_true]; omega)
  have e : 2 * render.length - mid.length + (mid.length + 1) = 2 * render.length + 1 := by omega
  rw [e] at hmore
  rw [hmore]

/-- The classes behind the position the scan is continued from are kept. -/
theorem scanFrom_take (s : editorSyntax) (render : List Nat) (st : ScanState) (n : Nat)
    (hn : n ≤ st.i) (hl : n ≤ st.hl.length) :
    (scanFrom s render st).1.take n = st.hl.take n := by
  have h := (scanLoop_ext s render (2 * render.length + 1) st).2
  have h1 : st.hl.take n <+: st.hl.take st.i := by
    have := List.take_prefix n (st.hl.take st.i)
    rwa [List.take_take, Nat.min_eq_left hn] at this
  have h2 : st.hl.take n <+: (scanLoop s render (2 * render.length + 1) st).hl :=
    List.IsPrefix.trans h1 h
  have h3 := List.prefix_iff_eq_take.1 h2
  rw [List.length_take, Nat.min_eq_left hl] at h3
  exact h3.symm

/-- A class written at the start of the row before the scan moved on stays. -/
theorem scanLoop_head (s : editorSyntax) (render : List Nat) (fuel : Nat) (st : ScanState)
    (v : editorHighlight) (hi : 1 ≤ st.i) (hh : st.hl.head? = some v) :
    (scanLoop s render fuel st).hl.head? = some v := by
  have h := (scanLoop_ext s render fuel st).2
  obtain ⟨m, hm⟩ : ∃ m, st.i = m + 1 := ⟨st.i - 1, by omega⟩
  rcases hl : st.hl with _ | ⟨a, t⟩
  · rw [hl] at hh
    simp at hh
  · rw [hl] at hh h
    rw [hm, List.take_succ_cons] at h
    obtain ⟨r, hr⟩ := h
    rw [← hr]
    simpa using hh

theorem scanRow_comment_head (render : List Nat) (h : render ≠ []) :
    (scanRow HLDB_C render true).1.head? = some HL_MLCOMMENT := by
  have hlen : 0 < render.length := List.length_pos.2 h
  obtain ⟨n, hn⟩ : ∃ n, render.length = n + 1 := ⟨render.length - 1, by omega⟩
  simp only [scanRow]
  rw [scanLoop_comment_step render (2 * render.length) 0 _ true hlen, hn]
  split
  · exact scanLoop_head _ _ _ _ _ (by simp) (by simp [memsetHl, List.replicate_succ])
  · exact scanLoop_head _ _ _ _ _ (by simp) (by simp [memsetHl, List.replicate_succ])

/-- C17: under the C profile, for a row `k > 0` of a well-formed document whose
predecessor has `hlOpenComment` set, `editorUpdateSyntax` leaves row `k` as follows.
If its render bytes contain no `"*/"`, every byte is `HL_MLCOMMENT` and
`hlOpenComment` is set (an empty row included).  If `"*/"` occurs first behind `mid`,
the classes and the comment state are those of the scan continued behind the marker
outside the comment with `previousSep` set, and the bytes up to and including the
marker are `HL_MLCOMMENT`.  In both cases the first byte of a non-empty row is
`HL_MLCOMMENT`. -/
theorem C17_open_comment_row (E : editorConfig) (k : Nat)
    (hs : E.syn = some HLDB_C) (hok : docOk E) (hk0 : 0 < k) (hk : k < E.row.length)
    (hprev : (rowAt E (k - 1)).hlOpenComment = true) :
    (¬ [42, 47] <:+: (rowAt E k).render →
        (rowAt (editorUpdateSyntax E k) k).hl
            = List.replicate (rowAt E k).rsize HL_MLCOMMENT
          ∧ (rowAt (editorUpdateSyntax E k) k).hlOpenComment = true)
    ∧ (∀ mid tail : List Nat, (rowAt E k).render = mid ++ [42, 47] ++ tail →
        ¬ [42, 47] <:+: mid ++ [42] →
        ((rowAt (editorUpdateSyntax E k) k).hl,
            (rowAt (editorUpdateSyntax E k) k).hlOpenComment)
          = scanFrom HLDB_C (rowAt E k).render
              { i := mid.length + 2,
                hl := List.replicate (mid.length + 2) HL_MLCOMMENT
                  ++ List.replicate tail.length HL_NORMAL,
                previousSep := true, inString := 0, inComment := false }
        ∧ (rowAt (editorUpdateSyntax E k) k).hl.take (mid.length + 2)
            = List.replicate (mid.length + 2) HL_MLCOMMENT)
    ∧ ((rowAt E k).render ≠ [] →
        (rowAt (editorUpdateSyntax E k) k).hl.head? = some HL_MLCOMMENT) := by
  have hrow := editorUpdateSyntax_row HLDB_C E k hs hok hk
  have hp : prevOpen E k = true := by
    simp only [prevOpen, hprev, Bool.and_true, decide_eq_true_eq]
    exact hk0
  rw [hp] at hrow
  have h1 := congrArg Prod.fst hrow
  have h2 := congrArg Prod.snd hrow
  simp only [] at h1 h2
  refine ⟨?_, ?_, ?_⟩
  · intro hno
    rw [h1, h2, scanRow_comment_open _ hno]
    exact ⟨rfl, rfl⟩
  · intro mid tail hr hfirst
    rw [hrow, h1, hr, scanRow_comment_close mid tail hfirst]
    refine ⟨rfl, ?_⟩
    have ht := scanFrom_take HLDB_C (mid ++ [42, 47] ++ tail)
      { i := mid.length + 2,
        hl := List.replicate (mid.length + 2) HL_MLCOMMENT
          ++ List.replicate tail.length HL_NORMAL,
        previousSep := true, inString := 0, inComment := false } (mid.length + 2)
      (Nat.le_refl _) (by simp)
    rw [ht, List.take_left']
    simp
  · intro hne
    rw [h1]
    exact scanRow_comment_head _ hne

/-- C17 on row 1 of the rows `"/* a"`, `"b */ 1"`: `"b */"` is block comment, the
space behind it is normal and the digit is a number, the comment is closed; and on
row 1 of the rows `"/*"`, `"int x"`: all five bytes are block comment and the comment
stays open. -/
theorem C17_open_comment_row_witness :
    (docBlock.syn = some HLDB_C ∧ docOk docBlock ∧ 0 < 1 ∧ 1 < docBlock.row.length
      ∧ (rowAt docBlock (1 - 1)).hlOpenComment = true)
    ∧ (rowAt docBlock 1).render = bytes "b " ++ [42, 47] ++ bytes " 1"
    ∧ ¬ [42, 47] <:+: bytes "b " ++ [42]
    ∧ ((rowAt (editorUpdateSyntax docBlock 1) 1).hl,
          (rowAt (editorUpdateSyntax docBlock 1) 1).hlOpenComment)
        = ([HL_MLCOMMENT, HL_MLCOMMENT, HL_MLCOMMENT, HL_MLCOMMENT, HL_NORMAL, HL_NUMBER], false)
    ∧ (rowAt (editorUpdateSyntax docBlock 1) 1).hl.take (2 + 2)
        = List.replicate (2 + 2) HL_MLCOMMENT
    ∧ ¬ [42, 47] <:+: (rowAt docComment 1).render
    ∧ (rowAt (editorUpdateSyntax docComment 1) 1).hl = List.replicate 5 HL_MLCOMMENT
    ∧ (rowAt (editorUpdateSyntax docComment 1) 1).hlOpenComment = true :=
  have h := C17_open_comment_row docBlock 1 (by decide) (by decide) (by decide) (by decide)
    (by decide)
  have h2 := C17_open_comment_row docComment 1 (by decide) (by decide) (by decide) (by decide)
    (by decide)
  ⟨by decide, by decide, by decide,
    ((h.2.1 (bytes "b ") (bytes " 1") (by decide) (by decide)).1).trans (by decide),
    (h.2.1 (bytes "b ") (bytes " 1") (by decide) (by decide)).2,
    by decide, (h2.1 (by decide)).1, (h2.1 (by decide)).2⟩

/-! ## Keywords -/

theorem sepNext_iff (s : List Nat) : sepNext s ↔ isSeparator (s.headD 0) = true := by
  cases s with
  | nil =>
    simp only [sepNext, List.headD_nil, true_iff]
    decide
  | cons c t =>
    simp only [sepNext, List.headD_cons]

theorem keywordScan_cons (render kw : List Nat) (rest : List (List Nat))
    (hz : ∀ c ∈ keywordName kw, c ≠ 0) :
    keywordScan render 0 (kw :: rest)
      = if keywordName kw <+: render
            ∧ isSeparator (render.getD (keywordName kw).length 0) = true then
          some ((keywordName kw).length, kw.getLast? == some 124)
        else keywordScan render 0 rest := by
  by_cases h : kw.getLast? = some 124
  · obtain ⟨n, rfl⟩ : ∃ n, kw = n ++ [124] :=
      ⟨kw.dropLast, (List.dropLast_append_getLast? 124 (by rw [h]; rfl)).symm⟩
    have hn : keywordName (n ++ [124]) = n := by
      simp [keywordName]
    rw [hn] at hz ⊢
    have hstr := strncmp0_iff_starts n [124] hz render
    simp only [keywordScan, List.drop_zero, Nat.zero_add, h, beq_self_eq_true, if_true,
      List.length_append, List.length_singleton, Nat.add_sub_cancel, Bool.and_eq_true, hstr]
  · have hn : keywordName kw = kw := by
      simp [keywordName, h]
    rw [hn] at hz ⊢
    have hstr := strncmp0_iff_starts kw [] hz render
    rw [List.append_nil] at hstr
    have hb : (kw.getLast? == some 124) = false := by
      simpa using h
    simp only [keywordScan, List.drop_zero, Nat.zero_add, hb, Bool.false_eq_true, if_false,
      Bool.and_eq_true, hstr]

/-- No listed keyword matches: the keyword loop finds nothing. -/
theorem keywordScan_none (render : List Nat) :
    ∀ kws : List (List Nat), (∀ kw ∈ kws, ∀ c ∈ keywordName kw, c ≠ 0) →
      (∀ kw ∈ kws, ¬ (keywordName kw <+: render
        ∧ isSeparator (render.getD (keywordName kw).length 0) = true)) →
      keywordScan render 0 kws = none := by
  intro kws
  induction kws with
  | nil =>
    intro _ _
    rfl
  | cons kw rest ih =>
    intro hz hno
    rw [keywordScan_cons render kw rest (hz kw (List.mem_cons_self _ _)),
      if_neg (hno kw (List.mem_cons_self _ _))]
    exact ih (fun k hk => hz k (List.mem_cons_of_mem _ hk))
      (fun k hk => hno k (List.mem_cons_of_mem _ hk))

/-- The keyword `kw0` is the only listed keyword that is a prefix of the bytes and a
separator follows it: the keyword loop finds `kw0`. -/
theorem keywordScan_some (render kw0 : List Nat) :
    ∀ kws : List (List Nat), (∀ kw ∈ kws, ∀ c ∈ keywordName kw, c ≠ 0) →
      kw0 ∈ kws → (∀ kw ∈ kws, keywordName kw <+: render → kw = kw0) →
      keywordName kw0 <+: render →
      isSeparator (render.getD (keywordName kw0).length 0) = true →
      keywordScan render 0 kws
        = some ((keywordName kw0).length, kw0.getLast? == some 124) := by
  intro kws
  induction kws with
  | nil =>
    intro _ hmem _ _ _
    exact absurd hmem (List.not_mem_nil _)
  | cons kw rest ih =>
    intro hz hmem huniq hpre hsep
    rw [keywordScan_cons render kw rest (hz kw (List.mem_cons_self _ _))]
    by_cases hp : keywordName kw <+: render
    · have e := huniq kw (List.mem_cons_self _ _) hp
      rw [e, if_pos ⟨hpre, hsep⟩]
    · rw [if_neg (fun h => hp h.1)]
      rcases List.mem_cons.1 hmem with e | hm
      · rw [e] at hpre
        exact absurd hpre hp
      · exact ih (fun k hk => hz k (List.mem_cons_of_mem _ hk)) hm
          (fun k hk => huniq k (List.mem_cons_of_mem _ hk)) hpre hsep

set_option maxRecDepth 100000 in
/-- The keywords of the C profile are made of lower-case letters and are not empty. -/
theorem C_HL_keywords_letters :
    ∀ kw ∈ C_HL_keywords, keywordName kw ≠ [] ∧ ∀ c ∈ keywordName kw, 97 ≤ c ∧ c ≤ 122 := by
  decide

set_option maxRecDepth 100000 in
/-- No keyword of the C profile is a prefix of another one. -/
theorem C_HL_keywords_prefix_free :
    ∀ kw ∈ C_HL_keywords, ∀ kw2 ∈ C_HL_keywords,
      keywordName kw <+: keywordName kw2 → kw = kw2 := by
  decide

theorem isSeparator_letter (c : Nat) (h1 : 97 ≤ c) (h2 : c ≤ 122) : isSeparator c = false := by
  interval_cases c <;> rfl

/-- One iteration of the scan at a lower-case letter in separator context, outside
strings and comments: only the keyword loop can classify it. -/
theorem scanLoop_letter_step (c : Nat) (r : List Nat) (fuel : Nat) (hl : List editorHighlight)
    (h1 : 97 ≤ c) (h2 : c ≤ 122) :
    scanLoop HLDB_C (c :: r) (fuel + 1)
        { i := 0, hl := hl, previousSep := true, inString := 0, inComment := false }
      = scanLoop HLDB_C (c :: r) fuel
          (match keywordScan (c :: r) 0 C_HL_keywords with
            | some (kLength, kw2) =>
              { i := kLength, hl := memsetHl hl 0 (if kw2 then HL_KEYWORD2 else HL_KEYWORD1) kLength,
                previousSep := false, inString := 0, inComment := false }
            | none =>
              { i := 1, hl := hl, previousSep := false, inString := 0, inComment := false }) := by
  have e1 : (c == 47) = false := by simp; omega
  have e2 : (c == 34) = false := by simp; omega
  have e3 : (c == 39) = false := by simp; omega
  have e4 : (c == 46) = false := by simp; omega
  have e5 : isdigit c = false := by simp [isdigit]; omega
  have e6 := isSeparator_letter c h1 h2
  have e7 : (c != 47) = true := by simp; omega
  simp only [scanLoop, stepMlComment, stepString, stepNumber, stepKeyword, stepDefault,
    HLDB_C_fields.1, HLDB_C_fields.2.1, HLDB_C_fields.2.2.1, HLDB_C_fields.2.2.2.1,
    HLDB_C_fields.2.2.2.2, List.drop_zero, strncmp0, List.headD_cons, List.getD_cons_zero,
    e1, e2, e3, e4, e5, e6, e7]
  simp

/-- The keyword loop at the start of a row that begins with a keyword of the C
profile: that keyword is found exactly when a separator (or the end of the row)
follows it. -/
theorem keywordScan_keyword (kw : List Nat) (hkw : kw ∈ C_HL_keywords) (s : List Nat) :
    keywordScan (keywordName kw ++ s) 0 C_HL_keywords
      = if isSeparator (s.headD 0) = true then
          some ((keywordName kw).length, kw.getLast? == some 124)
        else none := by
  have hz : ∀ k ∈ C_HL_keywords, ∀ c ∈ keywordName k, c ≠ 0 := by
    intro k hk c hc
    have := (C_HL_keywords_letters k hk).2 c hc
    omega
  have hget : (keywordName kw ++ s).getD (keywordName kw).length 0 = s.headD 0 := by
    rw [List.getD_append_right _ _ _ _ (Nat.le_refl _), Nat.sub_self]
    cases s <;> rfl
  have huniq : ∀ k ∈ C_HL_keywords, keywordName k <+: keywordName kw ++ s → k = kw := by
    intro k hk hp
    rcases List.prefix_or_prefix_of_prefix hp (List.prefix_append (keywordName kw) s) with h | h
    · exact C_HL_keywords_prefix_free k hk kw hkw h
    · exact (C_HL_keywords_prefix_free kw hkw k hk h).symm
  split
  · rename_i hsep
    exact keywordScan_some _ kw C_HL_keywords hz hkw huniq (List.prefix_append _ _)
      (by rw [hget]; exact hsep)
  · rename_i hsep
    refine keywordScan_none _ C_HL_keywords hz ?_
    rintro k hk ⟨hp, hs⟩
    rw [huniq k hk hp, hget] at hs
    exact hsep hs

/-- C18: under the C profile, for a keyword `kw` of `C_HL_keywords` and any bytes
`s`, the scan of the row `keywordName kw ++ s` started outside a comment classifies
every byte of the keyword as `HL_KEYWORD1` or `HL_KEYWORD2` if and only if `s` is
empty or begins with a separator byte.  In that case the bytes of the keyword get
`HL_KEYWORD2` when `kw` is listed with the `'|'` suffix and `HL_KEYWORD1` otherwise,
and the result is that of the scan continued at the first byte of `s` with
`previousSep` cleared. -/
theorem C18_keyword_match (kw : List Nat) (hkw : kw ∈ C_HL_keywords) (s : List Nat) :
    ((∀ j, j < (keywordName kw).length →
        (scanRow HLDB_C (keywordName kw ++ s) false).1.getD j HL_NORMAL = HL_KEYWORD1
        ∨ (scanRow HLDB_C (keywordName kw ++ s) false).1.getD j HL_NORMAL = HL_KEYWORD2)
      ↔ sepNext s)
    ∧ (sepNext s →
        (scanRow HLDB_C (keywordName kw ++ s) false).1.take (keywordName kw).length
            = List.replicate (keywordName kw).length (keywordClass kw)
        ∧ scanRow HLDB_C (keywordName kw ++ s) false
            = scanFrom HLDB_C (keywordName kw ++ s)
                { i := (keywordName kw).length,
                  hl := List.replicate (keywordName kw).length (keywordClass kw)
                    ++ List.replicate s.length HL_NORMAL,
                  previousSep := false, inString := 0, inComment := false }) := by
  have hscan := keywordScan_keyword kw hkw s
  obtain ⟨hne, hlet⟩ := C_HL_keywords_letters kw hkw
  generalize hk : keywordName kw = k at hscan hne hlet ⊢
  obtain ⟨c, k1, rfl⟩ : ∃ c k1, k = c :: k1 := by
    cases k with
    | nil => exact absurd rfl hne
    | cons c k1 => exact ⟨c, k1, rfl⟩
  have hc := hlet c (List.mem_cons_self _ _)
  rw [List.cons_append] at hscan ⊢
  have hstep := scanLoop_letter_step c (k1 ++ s) (2 * (c :: (k1 ++ s)).length)
    (List.replicate (c :: (k1 ++ s)).length HL_NORMAL) hc.1 hc.2
  have hcls : (if (kw.getLast? == some 124) = true then HL_KEYWORD2 else HL_KEYWORD1)
      = keywordClass kw := by
    simp only [keywordClass, beq_iff_eq]
  have hmem : memsetHl (List.replicate (c :: (k1 ++ s)).length HL_NORMAL) 0 (keywordClass kw)
      (c :: k1).length
      = List.replicate (c :: k1).length (keywordClass kw) ++ List.replicate s.length HL_NORMAL := by
    have := memsetHl_append [] (List.replicate (c :: k1).length HL_NORMAL)
      (List.replicate s.length HL_NORMAL) (keywordClass kw)
    simp only [List.length_replicate, List.nil_append, List.length_nil] at this
    rw [← this, ← List.replicate_add]
    simp only [List.length_cons, List.length_append]
    congr 2
    omega
  have hyes : sepNext s →
      scanRow HLDB_C (c :: (k1 ++ s)) false
        = scanFrom HLDB_C (c :: (k1 ++ s))
            { i := (c :: k1).length,
              hl := List.replicate (c :: k1).length (keywordClass kw)
                ++ List.replicate s.length HL_NORMAL,
              previousSep := false, inString := 0, inComment := false } := by
    intro hsep
    rw [if_pos ((sepNext_iff s).1 hsep)] at hscan
    simp only [scanRow, scanFrom]
    rw [hstep]
    rw [hscan]
    simp only []
    rw [hcls, hmem]
    have hmore := scanLoop_fuel HLDB_C (c :: (k1 ++ s)) (2 * (c :: (k1 ++ s)).length)
      { i := (c :: k1).length,
        hl := List.replicate (c :: k1).length (keywordClass kw)
          ++ List.replicate s.length HL_NORMAL,
        previousSep := false, inString := 0, inComment := false } 1
      (by simp only [scanMeasure]; simp; omega)
    rw [hmore]
  have hno : ¬ sepNext s → (scanRow HLDB_C (c :: (k1 ++ s)) false).1.head? = some HL_NORMAL := by
    intro hsep
    rw [if_neg (fun h => hsep ((sepNext_iff s).2 h))] at hscan
    simp only [scanRow]
    rw [hstep]
    rw [hscan]
    exact scanLoop_head _ _ _ _ _ (by simp) (by simp [List.replicate_succ])
  have htake : sepNext s →
      (scanRow HLDB_C (c :: (k1 ++ s)) false).1.take (c :: k1).length
        = List.replicate (c :: k1).length (keywordClass kw) := by
    intro hsep
    rw [hyes hsep]
    have ht := scanFrom_take HLDB_C (c :: (k1 ++ s))
      { i := (c :: k1).length,
        hl := List.replicate (c :: k1).length (keywordClass kw)
          ++ List.replicate s.length HL_NORMAL,
        previousSep := false, inString := 0, inComment := false } (c :: k1).length
      (Nat.le_refl _) (by simp)
    rw [ht, List.take_left']
    simp
  refine ⟨⟨?_, ?_⟩, fun hsep => ⟨htake hsep, hyes hsep⟩⟩
  · intro hall
    by_contra hsep
    have h0 := hall 0 (by simp)
    have hh := hno hsep
    rcases hl : (scanRow HLDB_C (c :: (k1 ++ s)) false).1 with _ | ⟨a, t⟩
    · rw [hl] at hh
      simp at hh
    · rw [hl] at hh h0
      simp only [List.head?_cons, Option.some.injEq] at hh
      simp only [List.getD_cons_zero, hh] at h0
      rcases h0 with h0 | h0 <;> exact absurd h0 (by decide)
  · intro hsep j hj
    have ht := htake hsep
    have hg : (scanRow HLDB_C (c :: (k1 ++ s)) false).1.getD j HL_NORMAL
        = ((scanRow HLDB_C (c :: (k1 ++ s)) false).1.take (c :: k1).length).getD j HL_NORMAL := by
      simp only [List.getD_eq_getElem?_getD, List.getElem?_take, if_pos hj]
    rw [hg, ht]
    simp only [List.getD_eq_getElem?_getD, List.getElem?_replicate, if_pos hj, Option.getD_some,
      keywordClass]
    split
    · exact Or.inr rfl
    · exact Or.inl rfl


/-- C18 on the keyword `int` (listed as `"int|"`): in `"int x"` the three bytes are
`HL_KEYWORD2` and the rest is normal; in `"intx"` no separator follows and no byte is
classified as a keyword.  The keyword `if` (listed without `'|'`) in `"if(x)"` is
`HL_KEYWORD1`. -/
theorem C18_keyword_match_witness :
    (bytes "int|" ∈ C_HL_keywords ∧ sepNext (bytes " x") ∧ ¬ sepNext (bytes "x"))
    ∧ (scanRow HLDB_C (keywordName (bytes "int|") ++ bytes " x") false).1.take
          (keywordName (bytes "int|")).length
        = List.replicate (keywordName (bytes "int|")).length (keywordClass (bytes "int|"))
    ∧ scanRow HLDB_C (bytes "int x") false
        = ([HL_KEYWORD2, HL_KEYWORD2, HL_KEYWORD2, HL_NORMAL, HL_NORMAL], false)
    ∧ ¬ (∀ j, j < (keywordName (bytes "int|")).length →
        (scanRow HLDB_C (keywordName (bytes "int|") ++ bytes "x") false).1.getD j HL_NORMAL
            = HL_KEYWORD1
          ∨ (scanRow HLDB_C (keywordName (bytes "int|") ++ bytes "x") false).1.getD j HL_NORMAL
            = HL_KEYWORD2)
    ∧ scanRow HLDB_C (bytes "intx") false
        = ([HL_NORMAL, HL_NORMAL, HL_NORMAL, HL_NORMAL], false)
    ∧ (scanRow HLDB_C (keywordName (bytes "if") ++ bytes "(x)") false).1.take
          (keywordName (bytes "if")).length
        = List.replicate (keywordName (bytes "if")).length (keywordClass (bytes "if"))
    ∧ scanRow HLDB_C (bytes "if(x)") false
        = ([HL_KEYWORD1, HL_KEYWORD1, HL_NORMAL, HL_NORMAL, HL_NORMAL], false) :=
  ⟨by decide,
    ((C18_keyword_match (bytes "int|") (by decide) (bytes " x")).2 (by decide)).1,
    by decide,
    fun h => (by decide : ¬ sepNext (bytes "x"))
      ((C18_keyword_match (bytes "int|") (by decide) (bytes "x")).1.1 h),
    by decide,
    ((C18_keyword_match (bytes "if") (by decide) (bytes "(x)")).2 (by decide)).1,
    by decide⟩

/-! ## Strings -/

/-- One iteration of the scan inside a string. -/
theorem scanLoop_string_step (render : List Nat) (fuel i : Nat) (hl : List editorHighlight)
    (ps : Bool) (q : Nat) (hi : i < render.length) (hq : q ≠ 0) :
    scanLoop HLDB_C render (fuel + 1)
        { i := i, hl := hl, previousSep := ps, inString := q, inComment := false }
      = scanLoop HLDB_C render fuel
          (if (render.getD i 0 == 92 && decide (i + 1 < render.length)) = true then
            { i := i + 2, hl := memsetHl (memsetHl hl i HL_STRING 1) (i + 1) HL_STRING 1,
              previousSep := ps, inString := q, inComment := false }
           else
            { i := i + 1, hl := memsetHl hl i HL_STRING 1, previousSep := true,
              inString := if (render.getD i 0 == q) = true then 0 else q,
              inComment := false }) := by
  have e1 : (q == 0) = false := by simpa using hq
  have e2 : (q != 0) = true := by simpa using hq
  have e3 : (3 &&& HL_HIGHLIGHT_STRINGS != 0) = true := by decide
  simp only [scanLoop, if_pos hi, stepMlComment, stepString, HLDB_C_fields.1,
    HLDB_C_fields.2.1, HLDB_C_fields.2.2.1, HLDB_C_fields.2.2.2.1, e1, e2, e3,
    Bool.and_false, Bool.false_and, Bool.false_eq_true, if_false, if_true]

/-- One iteration of the scan at a quote outside strings and comments: the string
opens. -/
theorem scanLoop_quote_step (q : Nat) (hq : q = 34 ∨ q = 39) (r : List Nat) (fuel : Nat)
    (hl : List editorHighlight) (ps : Bool) :
    scanLoop HLDB_C (q :: r) (fuel + 1)
        { i := 0, hl := hl, previousSep := ps, inString := 0, inComment := false }
      = scanLoop HLDB_C (q :: r) fuel
          { i := 1, hl := memsetHl hl 0 HL_STRING 1, previousSep := ps, inString := q,
            inComment := false } := by
  have e3 : (3 &&& HL_HIGHLIGHT_STRINGS != 0) = true := by decide
  rcases hq with rfl | rfl <;>
    simp [scanLoop, stepMlComment, stepString, HLDB_C_fields.1, HLDB_C_fields.2.1,
      HLDB_C_fields.2.2.1, HLDB_C_fields.2.2.2.1, e3, strncmp0]

theorem getD_append_cons (pre : List Nat) (c : Nat) (rest : List Nat) :
    (pre ++ c :: rest).getD pre.length 0 = c := by
  rw [List.getD_append_right _ _ _ _ (Nat.le_refl _), Nat.sub_self]
  rfl

/-- Inside a string opened by `q` the scan classifies a body made of units and the
closing `q` as string bytes and ends outside the string. -/
theorem scanLoop_string_body (q : Nat) (hq : q = 34 ∨ q = 39) :
    ∀ (units : List (List Nat)) (pre : List Nat) (hpre hrest : List editorHighlight)
      (fuel : Nat) (ps : Bool),
      (∀ u ∈ units, stringUnit q u = true) → hpre.length = pre.length →
      hrest.length = units.flatten.length + 1 → units.flatten.length + 1 ≤ fuel →
      scanLoop HLDB_C (pre ++ (units.flatten ++ [q])) fuel
          { i := pre.length, hl := hpre ++ hrest, previousSep := ps, inString := q,
            inComment := false }
        = { i := pre.length + units.flatten.length + 1,
            hl := hpre ++ List.replicate (units.flatten.length + 1) HL_STRING,
            previousSep := true, inString := 0, inComment := false } := by
  have hq0 : q ≠ 0 := by rcases hq with rfl | rfl <;> decide
  have hq92 : (q == 92) = false := by rcases hq with rfl | rfl <;> decide
  intro units
  induction units with
  | nil =>
    intro pre hpre hrest fuel ps _ hp hr hf
    simp only [List.flatten_nil, List.length_nil, Nat.zero_add, List.nil_append,
      Nat.add_zero] at hr hf ⊢
    obtain ⟨f, rfl⟩ : ∃ f, fuel = f + 1 := ⟨fuel - 1, by omega⟩
    obtain ⟨h, rfl⟩ : ∃ h, hrest = [h] := by
      rcases hrest with _ | ⟨h, _ | ⟨h2, t⟩⟩
      · simp at hr
      · exact ⟨h, rfl⟩
      · simp at hr
    rw [scanLoop_string_step _ f _ _ ps q (by simp) hq0, getD_append_cons, hq92]
    simp only [Bool.false_and, Bool.false_eq_true, if_false, beq_self_eq_true, if_true]
    rw [scanLoop_at_end _ _ _ _ (by simp)]
    have hm := memsetHl_append hpre [h] [] HL_STRING
    simp only [List.append_nil, List.length_singleton, hp] at hm
    rw [hm]
  | cons u units ih =>
    intro pre hpre hrest fuel ps hu hp hr hf
    have hu1 := hu u (List.mem_cons_self _ _)
    have hu2 : ∀ v ∈ units, stringUnit q v = true :=
      fun v hv => hu v (List.mem_cons_of_mem _ hv)
    obtain ⟨f, rfl⟩ : ∃ f, fuel = f + 1 := ⟨fuel - 1, by omega⟩
    rcases u with _ | ⟨c, _ | ⟨d, _ | ⟨e, t⟩⟩⟩
    · simp [stringUnit] at hu1
    · simp only [stringUnit, Bool.and_eq_true, bne_iff_ne, ne_eq] at hu1
      simp only [List.flatten_cons, List.singleton_append, List.length_cons, List.cons_append,
        List.nil_append] at hr hf ⊢
      obtain ⟨h, hrest, rfl⟩ : ∃ h t, hrest = h :: t := by
        rcases hrest with _ | ⟨h, t⟩
        · simp at hr
        · exact ⟨h, t, rfl⟩
      simp only [List.length_cons] at hr
      have hc92 : (c == 92) = false := by simpa using hu1.2
      have hcq : (c == q) = false := by simpa using hu1.1
      rw [scanLoop_string_step _ f _ _ ps q (by simp) hq0, getD_append_cons, hc92, hcq]
      simp only [Bool.false_and, Bool.false_eq_true, if_false]
      have hm := memsetHl_append hpre [h] hrest HL_STRING
      simp only [List.length_singleton, hp, List.append_assoc, List.singleton_append,
        List.replicate_succ, List.replicate_zero] at hm
      rw [hm]
      have hih := ih (pre ++ [c]) (hpre ++ [HL_STRING]) hrest f true hu2 (by simp [hp])
        (by omega) (by omega)
      simp only [List.append_assoc, List.singleton_append, List.length_append,
        List.length_singleton] at hih
      rw [hih]
      simp only [List.replicate_succ, ScanState.mk.injEq, and_true, true_and]
      omega
    · simp only [stringUnit, beq_iff_eq] at hu1
      subst hu1
      simp only [List.flatten_cons, List.length_cons, List.cons_append, List.nil_append,
        List.length_append, List.length_nil] at hr hf ⊢
      obtain ⟨h1, h2, hrest, rfl⟩ : ∃ h1 h2 t, hrest = h1 :: h2 :: t := by
        rcases hrest with _ | ⟨h1, _ | ⟨h2, t⟩⟩
        · simp at hr
        · simp at hr
        · exact ⟨h1, h2, t, rfl⟩
      simp only [List.length_cons] at hr
      rw [scanLoop_string_step _ f _ _ ps q (by simp) hq0, getD_append_cons]
      rw [if_pos (by simp)]
      have hm1 := memsetHl_append hpre [h1] (h2 :: hrest) HL_STRING
      simp only [List.length_singleton, hp, List.append_assoc, List.singleton_append,
        List.replicate_succ, List.replicate_zero] at hm1
      have hm2 := memsetHl_append (hpre ++ [HL_STRING]) [h2] hrest HL_STRING
      simp only [List.length_singleton, hp, List.append_assoc, List.singleton_append,
        List.replicate_succ, List.replicate_zero, List.length_append, List.cons_append,
        List.nil_append] at hm2
      rw [hm1, hm2]
      have hih := ih (pre ++ [92, d]) (hpre ++ [HL_STRING, HL_STRING]) hrest f ps hu2
        (by simp [hp]) (by omega) (by omega)
      simp only [List.append_assoc, List.cons_append, List.nil_append, List.length_append,
        List.length_cons, List.length_nil] at hih
      rw [hih]
      simp only [List.replicate_succ, ScanState.mk.injEq, and_true, true_and]
      omega
    · simp [stringUnit] at hu1

theorem scanRow_string (q : Nat) (hq : q = 34 ∨ q = 39) (units : List (List Nat))
    (hu : ∀ u ∈ units, stringUnit q u = true) :
    scanRow HLDB_C (q :: (units.flatten ++ [q])) false
      = (List.replicate (units.flatten.length + 2) HL_STRING, false) := by
  have hlen : (q :: (units.flatten ++ [q])).length = units.flatten.length + 2 := by simp
  simp only [scanRow]
  rw [hlen, scanLoop_quote_step q hq _ _ _ true]
  have hm : memsetHl (List.replicate (units.flatten.length + 2) HL_NORMAL) 0 HL_STRING 1
      = [HL_STRING] ++ List.replicate (units.flatten.length + 1) HL_NORMAL := by
    simp [memsetHl, List.replicate_succ]
  have hb := scanLoop_string_body q hq units [q] [HL_STRING]
    (List.replicate (units.flatten.length + 1) HL_NORMAL) (2 * (units.flatten.length + 2)) true
    hu rfl (by simp) (by omega)
  simp only [List.singleton_append, List.length_singleton] at hb hm
  rw [hm, hb]
  simp [List.replicate_succ]

/-- C19: under the C profile, for a row `k` of a well-formed document that is not
inside an open comment and whose render bytes are a quote `q` (`"` or `'`), a body
made of units (one byte other than `q` and the backslash, or a backslash followed by
any one byte) and the quote `q` again, `editorUpdateSyntax` classifies every byte of
the row as `HL_STRING` and leaves `hlOpenComment` clear.  An escaped quote is a unit
and does not close the string; the bytes of `"//"`, `"/*"` and `"*/"` are units and
neither start nor end a comment. -/
theorem C19_string_row (E : editorConfig) (k : Nat) (q : Nat) (units : List (List Nat))
    (hs : E.syn = some HLDB_C) (hok : docOk E) (hk : k < E.row.length)
    (hprev : prevOpen E k = false) (hq : q = 34 ∨ q = 39)
    (hu : ∀ u ∈ units, stringUnit q u = true)
    (hr : (rowAt E k).render = q :: (units.flatten ++ [q])) :
    (rowAt (editorUpdateSyntax E k) k).hl = List.replicate (rowAt E k).rsize HL_STRING
    ∧ (rowAt (editorUpdateSyntax E k) k).hlOpenComment = false := by
  have hrow := editorUpdateSyntax_row HLDB_C E k hs hok hk
  rw [hprev, hr, scanRow_string q hq units hu] at hrow
  have h1 := congrArg Prod.fst hrow
  have h2 := congrArg Prod.snd hrow
  simp only [] at h1 h2
  refine ⟨?_, h2⟩
  rw [h1, erow.rsize, hr]
  simp

/-- C19 on the row `"a\"//*/"`: the units are `a`, the escaped quote, `/`, `/`, `*`,
`/`; all nine bytes are string bytes and no comment is open. -/
theorem C19_string_row_witness :
    (docString.syn = some HLDB_C ∧ docOk docString ∧ 0 < docString.row.length
      ∧ prevOpen docString 0 = false
      ∧ (∀ u ∈ [[97], [92, 34], [47], [47], [42], [47]], stringUnit 34 u = true)
      ∧ (rowAt docString 0).render
          = 34 :: ([[97], [92, 34], [47], [47], [42], [47]].flatten ++ [34]))
    ∧ (rowAt (editorUpdateSyntax docString 0) 0).hl = List.replicate 9 HL_STRING
    ∧ (rowAt (editorUpdateSyntax docString 0) 0).hlOpenComment = false :=
  ⟨by decide,
    C19_string_row docString 0 34 [[97], [92, 34], [47], [47], [42], [47]] (by decide)
      (by decide) (by decide) (by decide) (by decide) (by decide) (by decide)⟩

/-- C20 (the code at the failing input): the document with rows `"//"`, `"/*"`,
`"x"` is well-formed and highlight-consistent, the cursor is at the start of row 1;
after the backspace join of `editorDelChar` the rows are `"///*"` (all Comment, no
open comment) and `"x"`, which keeps the class BlockComment and the open-comment
flag of the scan it had before, while its scan from the joined row's state gives
Normal: the document is not highlight-consistent. -/
theorem C20_join_leaves_stale_highlight :
    docJoin.syn = some HLDB_C ∧ docOk docJoin ∧ hlConsistent HLDB_C docJoin
    ∧ 0 < docJoin.cursorY ∧ docJoin.cursorY < docJoin.numRows ∧ docJoin.cursorX = 0
    ∧ docJoin.row.map (fun r => r.chars) = [bytes "//", bytes "/*", bytes "x"]
    ∧ (editorDelChar docJoin).row.map (fun r => (r.chars, r.hl, r.hlOpenComment))
        = [(bytes "///*", [HL_COMMENT, HL_COMMENT, HL_COMMENT, HL_COMMENT], false),
           (bytes "x", [HL_MLCOMMENT], true)]
    ∧ scanRow HLDB_C (bytes "x") false = ([HL_NORMAL], false)
    ∧ ¬ hlConsistent HLDB_C (editorDelChar docJoin) := by
  decide

/-! ## Line split and highlighting -/

/-- C21 (the code at the failing input): the document with rows `"/*/"`, `"x"` is
well-formed and highlight-consistent, the cursor is on row 0 behind its first byte;
after `editorInsertNewLine` the rows are `"/"`, `"*/"` (both Normal, no open comment)
and `"x"`, which keeps the class BlockComment and the open-comment flag it had,
while its scan from the state of the row before it gives Normal: the document is not
highlight-consistent.  The same happens on the rows `"/* x"` (in quotes), `"y"` split
behind the opening quote: the new row `/* x"` leaves a comment open and the last row
`"y"` stays Normal. -/
theorem C21_split_leaves_stale_highlight :
    (docSplit.syn = some HLDB_C ∧ docOk docSplit ∧ hlConsistent HLDB_C docSplit
      ∧ 0 ≤ docSplit.cursorY ∧ docSplit.cursorY < docSplit.numRows ∧ 0 ≤ docSplit.cursorX
      ∧ docSplit.cursorX ≤ (rowAt docSplit docSplit.cursorY.toNat).size
      ∧ docSplit.row.map (fun r => r.chars) = [bytes "/*/", bytes "x"]
      ∧ (editorInsertNewLine docSplit).row.map (fun r => (r.chars, r.hl, r.hlOpenComment))
          = [(bytes "/", [HL_NORMAL], false),
             (bytes "*/", [HL_NORMAL, HL_NORMAL], false),
             (bytes "x", [HL_MLCOMMENT], true)]
      ∧ scanRow HLDB_C (bytes "x") false = ([HL_NORMAL], false)
      ∧ ¬ hlConsistent HLDB_C (editorInsertNewLine docSplit))
    ∧ (docOk docSplitString ∧ hlConsistent HLDB_C docSplitString
      ∧ (editorInsertNewLine docSplitString).row.map
            (fun r => (r.chars, r.hl, r.hlOpenComment))
          = [([34], [HL_STRING], false),
             ([47, 42, 32, 120, 34], List.replicate 5 HL_MLCOMMENT, true),
             (bytes "y", [HL_NORMAL], false)]
      ∧ scanRow HLDB_C (bytes "y") true = ([HL_MLCOMMENT], true)
      ∧ ¬ hlConsistent HLDB_C (editorInsertNewLine docSplitString)) := by
  decide

/-! ## The characters of the document under the editor commands -/

theorem map_chars_of_text (l : List erow) :
    l.map erow.chars = (l.map erow.text).map (fun t : Int × List Nat × List Nat => t.2.1) := by
  rw [List.map_map]
  rfl

theorem rowAt_chars_eq (E : editorConfig) (i : Nat) :
    (rowAt E i).chars = (E.row.map erow.chars).getD i [] := by
  have := List.getD_map E.row (default : erow) erow.chars (n := i)
  exact this.symm

/-- The rows after `editorInsertRow` at a position inside `[0, numRows]`. -/
theorem editorInsertRow_shape (E : editorConfig) (pos : Int) (s : List Nat)
    (h0 : 0 ≤ pos) (h1 : pos ≤ E.numRows) (hlen : (E.row.length : Int) = E.numRows) :
    ∃ rows, editorInsertRow E pos s
        = { E with row := rows, numRows := E.numRows + 1, dirty := wrapInt (E.dirty + 1) }
      ∧ rows.map erow.chars
          = (E.row.map erow.chars).take pos.toNat ++ s :: (E.row.map erow.chars).drop pos.toNat
      ∧ (rows.length : Int) = E.numRows + 1 := by
  obtain ⟨rows, e1, e2⟩ := editorInsertRow_inrange E pos s h0 h1 hlen
  have hc : rows.map erow.chars
      = (E.row.map erow.chars).take pos.toNat ++ s :: (E.row.map erow.chars).drop pos.toNat := by
    rw [map_chars_of_text rows, e2, map_chars_of_text E.row]
    simp only [List.map_append, List.map_cons, List.map_take, List.map_drop, List.map_map]
    rfl
  refine ⟨rows, e1, hc, ?_⟩
  have hl := congrArg List.length hc
  simp only [List.length_map, List.length_append, List.length_take, List.length_cons,
    List.length_drop] at hl
  omega

/-- The rows after new characters were stored in row `k` and `editorUpdateRow` was
called on it. -/
theorem rowEdit_shape (E : editorConfig) (k : Nat) (r : erow) (hk : k < E.row.length) :
    ∃ rows, editorUpdateRow (setRow E k r) k = { E with row := rows }
      ∧ rows.map erow.chars = (E.row.map erow.chars).set k r.chars
      ∧ rows.length = E.row.length := by
  obtain ⟨rows, e1, e2⟩ := editorUpdateRow_setRow E k r hk
  have hc : rows.map erow.chars = (E.row.map erow.chars).set k r.chars := by
    rw [map_chars_of_text rows, e2, map_chars_of_text E.row]
    simp only [List.map_map, List.map_set]
    rfl
  refine ⟨rows, e1, hc, ?_⟩
  have hl := congrArg List.length hc
  simpa using hl

theorem set_take_succ_append {α : Type} (l : List α) (k : Nat) (x y : α) (hk : k < l.length) :
    (l.take (k + 1) ++ y :: l.drop (k + 1)).set k x = l.take k ++ x :: y :: l.drop (k + 1) := by
  rw [List.take_succ, List.getElem?_eq_getElem hk]
  simp only [Option.toList_some, List.append_assoc, List.singleton_append]
  have hl : (l.take k).length = k := by
    rw [List.length_take]
    omega
  rw [List.set_append_right _ _ (by omega), hl, Nat.sub_self]
  rfl

/-- The state after `editorInsertNewLine` with the cursor inside the document: the
cursor row is cut at the cursor column (an empty row is inserted when the column is
0) and the cursor is at the start of the next row. -/
theorem editorInsertNewLine_shape (E : editorConfig)
    (hlen : (E.row.length : Int) = E.numRows) (hy0 : 0 ≤ E.cursorY)
    (hy1 : E.cursorY ≤ E.numRows) (hx0 : 0 ≤ E.cursorX) (hx1 : E.cursorX ≤ cursorLimit E) :
    ∃ rows, editorInsertNewLine E
        = { E with row := rows, numRows := E.numRows + 1, dirty := wrapInt (E.dirty + 1),
                   cursorY := E.cursorY + 1, cursorX := 0 }
      ∧ (rows.length : Int) = E.numRows + 1
      ∧ rows.map erow.chars
          = (E.row.map erow.chars).take E.cursorY.toNat
            ++ (rowAt E E.cursorY.toNat).chars.take E.cursorX.toNat
              :: (if E.cursorX = 0 then (E.row.map erow.chars).drop E.cursorY.toNat
                  else (rowAt E E.cursorY.toNat).chars.drop E.cursorX.toNat
                    :: (E.row.map erow.chars).drop (E.cursorY.toNat + 1)) := by
  by_cases hx : E.cursorX = 0
  · obtain ⟨rows, e1, c1, l1⟩ := editorInsertRow_shape E E.cursorY [] hy0 hy1 hlen
    refine ⟨rows, ?_, l1, ?_⟩
    · simp only [editorInsertNewLine, insertNewLineBody]
      rw [if_pos hx, e1]
    · rw [c1, if_pos hx, hx]
      rfl
  · have hy2 : E.cursorY < E.numRows := by
      by_contra hn
      simp only [cursorLimit, if_neg hn] at hx1
      omega
    obtain ⟨rows1, e1, c1, l1⟩ := editorInsertRow_shape E (E.cursorY + 1)
      ((rowAt E E.cursorY.toNat).chars.drop E.cursorX.toNat) (by omega) (by omega) hlen
    have hk : E.cursorY.toNat < rows1.length := by omega
    have hrow1 : (rows1.getD E.cursorY.toNat default).chars = (rowAt E E.cursorY.toNat).chars := by
      have h1 : (rows1.getD E.cursorY.toNat default).chars
          = (rows1.map erow.chars).getD E.cursorY.toNat [] :=
        rowAt_chars_eq { E with row := rows1 } E.cursorY.toNat
      rw [h1, rowAt_chars_eq E, c1]
      have e : (E.cursorY + 1).toNat = E.cursorY.toNat + 1 := by omega
      rw [e, List.getD_append _ _ _ _ (by
        rw [List.length_take, List.length_map]
        omega)]
      simp only [List.getD_eq_getElem?_getD, List.getElem?_take, if_pos (Nat.lt_succ_self _)]
    obtain ⟨rows2, e2, c2, l2⟩ := rowEdit_shape
      { E with row := rows1, numRows := E.numRows + 1, dirty := wrapInt (E.dirty + 1) } E.cursorY.toNat
      { rows1.getD E.cursorY.toNat default with
        chars := (rows1.getD E.cursorY.toNat default).chars.take E.cursorX.toNat } hk
    refine ⟨rows2, ?_, ?_, ?_⟩
    · simp only [editorInsertNewLine, insertNewLineBody]
      rw [if_neg hx]
      simp only [e1]
      simp only [rowAt] at e2 ⊢
      rw [e2]
    · rw [l2]
      exact l1
    · rw [c2, if_neg hx]
      simp only []
      rw [hrow1, c1]
      have e : (E.cursorY + 1).toNat = E.cursorY.toNat + 1 := by omega
      rw [e]
      exact set_take_succ_append _ _ _ _ (by rw [List.length_map]; omega)

/-- The state after `editorDelChar` with the cursor at the start of a row that has a
predecessor: the row is appended to its predecessor and deleted. -/
theorem editorDelChar_join (E : editorConfig) (hlen : (E.row.length : Int) = E.numRows)
    (hy0 : 0 < E.cursorY) (hy1 : E.cursorY < E.numRows) (hx : E.cursorX = 0) :
    ∃ rows, editorDelChar E
        = { E with row := rows, numRows := E.numRows - 1, dirty := wrapInt (wrapInt (E.dirty + 1) + 1),
                   cursorY := E.cursorY - 1,
                   cursorX := ((rowAt E (E.cursorY.toNat - 1)).size : Int) }
      ∧ (rows.length : Int) = E.numRows - 1
      ∧ rows.map erow.chars
          = (E.row.map erow.chars).take (E.cursorY.toNat - 1)
            ++ ((rowAt E (E.cursorY.toNat - 1)).chars ++ (rowAt E E.cursorY.toNat).chars)
              :: (E.row.map erow.chars).drop (E.cursorY.toNat + 1) := by
  have hk : (E.cursorY - 1).toNat = E.cursorY.toNat - 1 := by omega
  obtain ⟨rows1, e1, c1, l1⟩ := rowEdit_shape
    { E with cursorX := ((rowAt E (E.cursorY - 1).toNat).size : Int) } (E.cursorY - 1).toNat
    { rowAt E (E.cursorY - 1).toNat with
      chars := (rowAt E (E.cursorY - 1).toNat).chars ++ (rowAt E E.cursorY.toNat).chars }
    (by show (E.cursorY - 1).toNat < E.row.length; omega)
  have l1b : rows1.length = E.row.length := l1
  have c1b : rows1.map erow.chars = (E.row.map erow.chars).set (E.cursorY.toNat - 1)
      ((rowAt E (E.cursorY.toNat - 1)).chars ++ (rowAt E E.cursorY.toNat).chars) := by
    rw [← hk]
    exact c1
  refine ⟨rows1.take E.cursorY.toNat
      ++ (rows1.drop (E.cursorY.toNat + 1)).map (fun r : erow => { r with idx := r.idx - 1 }),
    ?_, ?_, ?_⟩
  · simp only [editorDelChar]
    rw [if_neg (by omega), if_neg (by omega), if_neg (by omega)]
    simp only [editorRowAppendString]
    have e1b : editorUpdateRow (setRow { E with cursorX := ((rowAt E (E.cursorY - 1).toNat).size : Int) }
        (E.cursorY - 1).toNat
        { rowAt { E with cursorX := ((rowAt E (E.cursorY - 1).toNat).size : Int) }
            (E.cursorY - 1).toNat with
          chars := (rowAt { E with cursorX := ((rowAt E (E.cursorY - 1).toNat).size : Int) }
            (E.cursorY - 1).toNat).chars ++ (rowAt E E.cursorY.toNat).chars })
        (E.cursorY - 1).toNat = _ := e1
    rw [e1b]
    simp only []
    rw [editorDelRow_inrange _ _ (by show 0 ≤ E.cursorY; omega) (by show E.cursorY < E.numRows; omega)]
    simp only [hk]
  · simp only [List.length_append, List.length_take, List.length_map, List.length_drop]
    omega
  · simp only [List.map_append, List.map_map, List.map_take]
    have e : (erow.chars ∘ fun r : erow => { r with idx := r.idx - 1 }) = erow.chars := rfl
    rw [e, List.map_drop, c1b]
    have e1 : E.cursorY.toNat = (E.cursorY.toNat - 1) + 1 := by omega
    have e2 : E.cursorY.toNat + 1 = (E.cursorY.toNat - 1) + 2 := by omega
    rw [e2]
    nth_rewrite 1 [e1]
    exact take_drop_set _ _ _ (by simp; omega)

theorem getD_append_mid {α : Type} (A B : List α) (x y d : α) :
    (A ++ x :: y :: B).getD A.length d = x ∧ (A ++ x :: y :: B).getD (A.length + 1) d = y := by
  constructor
  · rw [List.getD_append_right _ _ _ _ (Nat.le_refl _), Nat.sub_self]
    rfl
  · rw [List.getD_append_right _ _ _ _ (Nat.le_succ _)]
    have e : A.length + 1 - A.length = 1 := by omega
    rw [e]
    rfl

theorem take_getD_drop {α : Type} (l : List α) (k : Nat) (d : α) (hk : k < l.length) :
    l.take k ++ l.getD k d :: l.drop (k + 1) = l := by
  rw [List.getD_eq_getElem _ _ hk, ← List.drop_eq_getElem_cons hk]
  exact List.take_append_drop k l

/-- C23: with the cursor on an existing row (`0 <= cursorY < numRows`,
`0 <= cursorX <= row[cursorY].size`, the row array holding `numRows` rows),
`editorInsertNewLine` followed by `editorDelChar` restores the number of rows, the
chars of every row and the cursor position. -/
theorem C23_newline_backspace_roundtrip (E : editorConfig)
    (hlen : (E.row.length : Int) = E.numRows) (hy0 : 0 ≤ E.cursorY)
    (hy1 : E.cursorY < E.numRows) (hx0 : 0 ≤ E.cursorX)
    (hx1 : E.cursorX ≤ (rowAt E E.cursorY.toNat).size) :
    (editorDelChar (editorInsertNewLine E)).numRows = E.numRows
    ∧ (editorDelChar (editorInsertNewLine E)).row.map erow.chars = E.row.map erow.chars
    ∧ (editorDelChar (editorInsertNewLine E)).cursorX = E.cursorX
    ∧ (editorDelChar (editorInsertNewLine E)).cursorY = E.cursorY := by
  have hlim : E.cursorX ≤ cursorLimit E := by
    simp only [cursorLimit, if_pos hy1]
    exact hx1
  obtain ⟨rows, eN, lN, cN⟩ := editorInsertNewLine_shape E hlen hy0 (by omega) hx0 hlim
  have hky : E.cursorY.toNat < (E.row.map erow.chars).length := by
    rw [List.length_map]
    omega
  have hA : ((E.row.map erow.chars).take E.cursorY.toNat).length = E.cursorY.toNat := by
    rw [List.length_take]
    omega
  have cN2 : rows.map erow.chars
      = (E.row.map erow.chars).take E.cursorY.toNat
        ++ (rowAt E E.cursorY.toNat).chars.take E.cursorX.toNat
          :: (rowAt E E.cursorY.toNat).chars.drop E.cursorX.toNat
            :: (E.row.map erow.chars).drop (E.cursorY.toNat + 1) := by
    rw [cN]
    split
    · rename_i h0
      rw [h0, List.drop_eq_getElem_cons hky, rowAt_chars_eq E, List.getD_eq_getElem _ _ hky]
      rfl
    · rfl
  have fN : (editorInsertNewLine E).numRows = E.numRows + 1 := by rw [eN]
  have fR : (editorInsertNewLine E).row = rows := by rw [eN]
  have fY : (editorInsertNewLine E).cursorY = E.cursorY + 1 := by rw [eN]
  have fX : (editorInsertNewLine E).cursorX = 0 := by rw [eN]
  generalize editorInsertNewLine E = E1 at fN fR fY fX ⊢
  obtain ⟨rows2, eJ, lJ, cJ⟩ := editorDelChar_join E1 (by rw [fR, fN]; exact lN) (by omega)
    (by omega) fX
  have gN : (editorDelChar E1).numRows = E1.numRows - 1 := by rw [eJ]
  have gR : (editorDelChar E1).row = rows2 := by rw [eJ]
  have gY : (editorDelChar E1).cursorY = E1.cursorY - 1 := by rw [eJ]
  have gX : (editorDelChar E1).cursorX = ((rowAt E1 (E1.cursorY.toNat - 1)).size : Int) := by
    rw [eJ]
  have e1 : E1.cursorY.toNat - 1 = E.cursorY.toNat := by omega
  have e2 : E1.cursorY.toNat = E.cursorY.toNat + 1 := by omega
  have hmid := getD_append_mid ((E.row.map erow.chars).take E.cursorY.toNat)
    ((E.row.map erow.chars).drop (E.cursorY.toNat + 1))
    ((rowAt E E.cursorY.toNat).chars.take E.cursorX.toNat)
    ((rowAt E E.cursorY.toNat).chars.drop E.cursorX.toNat) []
  rw [hA, ← cN2, ← fR] at hmid
  have hr0 : (rowAt E1 E.cursorY.toNat).chars
      = (rowAt E E.cursorY.toNat).chars.take E.cursorX.toNat := by
    rw [← hmid.1]
    exact rowAt_chars_eq E1 E.cursorY.toNat
  have hr1 : (rowAt E1 (E.cursorY.toNat + 1)).chars
      = (rowAt E E.cursorY.toNat).chars.drop E.cursorX.toNat := by
    rw [← hmid.2]
    exact rowAt_chars_eq E1 (E.cursorY.toNat + 1)
  rw [e1, e2, hr0, hr1, List.take_append_drop, fR, cN2] at cJ
  rw [e1] at gX
  simp only [erow.size] at gX hx1
  rw [hr0, List.length_take] at gX
  refine ⟨by omega, ?_, ?_, by omega⟩
  · rw [gR, cJ]
    rw [List.take_append_of_le_length (by omega), List.take_take, Nat.min_self]
    rw [List.drop_append_eq_append_drop, List.drop_of_length_le (by omega), hA]
    have e3 : E.cursorY.toNat + 1 + 1 - E.cursorY.toNat = 2 := by omega
    rw [e3]
    simp only [List.drop_succ_cons, List.drop_zero, List.nil_append]
    rw [rowAt_chars_eq E]
    exact take_getD_drop _ _ _ hky
  · rw [gX]
    omega
/-- C23 on the rows `"/*"`, `"int x"` with the cursor behind `int`: the split gives
the rows `"/*"`, `"int"`, `" x"` with the cursor at the start of row 2, and the
backspace gives the two rows and the cursor back. -/
theorem C23_newline_backspace_roundtrip_witness :
    ((docCursor.row.length : Int) = docCursor.numRows ∧ 0 ≤ docCursor.cursorY
      ∧ docCursor.cursorY < docCursor.numRows ∧ 0 ≤ docCursor.cursorX
      ∧ docCursor.cursorX ≤ (rowAt docCursor docCursor.cursorY.toNat).size)
    ∧ (editorInsertNewLine docCursor).row.map erow.chars = [bytes "/*", bytes "int", bytes " x"]
    ∧ ((editorInsertNewLine docCursor).cursorX, (editorInsertNewLine docCursor).cursorY) = (0, 2)
    ∧ ((editorDelChar (editorInsertNewLine docCursor)).numRows = docCursor.numRows
      ∧ (editorDelChar (editorInsertNewLine docCursor)).row.map erow.chars
          = docCursor.row.map erow.chars
      ∧ (editorDelChar (editorInsertNewLine docCursor)).cursorX = docCursor.cursorX
      ∧ (editorDelChar (editorInsertNewLine docCursor)).cursorY = docCursor.cursorY) :=
  ⟨by decide, by decide, by decide,
    C23_newline_backspace_roundtrip docCursor (by decide) (by decide) (by decide) (by decide)
      (by decide)⟩

/-! ## The scan stays inside the arrays -/

theorem rowAt_size_eq (E : editorConfig) (i : Nat) :
    (rowAt E i).size = ((E.row.map erow.chars).getD i []).length := by
  rw [← rowAt_chars_eq]
  rfl

/-- Whether a position is a cursor position depends on the chars of the rows and on
`numRows` only. -/
theorem cursorOkAt_congr (E E1 : editorConfig) (cx cy : Int)
    (hrows : E1.row.map erow.chars = E.row.map erow.chars) (hnum : E1.numRows = E.numRows) :
    cursorOkAt E1 cx cy ↔ cursorOkAt E cx cy := by
  simp only [cursorOkAt, rowAt_size_eq, hrows, hnum]

theorem CursorOk_congr (E E1 : editorConfig)
    (hrows : E1.row.map erow.chars = E.row.map erow.chars) (hnum : E1.numRows = E.numRows)
    (hx : E1.cursorX = E.cursorX) (hy : E1.cursorY = E.cursorY) :
    CursorOk E1 ↔ CursorOk E := by
  have hl : E1.row.length = E.row.length := by
    have := congrArg List.length hrows
    simpa using this
  simp only [CursorOk, hl, hnum, hx, hy, cursorOkAt_congr E E1 _ _ hrows hnum]

theorem rowAccessOk_of_CursorOk (E : editorConfig) (h : CursorOk E) : rowAccessOk E := by
  obtain ⟨hl, h0, h1, h2, h3⟩ := h
  have hx : E.cursorX ≠ 0 → E.cursorY < E.numRows := by
    intro hne
    by_contra hn
    rw [if_neg hn] at h3
    omega
  simp only [rowAccessOk, inRows]
  refine ⟨?_, ?_, ?_, ?_, ?_⟩
  · intro h
    omega
  · intro h
    have := hx h
    omega
  · intro h hh
    refine ⟨by omega, fun hc => ?_⟩
    have : E.cursorX = 0 := by omega
    have : E.cursorY ≠ 0 := fun e => hh ⟨this, e⟩
    omega
  · intro h
    omega
  · intro _ h
    omega

/-- The function `editorScroll` keeps the cursor and the rows and leaves `rowoff`
between 0 and the cursor row. -/
theorem editorScroll_cursor (E : editorConfig) (h : CursorOk E) (hro : 0 ≤ E.rowoff)
    (hsr : 1 ≤ E.screenRows) :
    CursorOk (editorScroll E) ∧ 0 ≤ (editorScroll E).rowoff
    ∧ (editorScroll E).rowoff ≤ (editorScroll E).cursorY
    ∧ (editorScroll E).row = E.row ∧ (editorScroll E).numRows = E.numRows
    ∧ (editorScroll E).cursorX = E.cursorX ∧ (editorScroll E).cursorY = E.cursorY
    ∧ (editorScroll E).screenRows = E.screenRows ∧ (editorScroll E).dirty = E.dirty := by
  rw [editorScroll_eq]
  obtain ⟨a1, a2, a3⟩ := scrollOffset_window E.rowoff E.cursorY E.screenRows hsr
  refine ⟨h, ?_, a1, rfl, rfl, rfl, rfl, rfl, rfl⟩
  show 0 ≤ scrollOffset E.rowoff E.cursorY E.screenRows
  have := h.2.1
  simp only [scrollOffset]
  split_ifs <;> omega

/-- The function `editorMoveCursor` changes the cursor only. -/
theorem editorMoveCursor_frame (E : editorConfig) (key : Int) :
    (editorMoveCursor E key).row = E.row ∧ (editorMoveCursor E key).numRows = E.numRows
    ∧ (editorMoveCursor E key).rowoff = E.rowoff
    ∧ (editorMoveCursor E key).screenRows = E.screenRows
    ∧ (editorMoveCursor E key).dirty = E.dirty := by
  simp only [editorMoveCursor]
  split_ifs <;> exact ⟨rfl, rfl, rfl, rfl, rfl⟩

/-- From a cursor row inside `[0, numRows]` and a column that is not negative,
`editorMoveCursor` leaves the cursor at a cursor position, whatever the key. -/
theorem editorMoveCursor_cursor (E : editorConfig) (key : Int)
    (hl : (E.row.length : Int) = E.numRows) (hy0 : 0 ≤ E.cursorY) (hy1 : E.cursorY ≤ E.numRows)
    (hx0 : 0 ≤ E.cursorX) : CursorOk (editorMoveCursor E key) := by
  simp only [editorMoveCursor]
  split_ifs <;> simp only [CursorOk, cursorOkAt, rowAt] at * <;>
    refine ⟨hl, ?_, ?_, ?_, ?_⟩ <;> (try split_ifs) <;> omega

theorem moveTimes_frame (key : Int) :
    ∀ (n : Nat) (E : editorConfig),
      (moveTimes key n E).row = E.row ∧ (moveTimes key n E).numRows = E.numRows
      ∧ (moveTimes key n E).rowoff = E.rowoff
      ∧ (moveTimes key n E).screenRows = E.screenRows
      ∧ (moveTimes key n E).dirty = E.dirty := by
  intro n
  induction n with
  | zero =>
    intro E
    exact ⟨rfl, rfl, rfl, rfl, rfl⟩
  | succ n ih =>
    intro E
    obtain ⟨a1, a2, a3, a4, a5⟩ := ih (editorMoveCursor E key)
    obtain ⟨b1, b2, b3, b4, b5⟩ := editorMoveCursor_frame E key
    simp only [moveTimes]
    exact ⟨a1.trans b1, a2.trans b2, a3.trans b3, a4.trans b4, a5.trans b5⟩

theorem moveTimes_keeps (key : Int) :
    ∀ (n : Nat) (E : editorConfig), CursorOk E → CursorOk (moveTimes key n E) := by
  intro n
  induction n with
  | zero =>
    intro E h
    exact h
  | succ n ih =>
    intro E h
    simp only [moveTimes]
    exact ih _ (editorMoveCursor_cursor E key h.1 h.2.1 h.2.2.1 h.2.2.2.1)

/-- The loop that moves the cursor at least once leaves it at a cursor position. -/
theorem moveTimes_cursor (key : Int) (n : Nat) (E : editorConfig) (hn : 1 ≤ n)
    (hl : (E.row.length : Int) = E.numRows) (hy0 : 0 ≤ E.cursorY) (hy1 : E.cursorY ≤ E.numRows)
    (hx0 : 0 ≤ E.cursorX) : CursorOk (moveTimes key n E) := by
  obtain ⟨m, rfl⟩ : ∃ m, n = m + 1 := ⟨n - 1, by omega⟩
  simp only [moveTimes]
  exact moveTimes_keeps key m _ (editorMoveCursor_cursor E key hl hy0 hy1 hx0)

theorem editorInsertNewLine_cursor (E : editorConfig) (h : CursorOk E) :
    CursorOk (editorInsertNewLine E)
    ∧ (editorInsertNewLine E).rowoff = E.rowoff
    ∧ (editorInsertNewLine E).screenRows = E.screenRows := by
  obtain ⟨hl, h0, h1, h2, h3⟩ := h
  obtain ⟨rows, eN, lN, -⟩ := editorInsertNewLine_shape E hl h0 h1 h2 h3
  rw [eN]
  refine ⟨⟨lN, ?_, ?_, Int.le_refl 0, ?_⟩, rfl, rfl⟩
  · show 0 ≤ E.cursorY + 1
    omega
  · show E.cursorY + 1 ≤ E.numRows + 1
    omega
  · split
    · exact Int.ofNat_nonneg _
    · exact Int.le_refl 0

/-- An in-row edit of the cursor row that leaves `cs` in it, followed by moving the
cursor to a column inside `cs`, keeps the cursor invariant. -/
theorem RowEdited.cursorOk {E E1 : editorConfig} {cs : List Nat} {d : Int}
    (h : RowEdited E E1 E.cursorY.toNat cs d) (hl : (E.row.length : Int) = E.numRows)
    (hy0 : 0 ≤ E.cursorY) (hy1 : E.cursorY < E.numRows) (x : Int) (hx0 : 0 ≤ x)
    (hx1 : x ≤ cs.length) :
    CursorOk { E1 with cursorX := x } ∧ E1.rowoff = E.rowoff
    ∧ E1.screenRows = E.screenRows := by
  have hr := h.rest
  simp only [Prod.mk.injEq] at hr
  refine ⟨⟨?_, ?_, ?_, hx0, ?_⟩, hr.2.1, hr.2.2.2.1⟩
  · show (E1.row.length : Int) = E1.numRows
    rw [h.len, h.numRows]
    exact hl
  · show 0 ≤ E1.cursorY
    rw [h.cursorY]
    exact hy0
  · show E1.cursorY ≤ E1.numRows
    rw [h.cursorY, h.numRows]
    omega
  · show x ≤ (if E1.cursorY < E1.numRows then ((rowAt E1 E1.cursorY.toNat).size : Int) else 0)
    rw [h.cursorY, h.numRows, if_pos hy1, erow.size, h.chars]
    exact hx1

theorem editorInsertChar_existing (E : editorConfig) (c : Int) (h : CursorOk E)
    (hy : E.cursorY < E.numRows) :
    CursorOk { editorRowInsertChar E E.cursorY.toNat E.cursorX c with
               cursorX := (editorRowInsertChar E E.cursorY.toNat E.cursorX c).cursorX + 1 }
    ∧ (editorRowInsertChar E E.cursorY.toNat E.cursorX c).rowoff = E.rowoff
    ∧ (editorRowInsertChar E E.cursorY.toNat E.cursorX c).screenRows = E.screenRows := by
  obtain ⟨hl, h0, h1, h2, h3⟩ := h
  rw [if_pos hy] at h3
  have hs := editorRowInsertChar_spec E E.cursorY.toNat E.cursorX c (by omega) h2 h3
  refine hs.cursorOk hl h0 hy _ ?_ ?_
  · rw [hs.cursorX]
    omega
  · rw [hs.cursorX]
    simp only [List.length_append, List.length_take, List.length_cons, List.length_drop]
    simp only [erow.size] at h3
    omega

theorem editorInsertChar_cursor (E : editorConfig) (c : Int) (h : CursorOk E) :
    CursorOk (editorInsertChar E c) ∧ (editorInsertChar E c).rowoff = E.rowoff
    ∧ (editorInsertChar E c).screenRows = E.screenRows := by
  by_cases hy : E.cursorY = E.numRows
  · obtain ⟨hl, h0, h1, h2, h3⟩ := h
    rw [if_neg (by omega)] at h3
    obtain ⟨rows, e1, -, l1⟩ := editorInsertRow_shape E E.numRows [] (by omega)
      (Int.le_refl _) hl
    have hE1 : CursorOk { E with row := rows, numRows := E.numRows + 1, dirty := wrapInt (E.dirty + 1) } := by
      refine ⟨l1, h0, ?_, h2, ?_⟩
      · show E.cursorY ≤ E.numRows + 1
        omega
      · have : E.cursorX = 0 := by omega
        rw [this]
        split
        · exact Int.ofNat_nonneg _
        · exact Int.le_refl 0
    have := editorInsertChar_existing _ c hE1 (by show E.cursorY < E.numRows + 1; omega)
    simp only [editorInsertChar]
    rw [if_pos hy, e1]
    exact this
  · have hy2 : E.cursorY < E.numRows := by
      have := h.2.2.1
      omega
    have := editorInsertChar_existing E c h hy2
    simp only [editorInsertChar]
    rw [if_neg hy]
    exact this

theorem editorDelChar_cursor (E : editorConfig) (h : CursorOk E) :
    CursorOk (editorDelChar E) ∧ (editorDelChar E).rowoff = E.rowoff
    ∧ (editorDelChar E).screenRows = E.screenRows := by
  by_cases hy : E.cursorY = E.numRows
  · simp only [editorDelChar]
    rw [if_pos hy]
    exact ⟨h, rfl, rfl⟩
  by_cases h00 : E.cursorX = 0 ∧ E.cursorY = 0
  · simp only [editorDelChar]
    rw [if_neg hy, if_pos h00]
    exact ⟨h, rfl, rfl⟩
  obtain ⟨hl, h0, h1, h2, h3⟩ := h
  have hy2 : E.cursorY < E.numRows := by omega
  rw [if_pos hy2] at h3
  by_cases hx : E.cursorX > 0
  · have hs := editorRowDelChar_spec E E.cursorY.toNat (E.cursorX - 1) (by omega) (by omega)
      (by omega)
    have := hs.cursorOk hl h0 hy2 ((editorRowDelChar E E.cursorY.toNat (E.cursorX - 1)).cursorX - 1)
      (by rw [hs.cursorX]; omega)
      (by
        rw [hs.cursorX]
        simp only [List.length_append, List.length_take, List.length_drop]
        simp only [erow.size] at h3
        omega)
    simp only [editorDelChar]
    rw [if_neg hy, if_neg h00, if_pos hx]
    exact this
  · have hx0 : E.cursorX = 0 := by omega
    have hy0 : 0 < E.cursorY := by
      by_contra hn
      exact h00 ⟨hx0, by omega⟩
    obtain ⟨rows, eJ, lJ, cJ⟩ := editorDelChar_join E hl hy0 hy2 hx0
    rw [eJ]
    refine ⟨⟨lJ, ?_, ?_, Int.ofNat_nonneg _, ?_⟩, rfl, rfl⟩
    · show 0 ≤ E.cursorY - 1
      omega
    · show E.cursorY - 1 ≤ E.numRows - 1
      omega
    · show ((rowAt E (E.cursorY.toNat - 1)).size : Int)
        ≤ (if E.cursorY - 1 < E.numRows - 1 then
            ((rowAt { E with row := rows } (E.cursorY - 1).toNat).size : Int) else 0)
      rw [if_pos (by omega), rowAt_size_eq { E with row := rows }]
      show ((rowAt E (E.cursorY.toNat - 1)).size : Int)
        ≤ (((rows.map erow.chars).getD (E.cursorY - 1).toNat []).length : Int)
      have e : (E.cursorY - 1).toNat = E.cursorY.toNat - 1 := by omega
      have hA : ((E.row.map erow.chars).take (E.cursorY.toNat - 1)).length
          = E.cursorY.toNat - 1 := by
        rw [List.length_take, List.length_map]
        omega
      rw [cJ, e, List.getD_append_right _ _ _ _ (by omega), hA, Nat.sub_self]
      simp only [List.getD_cons_zero, List.length_append, erow.size]
      omega

theorem rxToCxLoop_le (chars : List Nat) (rx : Nat) :
    ∀ (fuel cx cur : Nat), cx ≤ chars.length → rxToCxLoop chars rx fuel cx cur ≤ chars.length := by
  intro fuel
  induction fuel with
  | zero =>
    intro cx cur h
    exact h
  | succ n ih =>
    intro cx cur h
    simp only [rxToCxLoop]
    split
    · split
      · exact h
      · exact ih _ _ (by omega)
    · exact h

theorem editorRowRxToCx_le (row : erow) (rx : Nat) : editorRowRxToCx row rx ≤ row.size :=
  rxToCxLoop_le row.chars rx row.size 0 0 (Nat.zero_le _)

/-- The row the loop of `editorFindCallback` stops at is a row of the document. -/
theorem findLoop_range (E : editorConfig) (q : List Nat) (d : Int) (hd : d = 1 ∨ d = -1)
    (hn : 0 < E.numRows) :
    ∀ (fuel : Nat) (c cur : Int) (off : Nat), -1 ≤ c → c < E.numRows → (c = -1 → d = 1) →
      findLoop E q d fuel c = some (cur, off) → 0 ≤ cur ∧ cur < E.numRows := by
  intro fuel
  induction fuel with
  | zero =>
    intro c cur off _ _ _ h
    simp [findLoop] at h
  | succ n ih =>
    intro c cur off h0 h1 h2 h
    simp only [findLoop] at h
    have hc2 : 0 ≤ (if c + d = -1 then E.numRows - 1 else if c + d = E.numRows then 0 else c + d)
        ∧ (if c + d = -1 then E.numRows - 1 else if c + d = E.numRows then 0 else c + d)
          < E.numRows := by
      split_ifs <;> omega
    generalize (if c + d = -1 then E.numRows - 1 else if c + d = E.numRows then 0 else c + d)
      = c2 at h hc2
    split at h
    · simp only [Option.some.injEq, Prod.mk.injEq] at h
      rw [← h.1]
      exact hc2
    · exact ih c2 cur off (by omega) hc2.2 (by omega) h

theorem findRestore_shape (E : editorConfig) (fs : FindState) :
    ∃ rows, findRestore E fs = { E with row := rows }
      ∧ rows.map erow.chars = E.row.map erow.chars := by
  simp only [findRestore]
  split
  · exact ⟨_, rfl, map_set_same erow.chars default E.row _ _ rfl⟩
  · exact ⟨E.row, rfl, rfl⟩

theorem findKey_ok (fs : FindState) (key : Int) (n : Int)
    (h : fs.last_match = -1 ∨ (0 ≤ fs.last_match ∧ fs.last_match < n)) :
    ((findKey fs key).direction = 1 ∨ (findKey fs key).direction = -1)
    ∧ ((findKey fs key).last_match = -1
      ∨ (0 ≤ (findKey fs key).last_match ∧ (findKey fs key).last_match < n))
    ∧ ((findKey fs key).last_match = -1 → (findKey fs key).direction = 1) := by
  simp only [findKey]
  split_ifs <;> dsimp only at * <;> omega

theorem setRow_chars_same (E : editorConfig) (k : Nat) (r : erow)
    (hr : r.chars = (rowAt E k).chars) :
    (setRow E k r).row.map erow.chars = E.row.map erow.chars :=
  map_set_same erow.chars default E.row k r hr

theorem CursorOk_setRow (E : editorConfig) (k : Nat) (r : erow)
    (hr : r.chars = (rowAt E k).chars) : CursorOk (setRow E k r) ↔ CursorOk E :=
  CursorOk_congr E _ (setRow_chars_same E k r hr) rfl rfl rfl

/-- The function `editorFindCallback` keeps the chars of the rows and leaves the
cursor at a cursor position: where it was, or on a row of the document at a column
inside that row. -/
theorem editorFindCallback_cursor (E : editorConfig) (fs : FindState) (q : List Nat) (key : Int)
    (h : CursorOk E) (hro : 0 ≤ E.rowoff) (hf : findOk E fs) :
    (editorFindCallback E fs q key).1.row.map erow.chars = E.row.map erow.chars
    ∧ (editorFindCallback E fs q key).1.numRows = E.numRows
    ∧ (editorFindCallback E fs q key).1.screenRows = E.screenRows
    ∧ CursorOk (editorFindCallback E fs q key).1
    ∧ 0 ≤ (editorFindCallback E fs q key).1.rowoff
    ∧ findOk (editorFindCallback E fs q key).1 (editorFindCallback E fs q key).2
    ∧ ((key = 13 ∨ key = 27) → (editorFindCallback E fs q key).2.last_match = -1) := by
  obtain ⟨rows1, e1, c1⟩ := findRestore_shape E fs
  have hE1 : CursorOk { E with row := rows1 } :=
    (CursorOk_congr E { E with row := rows1 } c1 rfl rfl rfl).2 h
  have hk := findKey_ok { fs with saved_hl := none } key E.numRows hf.2
  simp only [editorFindCallback]
  rw [e1]
  by_cases hkey : key = 13 ∨ key = 27
  · rw [if_pos hkey]
    exact ⟨c1, rfl, rfl, hE1, hro, ⟨Or.inl rfl, Or.inl rfl⟩, fun _ => rfl⟩
  · rw [if_neg hkey]
    split
    · exact ⟨c1, rfl, rfl, hE1, hro, ⟨hk.1, hk.2.1⟩, fun hh => absurd hh hkey⟩
    · rename_i current off hfl
      have hn : 0 < E.numRows := by
        by_contra hn
        have : E.numRows.toNat = 0 := by omega
        simp only [this, findLoop] at hfl
        exact Option.noConfusion hfl
      have hr := findLoop_range { E with row := rows1 } q _ hk.1 hn _ _ current off
        (by rcases hk.2.1 with e | e <;> omega)
        (by show _ < E.numRows; rcases hk.2.1 with e | e <;> omega)
        hk.2.2 hfl
      have hr2 : 0 ≤ current ∧ current < E.numRows := hr
      refine ⟨(setRow_chars_same _ _ _ (by rfl)).trans c1, rfl, rfl, ?_, ?_, ⟨hk.1, Or.inr hr2⟩,
        fun hh => absurd hh hkey⟩
      · refine (CursorOk_setRow _ _ _ (by rfl)).2 ⟨hE1.1, hr2.1, by show current ≤ E.numRows; omega,
          Int.ofNat_nonneg _, ?_⟩
        show ((editorRowRxToCx (rowAt { E with row := rows1 } current.toNat) off : Nat) : Int)
          ≤ (if current < E.numRows then
              ((rowAt { E with row := rows1 } current.toNat).size : Int) else 0)
        rw [if_pos hr2.2]
        exact Int.ofNat_le.2 (editorRowRxToCx_le _ off)
      · show 0 ≤ E.numRows
        omega
theorem cursorLimit_nonneg (E : editorConfig) (cy : Int) :
    (0 : Int) ≤ (if cy < E.numRows then ((rowAt E cy.toNat).size : Int) else 0) := by
  split
  · exact Int.ofNat_nonneg _
  · exact Int.le_refl 0

/-- The `switch` of `editorProcessKeypress` keeps the cursor invariant when the screen
has at least one row and `rowoff` lies between 0 and the cursor row, as
`editorScroll` leaves it. -/
theorem processKey_cursor (E : editorConfig) (c : Int) (h : CursorOk E) (hro0 : 0 ≤ E.rowoff)
    (hro1 : E.rowoff ≤ E.cursorY) (hsr : 1 ≤ E.screenRows) :
    CursorOk (processKey E c) ∧ (processKey E c).rowoff = E.rowoff
    ∧ (processKey E c).screenRows = E.screenRows := by
  obtain ⟨hl, h0, h1, h2, h3⟩ := h
  have hE : CursorOk E := ⟨hl, h0, h1, h2, h3⟩
  simp only [processKey]
  by_cases k1 : c = 13
  · rw [if_pos k1]
    exact editorInsertNewLine_cursor E hE
  rw [if_neg k1]
  by_cases k2 : c = HOME_KEY
  · rw [if_pos k2]
    exact ⟨⟨hl, h0, h1, Int.le_refl 0, cursorLimit_nonneg E E.cursorY⟩, rfl, rfl⟩
  rw [if_neg k2]
  by_cases k3 : c = END_KEY
  · rw [if_pos k3]
    split
    · rename_i hy
      refine ⟨⟨hl, h0, h1, Int.ofNat_nonneg _, ?_⟩, rfl, rfl⟩
      show ((rowAt E E.cursorY.toNat).size : Int)
        ≤ (if E.cursorY < E.numRows then ((rowAt E E.cursorY.toNat).size : Int) else 0)
      rw [if_pos hy]
    · exact ⟨hE, rfl, rfl⟩
  rw [if_neg k3]
  by_cases k4 : c = BACKSPACE ∨ c = CTRL_KEY 104 ∨ c = DEL_KEY
  · rw [if_pos k4]
    have hin : CursorOk (if c = DEL_KEY then editorMoveCursor E ARROW_RIGHT else E)
        ∧ (if c = DEL_KEY then editorMoveCursor E ARROW_RIGHT else E).rowoff = E.rowoff
        ∧ (if c = DEL_KEY then editorMoveCursor E ARROW_RIGHT else E).screenRows
            = E.screenRows := by
      split
      · obtain ⟨-, -, f3, f4, -⟩ := editorMoveCursor_frame E ARROW_RIGHT
        exact ⟨editorMoveCursor_cursor E ARROW_RIGHT hl h0 h1 h2, f3, f4⟩
      · exact ⟨hE, rfl, rfl⟩
    obtain ⟨d1, d2, d3⟩ := editorDelChar_cursor _ hin.1
    exact ⟨d1, d2.trans hin.2.1, d3.trans hin.2.2⟩
  rw [if_neg k4]
  by_cases k5 : c = PAGE_UP ∨ c = PAGE_DOWN
  · rw [if_pos k5]
    have hpre : ∀ (key y : Int), 0 ≤ y → y ≤ E.numRows →
        CursorOk (moveTimes key E.screenRows.toNat { E with cursorY := y })
        ∧ (moveTimes key E.screenRows.toNat { E with cursorY := y }).rowoff = E.rowoff
        ∧ (moveTimes key E.screenRows.toNat { E with cursorY := y }).screenRows
            = E.screenRows := by
      intro key y hy0 hy1
      obtain ⟨-, -, f3, f4, -⟩ := moveTimes_frame key E.screenRows.toNat { E with cursorY := y }
      exact ⟨moveTimes_cursor _ _ _ (by omega) hl hy0 hy1 h2, f3, f4⟩
    split
    · exact hpre _ E.rowoff hro0 (by omega)
    · split
      · exact hpre _ E.numRows (by omega) (Int.le_refl _)
      · exact hpre _ (E.rowoff + E.screenRows - 1) (by omega) (by omega)
  rw [if_neg k5]
  by_cases k6 : c = ARROW_UP ∨ c = ARROW_DOWN ∨ c = ARROW_LEFT ∨ c = ARROW_RIGHT
  · rw [if_pos k6]
    obtain ⟨-, -, f3, f4, -⟩ := editorMoveCursor_frame E c
    exact ⟨editorMoveCursor_cursor E c hl h0 h1 h2, f3, f4⟩
  rw [if_neg k6]
  by_cases k7 : c = CTRL_KEY 108 ∨ c = 27
  · rw [if_pos k7]
    exact ⟨hE, rfl, rfl⟩
  rw [if_neg k7]
  exact editorInsertChar_cursor E c hE

/-- Every iteration of the prompt loop calls the callback once, with some buffer, and
the prompt returns only on Enter and Escape. -/
theorem promptKey_eq (E : editorConfig) (fs : FindState) (buf : List Nat) (c : Int) :
    ∃ q, (promptKey E fs buf c).1 = (editorFindCallback E fs q c).1
      ∧ (promptKey E fs buf c).2.1 = (editorFindCallback E fs q c).2
      ∧ ∀ r, (promptKey E fs buf c).2.2 = PromptStep.done r → c = 13 ∨ c = 27 := by
  simp only [promptKey]
  split_ifs
  all_goals refine ⟨_, rfl, rfl, fun r hr => ?_⟩
  all_goals first
    | exact False.elim hr
    | exact Or.inr (by assumption)
    | exact Or.inl (by assumption)

/-- One key keeps the invariant of the running program. -/
theorem keyStep_ok (S S1 : Session) (c : Int) (h : SessionOk S) (hs : keyStep S c = some S1) :
    SessionOk S1 := by
  obtain ⟨hcur, hro, hsr, hfind, hmode⟩ := h
  obtain ⟨s1, s2, s3, s4, s5, s6, s7, s8, -⟩ := editorScroll_cursor S.E hcur hro hsr
  have s3b : (editorScroll S.E).rowoff ≤ (editorScroll S.E).cursorY := s3
  have hfindE : findOk (editorScroll S.E) S.fs := by
    simp only [findOk, s5]
    exact hfind
  simp only [keyStep, editorRefreshScreen] at hs
  rcases hw : S.waiting with _ | ⟨buf, cx, cy, co, ro⟩
  · rw [hw] at hs hmode
    simp only [] at hs hmode
    by_cases kq : c = CTRL_KEY 113
    · rw [if_pos kq] at hs
      split at hs
      · simp only [Option.some.injEq] at hs
        rw [← hs]
        exact ⟨s1, s2, by show 1 ≤ (editorScroll S.E).screenRows; rw [s8]; exact hsr, hfindE,
          hmode⟩
      · exact Option.noConfusion hs
    rw [if_neg kq] at hs
    by_cases ks : c = CTRL_KEY 115
    · rw [if_pos ks] at hs
      exact Option.noConfusion hs
    rw [if_neg ks] at hs
    by_cases kf : c = CTRL_KEY 102
    · rw [if_pos kf] at hs
      simp only [Option.some.injEq] at hs
      rw [← hs]
      exact ⟨s1, s2, by show 1 ≤ (editorScroll S.E).screenRows; rw [s8]; exact hsr, hfindE,
        ⟨s1.2, s2⟩⟩
    rw [if_neg kf] at hs
    simp only [Option.some.injEq] at hs
    rw [← hs]
    obtain ⟨p1, p2, p3⟩ := processKey_cursor (editorScroll S.E) c s1 s2 s3b
      (by rw [s8]; exact hsr)
    refine ⟨p1, ?_, ?_, ⟨hfind.1, Or.inl hmode⟩, hmode⟩
    · show 0 ≤ (processKey (editorScroll S.E) c).rowoff
      rw [p2]
      exact s2
    · show 1 ≤ (processKey (editorScroll S.E) c).screenRows
      rw [p3, s8]
      exact hsr
  · rw [hw] at hs hmode
    simp only [] at hs hmode
    obtain ⟨q, e1, e2, e3⟩ := promptKey_eq (editorScroll S.E) S.fs buf c
    obtain ⟨f1, f2, f3, f4, f5, f6, f7⟩ :=
      editorFindCallback_cursor (editorScroll S.E) S.fs q c s1 s2 hfindE
    rw [← e1] at f1 f2 f3 f4 f5 f6
    rw [← e2] at f6 f7
    have hsaved : cursorOkAt (promptKey (editorScroll S.E) S.fs buf c).1 cx cy := by
      rw [cursorOkAt_congr (editorScroll S.E) _ cx cy f1 f2,
        cursorOkAt_congr S.E (editorScroll S.E) cx cy (by rw [s4]) s5]
      exact hmode.1
    have hscreen : 1 ≤ (promptKey (editorScroll S.E) S.fs buf c).1.screenRows := by
      rw [f3, s8]
      exact hsr
    split at hs
    · simp only [Option.some.injEq] at hs
      rw [← hs]
      exact ⟨f4, f5, hscreen, f6, ⟨hsaved, hmode.2⟩⟩
    · rename_i query hq
      have hkey := e3 query hq
      simp only [Option.some.injEq] at hs
      rw [← hs]
      cases query with
      | some qq => exact ⟨f4, f5, hscreen, f6, f7 hkey⟩
      | none =>
        refine ⟨⟨f4.1, hsaved⟩, hmode.2, hscreen, f6, f7 hkey⟩

/-- Every sequence of keys keeps the invariant of the running program. -/
theorem runKeys_ok : ∀ (keys : List Int) (S S1 : Session), SessionOk S →
    runKeys S keys = some S1 → SessionOk S1 := by
  intro keys
  induction keys with
  | nil =>
    intro S S1 h hs
    simp only [runKeys, Option.some.injEq] at hs
    rw [← hs]
    exact h
  | cons c rest ih =>
    intro S S1 h hs
    simp only [runKeys] at hs
    split at hs
    · exact Option.noConfusion hs
    · rename_i S2 h2
      exact ih S2 S1 (keyStep_ok S S2 c h h2) hs

theorem keyStep_some (S : Session) (c : Int) (hq : c ≠ CTRL_KEY 113) (hs : c ≠ CTRL_KEY 115) :
    ∃ S1, keyStep S c = some S1 := by
  simp only [keyStep]
  rcases S.waiting with _ | ⟨buf, cx, cy, co, ro⟩
  · simp only []
    rw [if_neg hq, if_neg hs]
    split
    · exact ⟨_, rfl⟩
    · exact ⟨_, rfl⟩
  · simp only []
    split
    · exact ⟨_, rfl⟩
    · exact ⟨_, rfl⟩

/-- The program reads every key of a sequence without Ctrl-Q and Ctrl-S. -/
theorem runKeys_some : ∀ (keys : List Int) (S : Session),
    (∀ c ∈ keys, c ≠ CTRL_KEY 113 ∧ c ≠ CTRL_KEY 115) → ∃ S1, runKeys S keys = some S1 := by
  intro keys
  induction keys with
  | nil =>
    intro S _
    exact ⟨S, rfl⟩
  | cons c rest ih =>
    intro S h
    obtain ⟨S2, h2⟩ := keyStep_some S c (h c (List.mem_cons_self _ _)).1
      (h c (List.mem_cons_self _ _)).2
    obtain ⟨S3, h3⟩ := ih S2 (fun k hk => h k (List.mem_cons_of_mem _ hk))
    refine ⟨S3, ?_⟩
    simp only [runKeys, h2]
    exact h3

theorem editorSelectSyntaxHighlight_norows (E : editorConfig) (hnum : E.numRows = 0) :
    ∃ s, editorSelectSyntaxHighlight E = { E with syn := s } := by
  simp only [editorSelectSyntaxHighlight, hnum]
  split
  · exact ⟨_, rfl⟩
  · split
    · exact ⟨_, rfl⟩
    · exact ⟨_, rfl⟩

theorem openLoop_frame : ∀ (fuel : Nat) (E : editorConfig) (input : List Nat),
    (E.row.length : Int) = E.numRows →
    ((openLoop fuel E input).row.length : Int) = (openLoop fuel E input).numRows
    ∧ (openLoop fuel E input).cursorX = E.cursorX ∧ (openLoop fuel E input).cursorY = E.cursorY
    ∧ (openLoop fuel E input).rowoff = E.rowoff
    ∧ (openLoop fuel E input).screenRows = E.screenRows := by
  intro fuel
  induction fuel with
  | zero =>
    intro E input h
    exact ⟨h, rfl, rfl, rfl, rfl⟩
  | succ n ih =>
    intro E input h
    simp only [openLoop]
    split
    · exact ⟨h, rfl, rfl, rfl, rfl⟩
    · rename_i line rest _
      have hn : 0 ≤ E.numRows := by omega
      obtain ⟨rows, e1, -, l1⟩ := editorInsertRow_shape E E.numRows (stripEol line) hn
        (Int.le_refl _) h
      rw [e1]
      obtain ⟨a1, a2, a3, a4, a5⟩ := ih
        { E with row := rows, numRows := E.numRows + 1, dirty := wrapInt (E.dirty + 1) } rest l1
      exact ⟨a1, a2, a3, a4, a5⟩

/-- The state in which `main` enters its loop satisfies the cursor invariant. -/
theorem start_cursor (r c : Int) (name contents : List Nat) :
    (CursorOk (initEditor r c) ∧ (initEditor r c).rowoff = 0
      ∧ (initEditor r c).screenRows = r - 2)
    ∧ (CursorOk (editorOpen (initEditor r c) name contents)
      ∧ (editorOpen (initEditor r c) name contents).rowoff = 0
      ∧ (editorOpen (initEditor r c) name contents).screenRows = r - 2) := by
  have h0 : CursorOk (initEditor r c) := by
    simp [CursorOk, cursorOkAt, initEditor]
  refine ⟨⟨h0, rfl, rfl⟩, ?_⟩
  obtain ⟨s, es⟩ := editorSelectSyntaxHighlight_norows
    { initEditor r c with fileName := some (cstr name) } rfl
  simp only [editorOpen]
  rw [es]
  obtain ⟨a1, a2, a3, a4, a5⟩ := openLoop_frame contents.length
    { initEditor r c with fileName := some (cstr name), syn := s } contents rfl
  refine ⟨⟨a1, ?_, ?_, ?_, ?_⟩, a4, a5⟩
  · show 0 ≤ (openLoop _ _ _).cursorY
    rw [a3]
    exact Int.le_refl 0
  · show (openLoop _ _ _).cursorY ≤ (openLoop _ _ _).numRows
    rw [a3, ← a1]
    exact Int.ofNat_nonneg _
  · show 0 ≤ (openLoop _ _ _).cursorX
    rw [a2]
    exact Int.le_refl 0
  · show (openLoop _ _ _).cursorX ≤ _
    rw [a2]
    exact cursorLimit_nonneg _ _

theorem SessionOk_start (E : editorConfig) (h : CursorOk E) (hro : E.rowoff = 0)
    (hsr : 1 ≤ E.screenRows) : SessionOk (startSession E) :=
  ⟨h, by show 0 ≤ E.rowoff; omega, hsr, ⟨Or.inl rfl, Or.inl rfl⟩, rfl⟩

/-- C22: let the program start from the state after `initEditor` or after
`initEditor` and `editorOpen` (cursor at (0,0)) with `screenRows >= 1`.  In every
state it reaches by a sequence of keys of which it reads every one (none ends the
program by Ctrl-Q or calls `editorSave` by Ctrl-S), keys typed into the search prompt
and the negative keys of bytes from 128 on included, the row array holds `numRows`
rows, `0 <= cursorY <= numRows` and `0 <= cursorX <= L` with `L` the size of
`row[cursorY]`, 0 when `cursorY == numRows`;
so the accesses `row[cursorY]` and `row[cursorY - 1]` of `editorInsertChar`,
`editorInsertNewLine`, `editorDelChar` and `editorMoveCursor` are inside the row
array.  The same holds behind the `editorRefreshScreen` the program runs before it
reads the next key.  Every sequence of keys without Ctrl-Q and Ctrl-S is read to its
end.  Inside the Page Up and Page Down handling, where the column may exceed `L`
for a moment, `editorMoveCursor` restores the invariant from any row in
`[0, numRows]` and any column that is not negative. -/
theorem C22_cursor_invariant (r c : Int) (name contents : List Nat) (E0 : editorConfig)
    (keys : List Int)
    (h0 : E0 = initEditor r c ∨ E0 = editorOpen (initEditor r c) name contents)
    (hsr : 1 ≤ E0.screenRows) :
    (∀ S, runKeys (startSession E0) keys = some S →
        (CursorOk S.E ∧ rowAccessOk S.E)
        ∧ (CursorOk (editorRefreshScreen S.E) ∧ rowAccessOk (editorRefreshScreen S.E)))
    ∧ ((∀ k ∈ keys, k ≠ CTRL_KEY 113 ∧ k ≠ CTRL_KEY 115) →
        ∃ S, runKeys (startSession E0) keys = some S)
    ∧ (∀ (E : editorConfig) (key : Int), (E.row.length : Int) = E.numRows → 0 ≤ E.cursorY →
        E.cursorY ≤ E.numRows → 0 ≤ E.cursorX →
        CursorOk (editorMoveCursor E key) ∧ rowAccessOk (editorMoveCursor E key)) := by
  have hstart : SessionOk (startSession E0) := by
    obtain ⟨⟨a1, a2, -⟩, ⟨b1, b2, -⟩⟩ := start_cursor r c name contents
    rcases h0 with e | e
    · rw [e] at hsr ⊢
      exact SessionOk_start _ a1 a2 hsr
    · rw [e] at hsr ⊢
      exact SessionOk_start _ b1 b2 hsr
  refine ⟨?_, fun hk => runKeys_some keys _ hk, ?_⟩
  · intro S hS
    have hok := runKeys_ok keys _ S hstart hS
    have hsc := (editorScroll_cursor S.E hok.cursor hok.rowoff hok.screen).1
    exact ⟨⟨hok.cursor, rowAccessOk_of_CursorOk _ hok.cursor⟩,
      ⟨hsc, rowAccessOk_of_CursorOk _ hsc⟩⟩
  · intro E key hl hy0 hy1 hx0
    have := editorMoveCursor_cursor E key hl hy0 hy1 hx0
    exact ⟨this, rowAccessOk_of_CursorOk _ this⟩

set_option maxRecDepth 100000 in
/-- C22 on the file with the lines `ab`, `cd` and the keys Down, End, Enter, `x`,
Page Up, Ctrl-F, `c`, Enter: the rows end as `ab`, `cd`, `x` with the cursor at the
match, column 0 of row 1.  With the keys Down, byte 200, Up, Ctrl-F, byte 200, Enter
the byte is put in front of `cd`, joins the query as a negative key, and the search
moves the cursor to it. -/
theorem C22_cursor_invariant_witness :
    ((docOpen = initEditor 24 80
        ∨ docOpen = editorOpen (initEditor 24 80) (bytes "x.c") (bytes "ab\ncd\n"))
      ∧ 1 ≤ docOpen.screenRows)
    ∧ (runKeys (startSession docOpen) someKeys).map
          (fun S => (S.E.cursorX, S.E.cursorY, S.E.numRows, S.E.row.map erow.chars))
        = some (0, 1, 3, [bytes "ab", bytes "cd", bytes "x"])
    ∧ (∀ S, runKeys (startSession docOpen) someKeys = some S →
        (CursorOk S.E ∧ rowAccessOk S.E)
        ∧ (CursorOk (editorRefreshScreen S.E) ∧ rowAccessOk (editorRefreshScreen S.E)))
    ∧ (runKeys (startSession docOpen) highKeys).map
          (fun S => (S.E.cursorX, S.E.cursorY, S.E.numRows, S.E.row.map erow.chars))
        = some (0, 1, 2, [bytes "ab", [200, 99, 100]])
    ∧ (runKeys (startSession docOpen) (highKeys.take 5)).map (fun S => S.waiting)
        = some (Waiting.find [200] 1 0 0 0)
    ∧ (∀ S, runKeys (startSession docOpen) highKeys = some S →
        (CursorOk S.E ∧ rowAccessOk S.E)
        ∧ (CursorOk (editorRefreshScreen S.E) ∧ rowAccessOk (editorRefreshScreen S.E))) :=
  ⟨⟨Or.inr rfl, by decide⟩, by decide,
    (C22_cursor_invariant 24 80 (bytes "x.c") (bytes "ab\ncd\n") docOpen someKeys (Or.inr rfl)
      (by decide)).1,
    by decide, by decide,
    (C22_cursor_invariant 24 80 (bytes "x.c") (bytes "ab\ncd\n") docOpen highKeys (Or.inr rfl)
      (by decide)).1⟩

end WriteAM
